import Mathlib

/-!
# go-idsrules: the rule parser (`parse.go`, `rule.go`)

A shallow embedding of the IDS rule parser.  Go strings are modelled as lists of
characters (`Str`); the input is taken to be valid UTF-8 text, so that the byte
offsets at which the parser cuts a string (0, `len`, a result of
`strings.IndexFunc` or `strings.Index`, and 1 behind an ASCII character) lie on
character boundaries and correspond to positions in the list.  The one-byte
slices `buf[0:1]` and `buf[buflen-1:buflen]` of `trimQuotes` are only compared
with `"`, which the first and the last character decide; the one-byte slice
`rem[0:1]` of `Parse` is also printed in an error, and is modelled on the
UTF-8 bytes of the string (`byteSlice`).

Runtime panics are explicit: a slice expression `s[i:j]` is `slice s i j`,
which is `none` when the bounds are out of range, and `Parse` returns an
`Outcome` that distinguishes a normal return from a panic.

`ParseReader` is modelled on an in-memory reader: the reader is the text still
to be read, and `ReadBytes` reports no error other than the end of the input.
-/

namespace IdsRules

/-- A Go string, as the list of its characters. -/
abbrev Str := List Char

/-! ## The Go standard library functions used by the parser -/

/-- The Go slice expression `s[i:j]`: `none` stands for the runtime panic
"slice bounds out of range", raised unless `i ≤ j ≤ len(s)`. -/
def slice (s : Str) (i j : Nat) : Option Str :=
  if i ≤ j ∧ j ≤ s.length then some ((s.take j).drop i) else none

/-- The UTF-8 encoding of a character, as the list of its bytes. -/
def utf8 (c : Char) : List Nat :=
  let n := c.toNat
  if n < 0x80 then [n]
  else if n < 0x800 then [0xc0 + n / 0x40, 0x80 + n % 0x40]
  else if n < 0x10000 then [0xe0 + n / 0x1000, 0x80 + n / 0x40 % 0x40, 0x80 + n % 0x40]
  else [0xf0 + n / 0x40000, 0x80 + n / 0x1000 % 0x40, 0x80 + n / 0x40 % 0x40,
    0x80 + n % 0x40]

/-- The bytes of a Go string. -/
def bytes : Str → List Nat
  | [] => []
  | c :: cs => utf8 c ++ bytes cs

/-- The Go slice expression `s[i:j]` read as bytes, for offsets that need not
lie on a character boundary: the bytes number `i` to `j - 1` of the string;
`none` stands for the runtime panic "slice bounds out of range". -/
def byteSlice (s : Str) (i j : Nat) : Option (List Nat) :=
  if i ≤ j ∧ j ≤ (bytes s).length then some (((bytes s).take j).drop i) else none

/-- Go `unicode.IsSpace`: the Unicode White_Space property. -/
def isSpace (c : Char) : Bool :=
  let n := c.toNat
  (0x09 ≤ n && n ≤ 0x0d) || n == 0x20 || n == 0x85 || n == 0xa0 || n == 0x1680 ||
  (0x2000 ≤ n && n ≤ 0x200a) || n == 0x2028 || n == 0x2029 || n == 0x202f ||
  n == 0x205f || n == 0x3000

/-- Go `strings.TrimSpace`: leading and trailing white space removed. -/
def TrimSpace (s : Str) : Str :=
  (s.dropWhile isSpace).rdropWhile isSpace

/-- Go `strings.TrimLeft(s, cutset)`. -/
def TrimLeft (s cutset : Str) : Str :=
  s.dropWhile (fun c => decide (c ∈ cutset))

/-- Go `strings.HasPrefix`. -/
def HasPrefix (s pre : Str) : Bool :=
  pre.isPrefixOf s

/-- Go `strings.HasSuffix`. -/
def HasSuffix (s suf : Str) : Bool :=
  suf.isSuffixOf s

/-- Go `strings.TrimPrefix`. -/
def TrimPrefix (s pre : Str) : Str :=
  if HasPrefix s pre then s.drop pre.length else s

/-- Go `strings.Index`: the position of the first occurrence of `sep` in `s`. -/
def Index : Str → Str → Option Nat
  | [], sep => if sep = [] then some 0 else none
  | c :: cs, sep =>
    if sep.isPrefixOf (c :: cs) then some 0 else (Index cs sep).map (· + 1)

/-- Go `strings.SplitN(s, sep, 2)`: at most two substrings.  An empty separator
splits after the first character, and gives no substring at all for an empty
`s`. -/
def SplitN2 (s sep : Str) : List Str :=
  if sep = [] then
    match s with
    | [] => []
    | [c] => [[c]]
    | c :: cs => [[c], cs]
  else
    match Index s sep with
    | none => [s]
    | some m => [s.take m, s.drop (m + sep.length)]

/-- Go `strings.IndexFunc(s, f)` for a closure `f` that reads and writes a
captured variable of type `σ`: the position of the first character on which `f`
returns true (`none` for Go's `-1`), with the final value of the variable. -/
def IndexFunc {σ : Type} (f : σ → Char → Bool × σ) : σ → Str → Option Nat × σ
  | st, [] => (none, st)
  | st, c :: cs =>
    match f st c with
    | (true, st1) => (some 0, st1)
    | (false, st1) =>
      match IndexFunc f st1 cs with
      | (r, st2) => (r.map (· + 1), st2)

/-- The digit loop of Go `strconv.ParseUint(s, 10, 64)`: `none` is an error
(`ErrSyntax` on a character that is not a decimal digit, `ErrRange` when the
value leaves 64 bits). -/
def parseUintLoop : Nat → Str → Option Nat
  | n, [] => some n
  | n, c :: cs =>
    if ¬ (c.toNat ≥ 48 ∧ c.toNat ≤ 57) then none
    else if n ≥ (2 ^ 64 - 1) / 10 + 1 then none
    else if n * 10 + (c.toNat - 48) > 2 ^ 64 - 1 then none
    else parseUintLoop (n * 10 + (c.toNat - 48)) cs

/-- Go `strconv.ParseUint(s, 10, 64)`; `none` is a non-nil error. -/
def ParseUint (s : Str) : Option Nat :=
  if s = [] then none else parseUintLoop 0 s

/-! ## `rule.go` -/

/-- The struct `RuleOption`. -/
structure RuleOption where
  Option : Str
  Args : Str
deriving DecidableEq

/-- The struct `Rule`; the default value of each field is Go's zero value. -/
structure Rule where
  Raw : Str := []
  Enabled : Bool := false
  Action : Str := []
  Proto : Str := []
  SourceAddr : Str := []
  SourcePort : Str := []
  Direction : Str := []
  DestAddr : Str := []
  DestPort : Str := []
  Options : List RuleOption := []
  Msg : Str := []
  Sid : Nat := 0
  Gid : Nat := 0
deriving DecidableEq

/-! ## `parse.go` -/

/-- The errors `Parse` and `parseOption` create, one constructor per message;
`failedToParseSid` is used for both `sid` and `gid`, as in the source.  The
text `rem[0:1]` named by "expected (, got ..." is one byte, which need not be
a whole character, and is kept as bytes. -/
inductive ParseError where
  | errIncompleteRule
  | invalidDirection (direction : Str)
  | expectedParen (got : List Nat)
  | unterminatedOption
  | noArgument
  | unterminatedOptionArgument
  | failedToParseSid (arg : Str)
deriving DecidableEq

/-- How a call ends: it returns a value, panics at run time, or exhausts the
fuel of the model. -/
inductive Outcome (α : Type) where
  | returned (a : α)
  | panicked
  | outOfFuel
deriving DecidableEq

/-- `trimQuotes` (parse.go 36-46); `none` is a slice-bounds panic. -/
def trimQuotes (buf : Str) : Option Str :=
  let buflen := buf.length
  if buflen = 0 then some buf
  else
    match slice buf 0 1, slice buf (buflen - 1) buflen with
    | some first, some last =>
      if first = ['"'] ∧ last = ['"'] then slice buf 1 (buflen - 1) else some buf
    | _, _ => none

/-- `trimLeadingWhiteSpace` (parse.go 48-51). -/
def trimLeadingWhiteSpace (buf : Str) : Str :=
  TrimLeft buf [' ']

/-- `splitAt` (parse.go 53-64); `none` is the index panic of `parts[0]` on an
empty `parts`. -/
def splitAt (buf sep : Str) : Option (Str × Str) :=
  match SplitN2 buf sep with
  | [] => none
  | [p0] => some (TrimSpace p0, [])
  | p0 :: p1 :: _ => some (TrimSpace p0, TrimSpace p1)

/-- The closure of the first `IndexFunc` call of `parseOption` (parse.go
77-86); the state is the captured variable `hasArg`. -/
def optDelim (hasArg : Bool) (r : Char) : Bool × Bool :=
  if r = ';' then (true, hasArg)
  else if r = ':' then (true, true)
  else (false, hasArg)

/-- The closure of the second `IndexFunc` call of `parseOption` (parse.go
100-109); the state is the captured variable `escaped`. -/
def argDelim (escaped : Bool) (r : Char) : Bool × Bool :=
  if escaped then (false, false)
  else if r = '\\' then (false, true)
  else if r = ';' then (true, escaped)
  else (false, escaped)

/-- `parseOption` (parse.go 69-119): the option, its argument, the remainder of
the rule and the error; `none` is a panic. -/
def parseOption (rule : Str) : Option (Str × Str × Str × Option ParseError) :=
  let option : Str := []
  let arg : Str := []
  let rule := trimLeadingWhiteSpace rule
  match IndexFunc optDelim false rule with
  | (none, _) => some (option, arg, rule, some .unterminatedOption)
  | (some optend, hasArg) =>
    match slice rule 0 optend, slice rule (optend + 1) rule.length with
    | some option, some rule =>
      if hasArg then
        if rule.length = 0 then some (option, arg, rule, some .noArgument)
        else
          match IndexFunc argDelim false rule with
          | (none, _) => some (option, arg, rule, some .unterminatedOptionArgument)
          | (some argend, _) =>
            match slice rule 0 argend, slice rule (argend + 1) rule.length with
            | some arg, some rule =>
              (trimQuotes arg).map (fun a => (option, a, rule, none))
            | _, _ => none
      else (trimQuotes arg).map (fun a => (option, a, rule, none))
    | _, _ => none

/-- The `for` loop of `Parse` (parse.go 195-231), one iteration per unit of
fuel. -/
def optionLoop : Nat → Str → Rule → Outcome (Rule × Option ParseError)
  | 0, _, _ => .outOfFuel
  | fuel + 1, buf, rule =>
    if buf.length = 0 then .returned (rule, some .errIncompleteRule)
    else
      let buf := trimLeadingWhiteSpace buf
      if HasPrefix buf [')'] then .returned (rule, none)
      else
        match parseOption buf with
        | none => .panicked
        | some (_, _, _, some err) => .returned (rule, some err)
        | some (option, arg, buf, none) =>
          let rule := { rule with Options := rule.Options ++ [⟨option, arg⟩] }
          if option = ['m', 's', 'g'] then
            optionLoop fuel buf { rule with Msg := arg }
          else if option = ['s', 'i', 'd'] then
            match ParseUint arg with
            | none => .returned (rule, some (.failedToParseSid arg))
            | some sid => optionLoop fuel buf { rule with Sid := sid }
          else if option = ['g', 'i', 'd'] then
            match ParseUint arg with
            | none => .returned (rule, some (.failedToParseSid arg))
            | some gid => optionLoop fuel buf { rule with Gid := gid }
          else optionLoop fuel buf rule

/-- The part of `Parse` after the header (parse.go 181-233): the check for the
opening parenthesis and the option loop.  `rem[offset:offset+1]` and `rem[0:1]`
take one byte of `rem`; past a first byte `(` the offset 1 is a character
boundary.  The loop consumes at least one character per iteration, so
`len(buf) + 1` iterations are enough. -/
def parseOptions (rule : Rule) (rem : Str) : Outcome (Rule × Option ParseError) :=
  let offset := 0
  match byteSlice rem offset (offset + 1) with
  | none => .panicked
  | some c =>
    if c ≠ bytes ['('] then
      match byteSlice rem 0 1 with
      | none => .panicked
      | some got => .returned (rule, some (.expectedParen got))
    else
      let offset := offset + 1
      match slice rem offset rem.length with
      | none => .panicked
      | some buf => optionLoop (buf.length + 1) buf rule

/-- The header part of `Parse` (parse.go 136-179): the seven fields are split
off one after the other, each followed by the check that text remains.  The
direction validator `validateDirection` is not part of the translated sources
and is a parameter. -/
def parseFields (validateDirection : Str → Bool) (rule : Rule) (buf : Str) :
    Outcome (Rule × Option ParseError) :=
  match splitAt buf [' '] with
  | none => .panicked
  | some (action, rem) =>
  let rule := { rule with Action := action }
  if rem.length = 0 then .returned (rule, some .errIncompleteRule) else
  match splitAt rem [' '] with
  | none => .panicked
  | some (proto, rem) =>
  let rule := { rule with Proto := proto }
  if rem.length = 0 then .returned (rule, some .errIncompleteRule) else
  match splitAt rem [' '] with
  | none => .panicked
  | some (sourceAddr, rem) =>
  let rule := { rule with SourceAddr := sourceAddr }
  if rem.length = 0 then .returned (rule, some .errIncompleteRule) else
  match splitAt rem [' '] with
  | none => .panicked
  | some (sourcePort, rem) =>
  let rule := { rule with SourcePort := sourcePort }
  if rem.length = 0 then .returned (rule, some .errIncompleteRule) else
  match splitAt rem [' '] with
  | none => .panicked
  | some (direction, rem) =>
  if ¬ validateDirection direction then
    .returned (rule, some (.invalidDirection direction)) else
  let rule := { rule with Direction := direction }
  if rem.length = 0 then .returned (rule, some .errIncompleteRule) else
  match splitAt rem [' '] with
  | none => .panicked
  | some (destAddr, rem) =>
  let rule := { rule with DestAddr := destAddr }
  if rem.length = 0 then .returned (rule, some .errIncompleteRule) else
  match splitAt rem [' '] with
  | none => .panicked
  | some (destPort, rem) =>
  let rule := { rule with DestPort := destPort }
  if rem.length = 0 then .returned (rule, some .errIncompleteRule) else
  parseOptions rule rem

/-- `Parse` (parse.go 122-234): leading spaces are removed, the enable status
is read (parse.go 125-134), and the header and the options follow. -/
def Parse (validateDirection : Str → Bool) (buf : Str) :
    Outcome (Rule × Option ParseError) :=
  let rule : Rule := {}
  let buf := trimLeadingWhiteSpace buf
  if ¬ HasPrefix buf ['#'] then
    parseFields validateDirection { rule with Enabled := true } buf
  else
    let buf := TrimPrefix buf ['#']
    let buf := trimLeadingWhiteSpace buf
    parseFields validateDirection rule buf

/-- Modelled from the spec: `validateDirection` is consumed by `Parse` but its
definition is not among the sources; the spec describes it as a pure predicate
recognising the directional operators of the header grammar ("source to
destination" and "bidirectional").  Used for concrete evaluations only. -/
def validateDirection (direction : Str) : Bool :=
  direction = ['-', '>'] || direction = ['<', '>']

/-! ## Vocabulary of the statements -/

/-- A run of `n` space characters. -/
def spaces (n : Nat) : Str :=
  List.replicate n ' '

/-- A header token: non-empty and free of white space. -/
def Token (t : Str) : Prop :=
  t ≠ [] ∧ ∀ c ∈ t, isSpace c = false

/-- A string that is non-empty and neither begins nor ends with white space. -/
def Tight (s : Str) : Prop :=
  (∃ c, s.head? = some c ∧ isSpace c = false) ∧
  (∃ d, s.getLast? = some d ∧ isSpace d = false)

/-- An option name as `parseOption` reads one back: free of `;` and `:` and not
beginning with a space. -/
def OptName (n : Str) : Prop :=
  ';' ∉ n ∧ ':' ∉ n ∧ n.head? ≠ some ' '

/-- The argument text `w`, followed by `;`, is scanned to exactly that `;`. -/
def ArgText (w : Str) : Prop :=
  ∀ rest : Str, (IndexFunc argDelim false (w ++ ';' :: rest)).1 = some w.length

/-- One option as written in the text of a rule: `pad` spaces, the name, and
either `;` (no argument text) or `:`, the argument text and `;`. -/
structure Written where
  pad : Nat
  name : Str
  raw : Option Str

/-- The text of a written option, followed by `rest`. -/
def Written.text (o : Written) (rest : Str) : Str :=
  spaces o.pad ++ (o.name ++
    match o.raw with
    | none => ';' :: rest
    | some w => ':' :: (w ++ ';' :: rest))

/-- The text of a sequence of written options, followed by `rest`. -/
def writtenAll : List Written → Str → Str
  | [], rest => rest
  | o :: os, rest => o.text (writtenAll os rest)

/-- The written option `o` is scanned by `parseOption` as the pair
`(o.name, v)`. -/
def Written.Scans (o : Written) (v : Str) : Prop :=
  OptName o.name ∧ o.name.head? ≠ some ')' ∧
  (match o.raw with
   | none => v = []
   | some w => ArgText w ∧ trimQuotes w = some v)

/-- The written option `o` is read back as the pair `(o.name, v)`, and as a
number when it is named `sid` or `gid`. -/
def Written.Reads (o : Written) (v : Str) : Prop :=
  o.Scans v ∧
  ((o.name = ['s', 'i', 'd'] ∨ o.name = ['g', 'i', 'd']) → (ParseUint v).isSome)

/-- The effect of one successful iteration of the option loop on the rule
(parse.go 212-230). -/
def Rule.push (rule : Rule) (o : RuleOption) : Rule :=
  let rule := { rule with Options := rule.Options ++ [o] }
  if o.Option = ['m', 's', 'g'] then { rule with Msg := o.Args }
  else if o.Option = ['s', 'i', 'd'] then
    match ParseUint o.Args with
    | none => rule
    | some sid => { rule with Sid := sid }
  else if o.Option = ['g', 'i', 'd'] then
    match ParseUint o.Args with
    | none => rule
    | some gid => { rule with Gid := gid }
  else rule

/-- The header of a rule as written: the seven tokens, the number of leading
spaces, and the number of extra spaces in each of the six gaps between the
tokens (a gap is one space more). -/
structure Header where
  action : Str
  proto : Str
  srcAddr : Str
  srcPort : Str
  dir : Str
  dstAddr : Str
  dstPort : Str
  lead : Nat := 0
  g1 : Nat := 0
  g2 : Nat := 0
  g3 : Nat := 0
  g4 : Nat := 0
  g5 : Nat := 0
  g6 : Nat := 0

/-- The text of a header, followed by `rest`. -/
def Header.text (h : Header) (rest : Str) : Str :=
  spaces h.lead ++ (h.action ++ (spaces (h.g1 + 1) ++ (h.proto ++ (spaces (h.g2 + 1) ++
    (h.srcAddr ++ (spaces (h.g3 + 1) ++ (h.srcPort ++ (spaces (h.g4 + 1) ++
    (h.dir ++ (spaces (h.g5 + 1) ++ (h.dstAddr ++ (spaces (h.g6 + 1) ++
    (h.dstPort ++ rest)))))))))))))

/-- A valid seven-field header: seven tokens, the action not beginning with
`#`, the direction accepted by the validator. -/
def Header.Valid (validateDirection : Str → Bool) (h : Header) : Prop :=
  Token h.action ∧ Token h.proto ∧ Token h.srcAddr ∧ Token h.srcPort ∧ Token h.dir ∧
  Token h.dstAddr ∧ Token h.dstPort ∧ h.action.head? ≠ some '#' ∧
  validateDirection h.dir = true

/-- The rule `Parse` has built when it has read the header `h`. -/
def Header.rule (h : Header) : Rule :=
  { Enabled := true, Action := h.action, Proto := h.proto, SourceAddr := h.srcAddr,
    SourcePort := h.srcPort, Direction := h.dir, DestAddr := h.dstAddr,
    DestPort := h.dstPort }

/-- An ASCII decimal digit. -/
def IsDigit (c : Char) : Prop :=
  48 ≤ c.toNat ∧ c.toNat ≤ 57

/-- A non-empty string of ASCII decimal digits. -/
def Numeral (s : Str) : Prop :=
  s ≠ [] ∧ ∀ c ∈ s, IsDigit c

/-- The value of a string of decimal digits read in base 10, continuing from
`n`. -/
def digitsValue (n : Nat) (s : Str) : Nat :=
  s.foldl (fun acc c => acc * 10 + (c.toNat - 48)) n

/-- The base-10 value of a numeral. -/
def numeralValue (s : Str) : Nat :=
  digitsValue 0 s

/-- Zero or more options written `name;` one after the other. -/
def bareOptions : List Str → Str
  | [] => []
  | n :: ns => n ++ ';' :: bareOptions ns

/-- The name of an option of a well-formed option list: non-empty, free of `;`
and `:`, and not beginning with a space or `)`. -/
def OptionName (n : Str) : Prop :=
  n ≠ [] ∧ ';' ∉ n ∧ ':' ∉ n ∧ n.head? ≠ some ' ' ∧ n.head? ≠ some ')'

instance (t : Str) : Decidable (Token t) := by
  unfold Token
  infer_instance

instance (n : Str) : Decidable (OptName n) := by
  unfold OptName
  infer_instance

instance (n : Str) : Decidable (OptionName n) := by
  unfold OptionName
  infer_instance

instance (vd : Str → Bool) (h : Header) : Decidable (h.Valid vd) := by
  unfold Header.Valid
  infer_instance

instance (c : Char) : Decidable (IsDigit c) := by
  unfold IsDigit
  infer_instance

instance (s : Str) : Decidable (Numeral s) := by
  unfold Numeral
  infer_instance

/-- The three ways of writing an option `(name, value)`: `name:"value";`,
`name:value;` and `name;`. -/
inductive Form where
  | quoted
  | plain
  | bare
deriving DecidableEq

/-- A `(name, value)` pair with the way it is written and the number of spaces
written before it. -/
structure Item where
  name : Str
  value : Str
  form : Form
  pad : Nat := 0

/-- The pair as written in the rule text. -/
def Item.written (i : Item) : Written :=
  { pad := i.pad, name := i.name,
    raw := match i.form with
      | .quoted => some ('"' :: (i.value ++ ['"']))
      | .plain => some i.value
      | .bare => none }

/-- The conditions of a formatted pair: a well-formed name, a value free of `;`
and `\`, a decimal numeral below 2^64 as the value of `sid` and `gid`, the
unquoted form only for a value that does not both begin and end with a double
quote, the bare form only for the empty value. -/
def Item.Valid (i : Item) : Prop :=
  OptionName i.name ∧ ';' ∉ i.value ∧ '\\' ∉ i.value ∧
  ((i.name = ['s', 'i', 'd'] ∨ i.name = ['g', 'i', 'd']) →
    Numeral i.value ∧ numeralValue i.value < 2 ^ 64) ∧
  (i.form = .plain → ¬ (i.value.head? = some '"' ∧ i.value.getLast? = some '"')) ∧
  (i.form = .bare → i.value = [])

instance (i : Item) : Decidable i.Valid := by
  unfold Item.Valid
  infer_instance

/-- The `Args` of the last option named `name`, if there is one. -/
def lastArg (name : Str) (opts : List RuleOption) : Option Str :=
  ((opts.filter (fun o => decide (o.Option = name))).getLast?).map (fun o => o.Args)

/-- The promoted fields of `rule` are the projection of its option list: `Msg`
is the argument of the last `msg` option (empty without one), `Sid` and `Gid`
the base-10 value of the argument of the last `sid` and `gid` option (0 without
one). -/
def Promoted (rule : Rule) : Prop :=
  rule.Msg = (lastArg ['m', 's', 'g'] rule.Options).getD [] ∧
  (match lastArg ['s', 'i', 'd'] rule.Options with
   | none => rule.Sid = 0
   | some a => ParseUint a = some rule.Sid) ∧
  (match lastArg ['g', 'i', 'd'] rule.Options with
   | none => rule.Gid = 0
   | some a => ParseUint a = some rule.Gid)

/-- The rule of example scenario 1 of the spec, the result of parsing
`alert tcp any any -> any 80 (msg:"test rule"; sid:1; gid:1;)`. -/
def scenario1 : Rule :=
  { Enabled := true, Action := "alert".toList, Proto := "tcp".toList,
    SourceAddr := "any".toList, SourcePort := "any".toList, Direction := "->".toList,
    DestAddr := "any".toList, DestPort := "80".toList,
    Options := [⟨"msg".toList, "test rule".toList⟩, ⟨"sid".toList, "1".toList⟩,
      ⟨"gid".toList, "1".toList⟩],
    Msg := "test rule".toList, Sid := 1, Gid := 1 }

/-- The rule `Parse` returns on `\t#alert tcp any any -> any any (msg:"disabled";)`. -/
def tabHashRule : Rule :=
  { Enabled := true, Action := "#alert".toList, Proto := "tcp".toList,
    SourceAddr := "any".toList, SourcePort := "any".toList, Direction := "->".toList,
    DestAddr := "any".toList, DestPort := "any".toList,
    Options := [⟨"msg".toList, "disabled".toList⟩], Msg := "disabled".toList }

/-- The rule `Parse` returns on `\t tcp any any -> any any (x;)`. -/
def emptyActionRule : Rule :=
  { Enabled := true, Action := [], Proto := "tcp".toList,
    SourceAddr := "any".toList, SourcePort := "any".toList, Direction := "->".toList,
    DestAddr := "any".toList, DestPort := "any".toList,
    Options := [⟨"x".toList, []⟩] }

/-- The rule `Parse` returns on
`alert tcp any any -> any any (msg:"esc\;aped";)`. -/
def scenario3 : Rule :=
  { Enabled := true, Action := "alert".toList, Proto := "tcp".toList,
    SourceAddr := "any".toList, SourcePort := "any".toList, Direction := "->".toList,
    DestAddr := "any".toList, DestPort := "any".toList,
    Options := [⟨"msg".toList, "esc\\;aped".toList⟩], Msg := "esc\\;aped".toList }

/-- Tokens separated by runs of one or more spaces, with nothing before the
first and nothing after the last; each token comes with the number of extra
spaces that follow it (unused for the last token). -/
def joinTokens : List (Str × Nat) → Str
  | [] => []
  | [(t, _)] => t
  | (t, g) :: p :: ps => t ++ (spaces (g + 1) ++ joinTokens (p :: ps))

/-- The error of a call that returned; `none` when the call returned no error
or did not return. -/
def errorOf (o : Outcome (Rule × Option ParseError)) : Option ParseError :=
  match o with
  | .returned (_, e) => e
  | _ => none

/-- The header `alert tcp any any -> any any`, single spaces, no leading space. -/
def scenario3Header : Header :=
  { action := "alert".toList, proto := "tcp".toList, srcAddr := "any".toList,
    srcPort := "any".toList, dir := "->".toList, dstAddr := "any".toList,
    dstPort := "any".toList }

/-- The argument `parseOption` returns for a written option: the empty string
without argument text, else the argument text with its quotes trimmed (`none`
when `trimQuotes` panics). -/
def Written.value (o : Written) : Option Str :=
  match o.raw with
  | none => some []
  | some w => trimQuotes w

/-- A complete option that the loop accepts: a name, possibly empty, free of
`;` and `:` and not beginning with a space or `)`, argument text free of `;`
and `\`, an argument that `trimQuotes` returns, and a decimal numeral below
2^64 as the argument of `sid` and `gid`. -/
def Written.Complete (o : Written) : Prop :=
  (OptName o.name ∧ o.name.head? ≠ some ')') ∧ (∀ w ∈ o.raw, ';' ∉ w ∧ '\\' ∉ w) ∧
  ∃ v ∈ o.value, (o.name = ['s', 'i', 'd'] ∨ o.name = ['g', 'i', 'd']) →
    Numeral v ∧ numeralValue v < 2 ^ 64

instance (o : Written) : Decidable o.Complete := by
  unfold Written.Complete
  infer_instance

/-- Whether `w` contains an unescaped `;`, read left to right with an escape
flag: a backslash read while the flag is off turns it on, the character read
while the flag is on is taken literally and turns it off, and a `;` read
while the flag is off is unescaped. -/
def hasUnescapedSemi : Bool → Str → Bool
  | _, [] => false
  | true, _ :: cs => hasUnescapedSemi false cs
  | false, c :: cs =>
    if c = '\\' then hasUnescapedSemi true cs
    else if c = ';' then true
    else hasUnescapedSemi false cs

/-- Case (1) of the errors of `parseOption`: the buffer contains neither `;`
nor `:`. -/
def UnterminatedOption (s : Str) : Prop :=
  ';' ∉ s ∧ ':' ∉ s

/-- Case (2): the first `;` or `:` of the buffer is a `:` that is its last
character. -/
def NoArgument (s : Str) : Prop :=
  ∃ n, s = n ++ [':'] ∧ ';' ∉ n ∧ ':' ∉ n

/-- Case (3): the first `;` or `:` of the buffer is a `:` followed by
non-empty text that contains no unescaped `;`. -/
def UnterminatedArgument (s : Str) : Prop :=
  ∃ n w, s = n ++ ':' :: w ∧ ';' ∉ n ∧ ':' ∉ n ∧ w ≠ [] ∧ hasUnescapedSemi false w = false

/-- The rule `Parse` returns on
`alert tcp any any -> any any (msg:x;) garbage`. -/
def garbageRule : Rule :=
  { Enabled := true, Action := "alert".toList, Proto := "tcp".toList,
    SourceAddr := "any".toList, SourcePort := "any".toList, Direction := "->".toList,
    DestAddr := "any".toList, DestPort := "any".toList,
    Options := [⟨"msg".toList, "x".toList⟩], Msg := "x".toList }

/-- The errors of a read: the end of the input, or any other error. -/
inductive ReadError where
  | EOF
  | other
deriving DecidableEq

/-- `(*bufio.Reader).ReadBytes(delim)` on a reader over an in-memory text, the
reader being the text not yet read: the bytes up to and including the first
`delim`, or, when there is none, the rest of the text with `io.EOF`; the third
component is the reader after the call. -/
def ReadBytes (delim : Char) : Str → Str × Option ReadError × Str
  | [] => ([], some .EOF, [])
  | c :: cs =>
    if c = delim then ([c], none, cs)
    else
      match ReadBytes delim cs with
      | (bytes, err, reader) => (c :: bytes, err, reader)

/-- The block `if len(bytes) > 0 { ... }` of `ParseReader` (parse.go 251-266):
the new values of `rules` and `buffered`. -/
def readerStep (validateDirection : Str → Bool) (bytes : Str) (rules : List Rule)
    (buffered : Str) : Outcome (List Rule × Str) :=
  if bytes.length > 0 then
    let line := TrimSpace bytes
    if HasSuffix line ['\\'] then
      match slice line 0 (line.length - 1) with
      | none => .panicked
      | some cut => .returned (rules, buffered ++ [' '] ++ cut)
    else
      let buffered := buffered ++ [' '] ++ line
      match Parse validateDirection (TrimSpace buffered) with
      | .returned (rule, none) => .returned (rules ++ [rule], [])
      | .returned (_, some _) => .returned (rules, [])
      | .panicked => .panicked
      | .outOfFuel => .outOfFuel
  else .returned (rules, buffered)

/-- The `for` loop of `ParseReader` (parse.go 245-271), one iteration per unit
of fuel.  An in-memory reader reports no error other than `io.EOF`, so the
first `return` is never taken, but it is part of the loop. -/
def readerLoop (validateDirection : Str → Bool) :
    Nat → Str → List Rule → Str → Outcome (List Rule × Option ReadError)
  | 0, _, _, _ => .outOfFuel
  | fuel + 1, reader, rules, buffered =>
    match ReadBytes '\n' reader with
    | (bytes, err, reader) =>
      if err ≠ none ∧ err ≠ some .EOF then .returned ([], err)
      else
        match readerStep validateDirection bytes rules buffered with
        | .panicked => .panicked
        | .outOfFuel => .outOfFuel
        | .returned (rules, buffered) =>
          if err ≠ none ∧ err = some .EOF then .returned (rules, none)
          else readerLoop validateDirection fuel reader rules buffered

/-- `ParseReader` (parse.go 237-274) on a reader over the in-memory text
`reader`.  Every iteration but the last reads at least one character, so
`len(reader) + 1` iterations are enough. -/
def ParseReader (validateDirection : Str → Bool) (reader : Str) :
    Outcome (List Rule × Option ReadError) :=
  readerLoop validateDirection (reader.length + 1) reader [] []

/-- One or more physical lines, each but the last followed by a newline, the
last followed by a newline when `nl` is set. -/
def danglingText : List Str → Bool → Str
  | [], _ => []
  | [d], nl => if nl then d ++ ['\n'] else d
  | d :: d2 :: ds, nl => d ++ '\n' :: danglingText (d2 :: ds) nl

/-- The rule `Parse` returns on
`alert tcp any any -> any any (msg:"joined";)`, with or without text behind
the closing parenthesis. -/
def joinedRule : Rule :=
  { Enabled := true, Action := "alert".toList, Proto := "tcp".toList,
    SourceAddr := "any".toList, SourcePort := "any".toList, Direction := "->".toList,
    DestAddr := "any".toList, DestPort := "any".toList,
    Options := [⟨"msg".toList, "joined".toList⟩], Msg := "joined".toList }

/-- The physical lines of a text: the pieces between its newlines, the piece
behind the last newline included (it is empty when the text ends with a
newline or is empty). -/
def physicalLines : Str → List Str
  | [] => [[]]
  | c :: cs =>
    if c = '\n' then [] :: physicalLines cs
    else
      match physicalLines cs with
      | [] => [[c]]
      | l :: ls => (c :: l) :: ls

/-- The rules obtained by calling `Parse` on each line, trimmed, in order, and
keeping the rules of the calls that returned no error; a call that panics
ends the whole computation. -/
def parseEach (validateDirection : Str → Bool) : List Str → Outcome (List Rule)
  | [] => .returned []
  | l :: ls =>
    match Parse validateDirection (TrimSpace l) with
    | .returned (rule, none) =>
      match parseEach validateDirection ls with
      | .returned rules => .returned (rule :: rules)
      | .panicked => .panicked
      | .outOfFuel => .outOfFuel
    | .returned (_, some _) => parseEach validateDirection ls
    | .panicked => .panicked
    | .outOfFuel => .outOfFuel

/-- The disable marker of a rule as written: nothing for an enabled rule, `#`
followed by `k` spaces for a disabled one. -/
def marker : Option Nat → Str
  | none => []
  | some k => '#' :: spaces k

/-- The seven tokens of a header with the gaps between them, followed by
`rest`. -/
def Header.fields (h : Header) (rest : Str) : Str :=
  h.action ++ (spaces (h.g1 + 1) ++ (h.proto ++ (spaces (h.g2 + 1) ++
    (h.srcAddr ++ (spaces (h.g3 + 1) ++ (h.srcPort ++ (spaces (h.g4 + 1) ++
    (h.dir ++ (spaces (h.g5 + 1) ++ (h.dstAddr ++ (spaces (h.g6 + 1) ++
    (h.dstPort ++ rest))))))))))))

/-- The text of a header with its disable marker: the leading spaces, the
marker, and the seven tokens with their gaps, followed by `rest`. -/
def Header.textMarked (h : Header) (m : Option Nat) (rest : Str) : Str :=
  spaces h.lead ++ (marker m ++ h.fields rest)

/-- A valid seven-field header with its disable marker: seven tokens, the
direction accepted by the validator, and, when there is no marker, an action
that does not begin with `#`. -/
def Header.ValidMarked (validateDirection : Str → Bool) (h : Header) (m : Option Nat) : Prop :=
  Token h.action ∧ Token h.proto ∧ Token h.srcAddr ∧ Token h.srcPort ∧ Token h.dir ∧
  Token h.dstAddr ∧ Token h.dstPort ∧ (m = none → h.action.head? ≠ some '#') ∧
  validateDirection h.dir = true

instance (vd : Str → Bool) (h : Header) (m : Option Nat) : Decidable (h.ValidMarked vd m) := by
  unfold Header.ValidMarked
  infer_instance

/-- The rule `parseFields` has built from the rule `rule0` when it has read
the seven fields of `h`. -/
def Header.fill (h : Header) (rule0 : Rule) : Rule :=
  { rule0 with
    Action := h.action, Proto := h.proto, SourceAddr := h.srcAddr, SourcePort := h.srcPort,
    Direction := h.dir, DestAddr := h.dstAddr, DestPort := h.dstPort }

/-- The rule `Parse` has built when it has read the header `h` behind the
marker `m`: enabled exactly when there is no marker. -/
def Header.ruleMarked (h : Header) (m : Option Nat) : Rule :=
  h.fill { Enabled := m.isNone }

/-- The gap number `k` of a header whose gap number `i` is replaced by a
space, the continuation marker and a newline. -/
def Header.gap (i k g : Nat) : Str :=
  if i = k then [' ', '\\', '\n'] else spaces (g + 1)

/-- The text of a header continued over two physical lines: the spaces of the
gap number `i` (1 to 6, between two adjacent header fields) are replaced by
a space, `\` and a newline. -/
def Header.textBroken (h : Header) (m : Option Nat) (i : Nat) (rest : Str) : Str :=
  spaces h.lead ++ (marker m ++ (h.action ++ (Header.gap i 1 h.g1 ++ (h.proto ++
    (Header.gap i 2 h.g2 ++ (h.srcAddr ++ (Header.gap i 3 h.g3 ++ (h.srcPort ++
    (Header.gap i 4 h.g4 ++ (h.dir ++ (Header.gap i 5 h.g5 ++ (h.dstAddr ++
    (Header.gap i 6 h.g6 ++ (h.dstPort ++ rest))))))))))))))

end IdsRules

namespace IdsRules

/-! ## Slices -/

theorem slice_prefix (a b : Str) : slice (a ++ b) 0 a.length = some a := by
  simp [slice]

theorem slice_after (a : Str) (c : Char) (b : Str) :
    slice (a ++ c :: b) (a.length + 1) (a ++ c :: b).length = some b := by
  have h : a ++ c :: b = (a ++ [c]) ++ b := by simp
  have hl : a.length + 1 = (a ++ [c]).length := by simp
  simp only [slice]
  rw [if_pos (by simp), List.take_length, h, hl, List.drop_left]

theorem slice_isSome_iff (s : Str) (i j : Nat) :
    (slice s i j).isSome ↔ i ≤ j ∧ j ≤ s.length := by
  unfold slice
  split <;> simp_all

theorem utf8_ne_nil (c : Char) : utf8 c ≠ [] := by
  unfold utf8
  simp only []
  split
  · simp
  · split
    · simp
    · split <;> simp

theorem byteSlice_nil : byteSlice [] 0 1 = none := by
  decide

theorem byteSlice_cons (c : Char) (rest : Str) :
    byteSlice (c :: rest) 0 1 = some ((utf8 c).take 1) := by
  have hne := utf8_ne_nil c
  cases hu : utf8 c with
  | nil => exact absurd hu hne
  | cons b bs => simp [byteSlice, bytes, hu]

theorem utf8_take_paren (c : Char) : (utf8 c).take 1 = bytes ['('] ↔ c = '(' := by
  constructor
  · intro h
    have hb : bytes ['('] = [40] := by decide
    rw [hb] at h
    unfold utf8 at h
    simp only [] at h
    split at h
    · simp only [List.take_succ_cons, List.take_zero, List.cons.injEq, and_true] at h
      rw [← Char.ofNat_toNat c, h]
    · split at h
      · simp only [List.take_succ_cons, List.take_zero, List.cons.injEq, and_true] at h
        omega
      · split at h
        · simp only [List.take_succ_cons, List.take_zero, List.cons.injEq, and_true] at h
          omega
        · simp only [List.take_succ_cons, List.take_zero, List.cons.injEq, and_true] at h
          omega
  · rintro rfl
    decide

theorem utf8_ascii (c : Char) (h : c.toNat < 0x80) : (utf8 c).take 1 = bytes [c] := by
  simp [utf8, bytes, h]

/-! ## `strings.IndexFunc` -/

theorem IndexFunc_skip {σ : Type} (f : σ → Char → Bool × σ) (st : σ) (p rest : Str)
    (h : ∀ c ∈ p, f st c = (false, st)) :
    IndexFunc f st (p ++ rest) =
      ((IndexFunc f st rest).1.map (· + p.length), (IndexFunc f st rest).2) := by
  induction p with
  | nil => simp
  | cons c cs ih =>
    have hc : f st c = (false, st) := h c (List.mem_cons_self _ _)
    have ih1 := ih (fun d hd => h d (List.mem_cons_of_mem _ hd))
    show IndexFunc f st (c :: (cs ++ rest)) = _
    rw [IndexFunc, hc]
    simp only []
    rw [ih1]
    cases (IndexFunc f st rest).1 <;> simp [Nat.add_assoc]

theorem IndexFunc_lt {σ : Type} (f : σ → Char → Bool × σ) (st : σ) (s : Str) (n : Nat)
    (h : (IndexFunc f st s).1 = some n) : n < s.length := by
  induction s generalizing st n with
  | nil => simp [IndexFunc] at h
  | cons c cs ih =>
    simp only [IndexFunc] at h
    rcases hf : f st c with ⟨b, st1⟩
    rw [hf] at h
    cases b with
    | true => simp at h; subst h; simp
    | false =>
      simp only at h
      cases hr : (IndexFunc f st1 cs).1 with
      | none => rw [hr] at h; simp at h
      | some m =>
        rw [hr] at h
        simp at h
        have := ih st1 m hr
        simp
        omega

/-! ## The two closures -/

theorem IndexFunc_optDelim_semi (st : Bool) (n rest : Str) (h1 : ';' ∉ n) (h2 : ':' ∉ n) :
    IndexFunc optDelim st (n ++ ';' :: rest) = (some n.length, st) := by
  rw [IndexFunc_skip]
  · simp [IndexFunc, optDelim]
  · intro c hc
    have a1 : c ≠ ';' := fun e => h1 (e ▸ hc)
    have a2 : c ≠ ':' := fun e => h2 (e ▸ hc)
    simp [optDelim, a1, a2]

theorem IndexFunc_optDelim_colon (st : Bool) (n rest : Str) (h1 : ';' ∉ n) (h2 : ':' ∉ n) :
    IndexFunc optDelim st (n ++ ':' :: rest) = (some n.length, true) := by
  rw [IndexFunc_skip]
  · simp [IndexFunc, optDelim]
  · intro c hc
    have a1 : c ≠ ';' := fun e => h1 (e ▸ hc)
    have a2 : c ≠ ':' := fun e => h2 (e ▸ hc)
    simp [optDelim, a1, a2]

theorem IndexFunc_argDelim_skip (w rest : Str) (h1 : ';' ∉ w) (h2 : '\\' ∉ w) :
    IndexFunc argDelim false (w ++ rest) =
      ((IndexFunc argDelim false rest).1.map (· + w.length),
        (IndexFunc argDelim false rest).2) := by
  apply IndexFunc_skip
  intro c hc
  have a1 : c ≠ ';' := fun e => h1 (e ▸ hc)
  have a2 : c ≠ '\\' := fun e => h2 (e ▸ hc)
  simp [argDelim, a1, a2]

theorem ArgText_plain (w : Str) (h1 : ';' ∉ w) (h2 : '\\' ∉ w) : ArgText w := by
  intro rest
  rw [IndexFunc_argDelim_skip w _ h1 h2]
  simp [IndexFunc, argDelim]

theorem ArgText_escaped (x y : Str) (hx1 : ';' ∉ x) (hx2 : '\\' ∉ x)
    (hy1 : ';' ∉ y) (hy2 : '\\' ∉ y) : ArgText (x ++ '\\' :: ';' :: y) := by
  intro rest
  have e : (x ++ '\\' :: ';' :: y) ++ ';' :: rest = x ++ ('\\' :: ';' :: (y ++ ';' :: rest)) := by
    simp
  rw [e, IndexFunc_argDelim_skip x _ hx1 hx2]
  simp only [IndexFunc, argDelim]
  simp only [if_true, Bool.false_eq_true, if_false]
  rw [IndexFunc_argDelim_skip y _ hy1 hy2]
  simp [IndexFunc, argDelim]
  omega

/-! ## `trimQuotes` -/

theorem trimQuotes_nil : trimQuotes [] = some [] := by
  simp [trimQuotes]

theorem trimQuotes_single (b : Char) :
    trimQuotes [b] = if b = '"' then none else some [b] := by
  by_cases hb : b = '"' <;> simp [trimQuotes, slice, hb]

theorem trimQuotes_long (a b : Char) (v : Str) :
    trimQuotes (a :: (v ++ [b])) =
      if a = '"' ∧ b = '"' then some v else some (a :: (v ++ [b])) := by
  have h1 : List.take (v.length + 1) (v ++ [b]) = v ++ [b] :=
    List.take_of_length_le (by simp)
  have h2 : List.take v.length (v ++ [b]) = v := by simp
  simp [trimQuotes, slice, h1, h2]

theorem trimQuotes_quoted (v : Str) : trimQuotes ('"' :: (v ++ ['"'])) = some v := by
  simp [trimQuotes_long]

theorem trimQuotes_unquoted (w : Str)
    (h : ¬ (w.head? = some '"' ∧ w.getLast? = some '"')) : trimQuotes w = some w := by
  rcases List.eq_nil_or_concat w with rfl | ⟨v, b, rfl⟩
  · simp [trimQuotes]
  · cases v with
    | nil =>
      simp at h
      simp [trimQuotes_single, h]
    | cons a v =>
      simp only [List.concat_eq_append, List.cons_append] at h ⊢
      rw [trimQuotes_long, if_neg]
      rintro ⟨ha, hb⟩
      refine h ⟨by simp [ha], ?_⟩
      rw [← List.cons_append, List.getLast?_append]
      simp [hb]

theorem trimQuotes_eq_none_iff (w : Str) : trimQuotes w = none ↔ w = ['"'] := by
  rcases List.eq_nil_or_concat w with rfl | ⟨v, b, rfl⟩
  · simp [trimQuotes]
  · cases v with
    | nil =>
      by_cases hb : b = '"' <;> simp [trimQuotes_single, hb]
    | cons a v =>
      simp only [List.concat_eq_append, List.cons_append]
      rw [trimQuotes_long]
      split <;> simp

/-! ## `parseOption` on one written option -/

theorem trimLeadingWhiteSpace_spaces (k : Nat) (s : Str) (h : s.head? ≠ some ' ') :
    trimLeadingWhiteSpace (spaces k ++ s) = s := by
  unfold trimLeadingWhiteSpace TrimLeft spaces
  rw [List.dropWhile_append_of_pos]
  · cases s with
    | nil => rfl
    | cons c cs =>
      have hc : c ≠ ' ' := by simpa using h
      simp [List.dropWhile_cons, hc]
  · intro a ha
    simp [List.eq_of_mem_replicate ha]

theorem OptName_head (n : Str) (d : Char) (rest : Str) (hn : OptName n) (hd : d ≠ ' ') :
    (n ++ d :: rest).head? ≠ some ' ' := by
  cases n with
  | nil => simpa using hd
  | cons c cs => simpa using hn.2.2

theorem parseOption_bare (k : Nat) (n rest : Str) (hn : OptName n) :
    parseOption (spaces k ++ (n ++ ';' :: rest)) = some (n, [], rest, none) := by
  unfold parseOption
  simp only [trimLeadingWhiteSpace_spaces k _ (OptName_head n ';' rest hn (by decide)),
    IndexFunc_optDelim_semi false n rest hn.1 hn.2.1, slice_prefix, slice_after]
  simp [trimQuotes_nil]

theorem parseOption_arg (k : Nat) (n w rest : Str) (hn : OptName n) (hw : ArgText w) :
    parseOption (spaces k ++ (n ++ ':' :: (w ++ ';' :: rest))) =
      (trimQuotes w).map (fun a => (n, a, rest, none)) := by
  unfold parseOption
  have h := hw rest
  rcases hi : IndexFunc argDelim false (w ++ ';' :: rest) with ⟨r, st⟩
  rw [hi] at h
  simp only at h
  subst h
  simp only [trimLeadingWhiteSpace_spaces k _ (OptName_head n ':' _ hn (by decide)),
    IndexFunc_optDelim_colon false n _ hn.1 hn.2.1, slice_prefix, slice_after, hi]
  simp

/-! ## The option loop on written options -/

theorem Written.text_length (o : Written) (rest : Str) :
    rest.length < (o.text rest).length := by
  unfold Written.text
  cases o.raw <;> simp <;> omega

theorem Written.text_ne_nil (o : Written) (rest : Str) : o.text rest ≠ [] := by
  intro h
  have := o.text_length rest
  rw [h] at this
  simp at this

theorem parseOption_written (o : Written) (v rest : Str) (h : o.Scans v) :
    parseOption (o.text rest) = some (o.name, v, rest, none) := by
  obtain ⟨hn, _, hv⟩ := h
  unfold Written.text
  cases hr : o.raw with
  | none =>
    rw [hr] at hv
    simp only at hv ⊢
    rw [parseOption_bare o.pad o.name rest hn, hv]
  | some w =>
    rw [hr] at hv
    simp only at hv ⊢
    rw [parseOption_arg o.pad o.name w rest hn hv.1, hv.2]
    rfl

theorem trimLeadingWhiteSpace_written (o : Written) (v rest : Str) (h : o.Scans v) :
    HasPrefix (trimLeadingWhiteSpace (o.text rest)) [')'] = false := by
  obtain ⟨hn, hp, _⟩ := h
  unfold Written.text
  have key : ∀ (d : Char) (r : Str), d ≠ ' ' → d ≠ ')' →
      HasPrefix (trimLeadingWhiteSpace (spaces o.pad ++ (o.name ++ d :: r))) [')'] = false := by
    intro d r hd1 hd2
    rw [trimLeadingWhiteSpace_spaces _ _ (OptName_head o.name d r hn hd1)]
    cases hname : o.name with
    | nil => simp [HasPrefix, List.isPrefixOf, hd2, Ne.symm hd2]
    | cons c cs =>
      rw [hname] at hp
      have hc : c ≠ ')' := by simpa using hp
      simp [HasPrefix, List.isPrefixOf, hc, Ne.symm hc]
  cases o.raw with
  | none => exact key ';' rest (by decide) (by decide)
  | some w => exact key ':' _ (by decide) (by decide)

theorem optionLoop_scan (o : Written) (v rest : Str) (h : o.Scans v) :
    (o.text rest).length ≠ 0 ∧
    HasPrefix (trimLeadingWhiteSpace (o.text rest)) [')'] = false ∧
    parseOption (trimLeadingWhiteSpace (o.text rest)) = some (o.name, v, rest, none) := by
  refine ⟨?_, trimLeadingWhiteSpace_written o v rest h, ?_⟩
  · have := o.text_length rest
    omega
  · have e : trimLeadingWhiteSpace (o.text rest) = (⟨0, o.name, o.raw⟩ : Written).text rest := by
      unfold Written.text
      obtain ⟨hn, _, _⟩ := h
      cases o.raw with
      | none =>
        simp only
        rw [trimLeadingWhiteSpace_spaces _ _ (OptName_head o.name ';' rest hn (by decide))]
        simp [spaces]
      | some w =>
        simp only
        rw [trimLeadingWhiteSpace_spaces _ _ (OptName_head o.name ':' _ hn (by decide))]
        simp [spaces]
    rw [e]
    exact parseOption_written _ v rest h

theorem optionLoop_step (fuel : Nat) (o : Written) (v rest : Str) (rule : Rule)
    (h : o.Reads v) :
    optionLoop (fuel + 1) (o.text rest) rule = optionLoop fuel rest (rule.push ⟨o.name, v⟩) := by
  obtain ⟨hne, hpre, hpo⟩ := optionLoop_scan o v rest h.1
  have hnum := h.2
  rw [optionLoop]
  simp only [hne, if_false, hpre, hpo, Bool.false_eq_true]
  unfold Rule.push
  by_cases h1 : o.name = ['m', 's', 'g']
  · simp [h1]
  · by_cases h2 : o.name = ['s', 'i', 'd']
    · obtain ⟨n, hn⟩ := Option.isSome_iff_exists.mp (hnum (Or.inl h2))
      simp [h2, hn]
    · by_cases h3 : o.name = ['g', 'i', 'd']
      · obtain ⟨n, hn⟩ := Option.isSome_iff_exists.mp (hnum (Or.inr h3))
        simp [h3, hn]
      · simp [h1, h2, h3]

theorem optionLoop_step_fail (fuel : Nat) (o : Written) (v rest : Str) (rule : Rule)
    (h : o.Scans v) (hk : o.name = ['s', 'i', 'd'] ∨ o.name = ['g', 'i', 'd'])
    (hv : ParseUint v = none) :
    optionLoop (fuel + 1) (o.text rest) rule =
      .returned ({ rule with Options := rule.Options ++ [⟨o.name, v⟩] },
        some (.failedToParseSid v)) := by
  obtain ⟨hne, hpre, hpo⟩ := optionLoop_scan o v rest h
  rw [optionLoop]
  simp only [hne, if_false, hpre, hpo, Bool.false_eq_true]
  rcases hk with hk | hk
  · simp [hk, hv]
  · simp [hk, hv]

theorem optionLoop_close (fuel k : Nat) (tail : Str) (rule : Rule) :
    optionLoop (fuel + 1) (spaces k ++ ')' :: tail) rule = .returned (rule, none) := by
  rw [optionLoop]
  have h1 : (spaces k ++ ')' :: tail).length ≠ 0 := by simp
  rw [if_neg h1]
  simp only []
  rw [trimLeadingWhiteSpace_spaces k _ (by simp)]
  simp [HasPrefix, List.isPrefixOf]

theorem optionLoop_written (os : List Written) (vs : List Str)
    (h : List.Forall₂ Written.Reads os vs) (k : Nat) (tail : Str) (fuel : Nat) (rule : Rule)
    (hf : (writtenAll os (spaces k ++ ')' :: tail)).length < fuel) :
    optionLoop fuel (writtenAll os (spaces k ++ ')' :: tail)) rule =
      .returned ((List.zipWith (fun o v => (⟨o.name, v⟩ : RuleOption)) os vs).foldl
        Rule.push rule, none) := by
  induction h generalizing fuel rule with
  | nil =>
    cases fuel with
    | zero => simp at hf
    | succ f => simpa [writtenAll] using optionLoop_close f k tail rule
  | @cons o v os vs hov _ ih =>
    cases fuel with
    | zero => simp at hf
    | succ f =>
      simp only [writtenAll] at hf ⊢
      rw [optionLoop_step f o v _ rule hov]
      have hl := o.text_length (writtenAll os (spaces k ++ ')' :: tail))
      rw [ih f _ (by omega)]
      rfl

/-! ## White space and `splitAt` -/

theorem Tight.ne_nil {s : Str} (h : Tight s) : s ≠ [] := by
  rintro rfl
  obtain ⟨⟨c, hc, _⟩, _⟩ := h
  simp at hc

theorem Tight.trim {s : Str} (h : Tight s) : TrimSpace s = s := by
  obtain ⟨⟨c, hc, hcs⟩, ⟨d, hd, hds⟩⟩ := h
  unfold TrimSpace
  have h1 : s.dropWhile isSpace = s := by
    cases s with
    | nil => rfl
    | cons a t =>
      simp at hc
      subst hc
      simp [List.dropWhile_cons, hcs]
  rw [h1, List.rdropWhile_eq_self_iff]
  intro hne
  have : s.getLast? = some (s.getLast hne) := List.getLast?_eq_getLast s hne
  rw [this] at hd
  simp at hd
  simp [hd, hds]

theorem Token.tight {t : Str} (h : Token t) : Tight t := by
  obtain ⟨hne, hs⟩ := h
  constructor
  · cases t with
    | nil => exact absurd rfl hne
    | cons a t => exact ⟨a, rfl, hs a (List.mem_cons_self _ _)⟩
  · refine ⟨t.getLast hne, List.getLast?_eq_getLast t hne, hs _ (List.getLast_mem hne)⟩

theorem Tight.field {t R : Str} (g : Nat) (ht : Token t) (hR : Tight R) :
    Tight (t ++ (spaces g ++ R)) := by
  obtain ⟨⟨c, hc, hcs⟩, _⟩ := ht.tight
  obtain ⟨_, ⟨d, hd, hds⟩⟩ := hR
  have hRne : R ≠ [] := by
    rintro rfl
    simp at hd
  constructor
  · refine ⟨c, ?_, hcs⟩
    cases t with
    | nil => simp at hc
    | cons a t => simpa using hc
  · refine ⟨d, ?_, hds⟩
    rw [← List.append_assoc, List.getLast?_append_of_ne_nil _ hRne]
    exact hd

theorem TrimSpace_spaces (g : Nat) (R : Str) (hR : Tight R) :
    TrimSpace (spaces g ++ R) = R := by
  have h : (spaces g ++ R).dropWhile isSpace = R.dropWhile isSpace := by
    unfold spaces
    rw [List.dropWhile_append_of_pos]
    intro a ha
    rw [List.eq_of_mem_replicate ha]
    decide
  have h2 := hR.trim
  unfold TrimSpace at h2 ⊢
  rw [h, h2]

theorem Index_space (t rest : Str) (h : ∀ c ∈ t, isSpace c = false) :
    Index (t ++ ' ' :: rest) [' '] = some t.length := by
  induction t with
  | nil => simp [Index, List.isPrefixOf]
  | cons a t ih =>
    have ha : a ≠ ' ' := by
      rintro rfl
      have := h ' ' (List.mem_cons_self _ _)
      revert this
      decide
    have ih1 := ih (fun c hc => h c (List.mem_cons_of_mem _ hc))
    simp [Index, List.isPrefixOf, ha, Ne.symm ha, ih1]

theorem Index_none (t : Str) (h : ∀ c ∈ t, isSpace c = false) :
    Index t [' '] = none := by
  induction t with
  | nil => simp [Index]
  | cons a t ih =>
    have ha : a ≠ ' ' := by
      rintro rfl
      have := h ' ' (List.mem_cons_self _ _)
      revert this
      decide
    have ih1 := ih (fun c hc => h c (List.mem_cons_of_mem _ hc))
    simp [Index, List.isPrefixOf, ha, Ne.symm ha, ih1]

theorem splitAt_field (t R : Str) (g : Nat) (ht : Token t) (hR : Tight R) :
    splitAt (t ++ (spaces (g + 1) ++ R)) [' '] = some (t, R) := by
  have e : t ++ (spaces (g + 1) ++ R) = t ++ ' ' :: (spaces g ++ R) := by
    simp [spaces, List.replicate_succ]
  unfold splitAt SplitN2
  rw [e, if_neg (by simp), Index_space t _ ht.2]
  simp only [List.take_left, List.length_singleton, List.drop_left]
  have e2 : List.drop (t.length + 1) (t ++ ' ' :: (spaces g ++ R)) = spaces g ++ R := by
    have : t ++ ' ' :: (spaces g ++ R) = (t ++ [' ']) ++ (spaces g ++ R) := by simp
    rw [this]
    have hl : t.length + 1 = (t ++ [' ']).length := by simp
    rw [hl, List.drop_left]
  have e3 : List.take t.length (t ++ ' ' :: (spaces g ++ R)) = t := by simp
  simp [e2, e3, ht.tight.trim, TrimSpace_spaces g R hR]

theorem splitAt_last (t : Str) (ht : Token t) : splitAt t [' '] = some (t, []) := by
  unfold splitAt SplitN2
  rw [if_neg (by simp), Index_none t ht.2]
  simp [ht.tight.trim]

theorem splitAt_nil : splitAt [] [' '] = some ([], []) := by
  decide

/-! ## The header -/

theorem Token.head_ne {t : Str} (ht : Token t) (c : Char) (hc : isSpace c = true)
    (rest : Str) : (t ++ rest).head? ≠ some c := by
  obtain ⟨hne, hs⟩ := ht
  cases t with
  | nil => exact absurd rfl hne
  | cons a t =>
    have := hs a (List.mem_cons_self _ _)
    simp only [List.cons_append, List.head?_cons, ne_eq, Option.some.injEq]
    rintro rfl
    rw [hc] at this
    cases this

theorem Parse_header (vd : Str → Bool) (h : Header) (hv : h.Valid vd) (g : Nat) (R : Str)
    (hR : Tight R) :
    Parse vd (h.text (spaces (g + 1) ++ R)) = parseOptions h.rule R := by
  obtain ⟨t1, t2, t3, t4, t5, t6, t7, hh, hd⟩ := hv
  have T7 := Tight.field (g + 1) t7 hR
  have T6 := Tight.field (h.g6 + 1) t6 T7
  have T5 := Tight.field (h.g5 + 1) t5 T6
  have T4 := Tight.field (h.g4 + 1) t4 T5
  have T3 := Tight.field (h.g3 + 1) t3 T4
  have T2 := Tight.field (h.g2 + 1) t2 T3
  have hp : ∀ rest : Str, HasPrefix (h.action ++ rest) ['#'] = false := by
    intro rest
    obtain ⟨hne, _⟩ := t1
    cases ha : h.action with
    | nil => exact absurd ha hne
    | cons a t =>
      rw [ha] at hh
      have : a ≠ '#' := by simpa using hh
      simp [HasPrefix, List.isPrefixOf, this, Ne.symm this]
  unfold Parse parseFields Header.text
  simp only []
  rw [trimLeadingWhiteSpace_spaces _ _ (t1.head_ne ' ' (by decide) _)]
  simp only [hp, Bool.false_eq_true, not_false_eq_true, if_true,
    splitAt_field _ _ _ t1 T2, splitAt_field _ _ _ t2 T3, splitAt_field _ _ _ t3 T4,
    splitAt_field _ _ _ t4 T5, splitAt_field _ _ _ t5 T6, splitAt_field _ _ _ t6 T7,
    splitAt_field _ _ _ t7 hR, hd]
  simp [T2.ne_nil, T3.ne_nil, T4.ne_nil, T5.ne_nil, T6.ne_nil, T7.ne_nil, hR.ne_nil,
    Header.rule]

theorem parseOptions_paren (rule : Rule) (body : Str) :
    parseOptions rule ('(' :: body) = optionLoop (body.length + 1) body rule := by
  simp [parseOptions, slice, byteSlice_cons, (utf8_take_paren '(').mpr rfl]

theorem parseOptions_other (rule : Rule) (c : Char) (T : Str) (hc : c ≠ '(') :
    parseOptions rule (c :: T) =
      .returned (rule, some (.expectedParen ((utf8 c).take 1))) := by
  have h : ¬ (utf8 c).take 1 = bytes ['('] := fun e => hc ((utf8_take_paren c).mp e)
  simp [parseOptions, byteSlice_cons, h]

theorem parseOptions_nil (rule : Rule) : parseOptions rule [] = .panicked := by
  simp [parseOptions, byteSlice_nil]

theorem Tight.paren (body : Str) : Tight ('(' :: (body ++ [')'])) := by
  constructor
  · exact ⟨'(', rfl, by decide⟩
  · refine ⟨')', ?_, by decide⟩
    rw [← List.cons_append, List.getLast?_append_of_ne_nil _ (by simp)]
    rfl

/-! ## `strconv.ParseUint` -/

theorem digitsValue_ge (n : Nat) (s : Str) : n ≤ digitsValue n s := by
  induction s generalizing n with
  | nil => simp [digitsValue]
  | cons c cs ih =>
    have := ih (n * 10 + (c.toNat - 48))
    simp only [digitsValue, List.foldl_cons] at this ⊢
    omega

theorem parseUintLoop_eq_some_iff (n : Nat) (s : Str) (m : Nat) (hn : n < 2 ^ 64) :
    parseUintLoop n s = some m ↔
      (∀ c ∈ s, IsDigit c) ∧ digitsValue n s = m ∧ m < 2 ^ 64 := by
  induction s generalizing n with
  | nil =>
    simp only [parseUintLoop, digitsValue, List.foldl_nil, Option.some.injEq]
    constructor
    · rintro rfl
      exact ⟨by simp, rfl, hn⟩
    · rintro ⟨_, h, _⟩
      exact h
  | cons c cs ih =>
    have hge := digitsValue_ge (n * 10 + (c.toNat - 48)) cs
    have hv : digitsValue n (c :: cs) = digitsValue (n * 10 + (c.toNat - 48)) cs := rfl
    rw [parseUintLoop, hv]
    by_cases hd : c.toNat ≥ 48 ∧ c.toNat ≤ 57
    · rw [if_neg (by simpa using hd)]
      by_cases h1 : n ≥ (2 ^ 64 - 1) / 10 + 1
      · rw [if_pos h1]
        constructor
        · intro h
          cases h
        · rintro ⟨_, h2, h3⟩
          omega
      · rw [if_neg h1]
        by_cases h2 : n * 10 + (c.toNat - 48) > 2 ^ 64 - 1
        · rw [if_pos h2]
          constructor
          · intro h
            cases h
          · rintro ⟨_, h3, h4⟩
            omega
        · rw [if_neg h2, ih _ (by omega)]
          constructor
          · rintro ⟨h3, h4, h5⟩
            refine ⟨?_, h4, h5⟩
            intro x hx
            rcases List.mem_cons.mp hx with rfl | hx
            · exact hd
            · exact h3 x hx
          · rintro ⟨h3, h4, h5⟩
            exact ⟨fun x hx => h3 x (List.mem_cons_of_mem _ hx), h4, h5⟩
    · rw [if_pos (by simpa using hd)]
      constructor
      · intro h
        cases h
      · rintro ⟨h3, _, _⟩
        exact absurd (h3 c (List.mem_cons_self _ _)) hd

theorem ParseUint_eq_some_iff (s : Str) (m : Nat) :
    ParseUint s = some m ↔ Numeral s ∧ numeralValue s = m ∧ m < 2 ^ 64 := by
  unfold ParseUint Numeral numeralValue
  by_cases hs : s = []
  · simp [hs]
  · rw [if_neg hs, parseUintLoop_eq_some_iff 0 s m (by norm_num)]
    simp [hs, and_assoc]

theorem ParseUint_isSome_iff (s : Str) :
    (ParseUint s).isSome ↔ Numeral s ∧ numeralValue s < 2 ^ 64 := by
  rw [Option.isSome_iff_exists]
  constructor
  · rintro ⟨m, hm⟩
    obtain ⟨h1, h2, h3⟩ := (ParseUint_eq_some_iff s m).mp hm
    exact ⟨h1, h2 ▸ h3⟩
  · rintro ⟨h1, h2⟩
    exact ⟨numeralValue s, (ParseUint_eq_some_iff s _).mpr ⟨h1, rfl, h2⟩⟩

/-! ## What the loop leaves untouched -/

theorem Rule.push_header (rule : Rule) (o : RuleOption) :
    (rule.push o).Enabled = rule.Enabled ∧ (rule.push o).Action = rule.Action ∧
    (rule.push o).Proto = rule.Proto ∧ (rule.push o).SourceAddr = rule.SourceAddr ∧
    (rule.push o).SourcePort = rule.SourcePort ∧ (rule.push o).Direction = rule.Direction ∧
    (rule.push o).DestAddr = rule.DestAddr ∧ (rule.push o).DestPort = rule.DestPort ∧
    (rule.push o).Options = rule.Options ++ [o] := by
  unfold Rule.push
  simp only []
  split
  · simp
  · split
    · split <;> simp
    · split
      · split <;> simp
      · simp

theorem foldl_push_header (os : List RuleOption) (rule : Rule) :
    (os.foldl Rule.push rule).Enabled = rule.Enabled ∧
    (os.foldl Rule.push rule).Action = rule.Action ∧
    (os.foldl Rule.push rule).Proto = rule.Proto ∧
    (os.foldl Rule.push rule).SourceAddr = rule.SourceAddr ∧
    (os.foldl Rule.push rule).SourcePort = rule.SourcePort ∧
    (os.foldl Rule.push rule).Direction = rule.Direction ∧
    (os.foldl Rule.push rule).DestAddr = rule.DestAddr ∧
    (os.foldl Rule.push rule).DestPort = rule.DestPort ∧
    (os.foldl Rule.push rule).Options = rule.Options ++ os := by
  induction os generalizing rule with
  | nil => simp
  | cons o os ih =>
    obtain ⟨h0, h1, h2, h3, h4, h5, h6, h7, h8⟩ := rule.push_header o
    obtain ⟨k0, k1, k2, k3, k4, k5, k6, k7, k8⟩ := ih (rule.push o)
    simp only [List.foldl_cons]
    refine ⟨k0.trans h0, k1.trans h1, k2.trans h2, k3.trans h3, k4.trans h4, k5.trans h5,
      k6.trans h6, k7.trans h7, ?_⟩
    rw [k8, h8]
    simp

/-! ## A header followed by written options -/

theorem Written.text_concat (o : Written) (r : Str) (d : Char) :
    o.text (r ++ [d]) = o.text r ++ [d] := by
  unfold Written.text
  cases o.raw <;> simp

theorem writtenAll_concat (os : List Written) (r : Str) (d : Char) :
    writtenAll os (r ++ [d]) = writtenAll os r ++ [d] := by
  induction os with
  | nil => rfl
  | cons o os ih => simp only [writtenAll, ih, Written.text_concat]

theorem Parse_written (vd : Str → Bool) (h : Header) (hv : h.Valid vd) (g k : Nat)
    (os : List Written) (vs : List Str) (hr : List.Forall₂ Written.Reads os vs) :
    Parse vd (h.text (spaces (g + 1) ++ '(' :: writtenAll os (spaces k ++ [')']))) =
      .returned ((List.zipWith (fun o v => (⟨o.name, v⟩ : RuleOption)) os vs).foldl
        Rule.push h.rule, none) := by
  have hT : Tight ('(' :: writtenAll os (spaces k ++ [')'])) := by
    rw [writtenAll_concat]
    exact Tight.paren _
  rw [Parse_header vd h hv g _ hT, parseOptions_paren]
  exact optionLoop_written os vs hr k [] _ h.rule (by omega)

theorem bareOptions_eq (names : List Str) (rest : Str) :
    bareOptions names ++ rest = writtenAll (names.map (fun n => ⟨0, n, none⟩)) rest := by
  induction names with
  | nil => rfl
  | cons n ns ih =>
    simp only [bareOptions, List.map_cons, writtenAll, Written.text, spaces, List.replicate_zero,
      List.nil_append, ← ih]
    simp

/-! ## The claims -/

/-- C1: for seven non-empty white-space-free header tokens (the action not
beginning with `#`, the direction accepted by the validator), written after
any number of leading spaces and separated by one or more spaces, followed by
one or more spaces, `(`, zero or more options `name;` (the names well formed and
none of them `sid` or `gid`) and `)`, `Parse` returns no error and the seven
header fields of the returned rule are the seven tokens. -/
theorem Parse_header_fields_exact (vd : Str → Bool) (h : Header) (g : Nat) (names : List Str)
    (hv : h.Valid vd)
    (hn : ∀ n ∈ names, OptionName n ∧ n ≠ ['s', 'i', 'd'] ∧ n ≠ ['g', 'i', 'd']) :
    ∃ r, Parse vd (h.text (spaces (g + 1) ++ '(' :: (bareOptions names ++ [')']))) =
        .returned (r, none) ∧
      r.Action = h.action ∧ r.Proto = h.proto ∧ r.SourceAddr = h.srcAddr ∧
      r.SourcePort = h.srcPort ∧ r.Direction = h.dir ∧ r.DestAddr = h.dstAddr ∧
      r.DestPort = h.dstPort := by
  have hr : List.Forall₂ Written.Reads (names.map (fun n => (⟨0, n, none⟩ : Written)))
      (names.map (fun _ => ([] : Str))) := by
    rw [List.forall₂_map_left_iff, List.forall₂_map_right_iff, List.forall₂_same]
    intro n hmem
    obtain ⟨⟨_, h1, h2, h3, h4⟩, h5, h6⟩ := hn n hmem
    refine ⟨⟨⟨h1, h2, h3⟩, h4, rfl⟩, ?_⟩
    rintro (e | e)
    · exact absurd e h5
    · exact absurd e h6
  have hp := Parse_written vd h hv g 0 _ _ hr
  rw [bareOptions_eq]
  refine ⟨_, hp, ?_⟩
  obtain ⟨_, k1, k2, k3, k4, k5, k6, k7, _⟩ := foldl_push_header
    (List.zipWith (fun o v => (⟨o.name, v⟩ : RuleOption))
      (names.map (fun n => (⟨0, n, none⟩ : Written))) (names.map (fun _ => ([] : Str)))) h.rule
  exact ⟨k1, k2, k3, k4, k5, k6, k7⟩

theorem Parse_header_fields_exact_witness :
    ∃ r, Parse validateDirection "  alert tcp  any any -> any 80 (nocase;msg;)".toList =
        .returned (r, none) ∧
      r.Action = "alert".toList ∧ r.Proto = "tcp".toList ∧ r.SourceAddr = "any".toList ∧
      r.SourcePort = "any".toList ∧ r.Direction = "->".toList ∧ r.DestAddr = "any".toList ∧
      r.DestPort = "80".toList :=
  Parse_header_fields_exact validateDirection
    { action := "alert".toList, proto := "tcp".toList, srcAddr := "any".toList,
      srcPort := "any".toList, dir := "->".toList, dstAddr := "any".toList,
      dstPort := "80".toList, lead := 2, g2 := 1 }
    0 ["nocase".toList, "msg".toList] (by decide) (by decide)

theorem Item.reads (i : Item) (h : i.Valid) : i.written.Reads i.value := by
  obtain ⟨⟨_, n1, n2, n3, n4⟩, v1, v2, hnum, hplain, hbare⟩ := h
  refine ⟨⟨⟨n1, n2, n3⟩, n4, ?_⟩, ?_⟩
  · unfold Item.written
    cases hf : i.form with
    | quoted =>
      refine ⟨ArgText_plain _ ?_ ?_, trimQuotes_quoted _⟩
      · simp [v1]
      · simp [v2]
    | plain => exact ⟨ArgText_plain _ v1 v2, trimQuotes_unquoted _ (hplain hf)⟩
    | bare => exact hbare hf
  · intro hk
    exact (ParseUint_isSome_iff _).mpr (hnum hk)

theorem zipWith_items (L : List Item) :
    List.zipWith (fun o v => (⟨o.name, v⟩ : RuleOption)) (L.map Item.written)
      (L.map Item.value) = L.map (fun i => ⟨i.name, i.value⟩) := by
  induction L with
  | nil => rfl
  | cons i L ih => simp [ih, Item.written]

/-- C2: parsing undoes the formatting of the option list, in order.  For a valid
seven-field header and a list `L` of `(name, value)` pairs (well-formed names,
values free of `;` and `\`, a numeral below 2^64 for `sid` and `gid`), each
written as `name:"value";`, as `name:value;` (when the value does not both begin
and end with a double quote) or as `name;` (when the value is empty), after any
number of spaces, `Parse` of the header, ` (`, the written options and `)`
succeeds and `Options` is exactly `L`, repeated names included. -/
theorem Parse_options_roundtrip (vd : Str → Bool) (h : Header) (L : List Item)
    (hv : h.Valid vd) (hL : ∀ i ∈ L, i.Valid) :
    ∃ r, Parse vd (h.text (' ' :: '(' :: writtenAll (L.map Item.written) [')'])) =
        .returned (r, none) ∧
      r.Options = L.map (fun i => ⟨i.name, i.value⟩) := by
  have hr : List.Forall₂ Written.Reads (L.map Item.written) (L.map Item.value) := by
    rw [List.forall₂_map_left_iff, List.forall₂_map_right_iff, List.forall₂_same]
    exact fun i hi => i.reads (hL i hi)
  have hp := Parse_written vd h hv 0 0 _ _ hr
  refine ⟨_, hp, ?_⟩
  rw [(foldl_push_header _ h.rule).2.2.2.2.2.2.2.2, zipWith_items]
  rfl

theorem Parse_options_roundtrip_witness :
    ∃ r, Parse validateDirection
        "alert tcp any any -> any 80 (msg:\"a b\"; flow:to_server;nocase; sid:\"7\";flow:x;)".toList =
        .returned (r, none) ∧
      r.Options = [⟨"msg".toList, "a b".toList⟩, ⟨"flow".toList, "to_server".toList⟩,
        ⟨"nocase".toList, []⟩, ⟨"sid".toList, "7".toList⟩, ⟨"flow".toList, "x".toList⟩] :=
  Parse_options_roundtrip validateDirection
    { action := "alert".toList, proto := "tcp".toList, srcAddr := "any".toList,
      srcPort := "any".toList, dir := "->".toList, dstAddr := "any".toList,
      dstPort := "80".toList }
    [{ name := "msg".toList, value := "a b".toList, form := .quoted },
     { name := "flow".toList, value := "to_server".toList, form := .plain, pad := 1 },
     { name := "nocase".toList, value := [], form := .bare },
     { name := "sid".toList, value := "7".toList, form := .quoted, pad := 1 },
     { name := "flow".toList, value := "x".toList, form := .plain }]
    (by decide) (by decide)

/-! ## The promoted fields -/

theorem lastArg_concat (name : Str) (opts : List RuleOption) (o : RuleOption) :
    lastArg name (opts ++ [o]) =
      if o.Option = name then some o.Args else lastArg name opts := by
  unfold lastArg
  by_cases h : o.Option = name
  · simp [List.filter_append, List.filter_cons, h]
  · simp [List.filter_append, List.filter_cons, h]

theorem parseFields_success (vd : Str → Bool) (rule0 : Rule) (buf : Str) (r : Rule)
    (h : parseFields vd rule0 buf = .returned (r, none)) :
    ∃ rule rem, rule.Options = rule0.Options ∧ rule.Msg = rule0.Msg ∧ rule.Sid = rule0.Sid ∧
      rule.Gid = rule0.Gid ∧ rule.Enabled = rule0.Enabled ∧ rule.Raw = rule0.Raw ∧
      parseOptions rule rem = .returned (r, none) := by
  unfold parseFields at h
  simp only [] at h
  repeat' split at h
  all_goals first | (simp at h) | skip
  all_goals exact ⟨_, _, by rfl, by rfl, by rfl, by rfl, by rfl, by rfl, h⟩

theorem Parse_success (vd : Str → Bool) (buf : Str) (r : Rule)
    (h : Parse vd buf = .returned (r, none)) :
    ∃ rule rem, rule.Options = [] ∧ rule.Msg = [] ∧ rule.Sid = 0 ∧ rule.Gid = 0 ∧
      parseOptions rule rem = .returned (r, none) := by
  unfold Parse at h
  simp only [] at h
  split at h
  · obtain ⟨rule, rem, h1, h2, h3, h4, _, _, h7⟩ := parseFields_success vd _ _ r h
    exact ⟨rule, rem, h1, h2, h3, h4, h7⟩
  · obtain ⟨rule, rem, h1, h2, h3, h4, _, _, h7⟩ := parseFields_success vd _ _ r h
    exact ⟨rule, rem, h1, h2, h3, h4, h7⟩

theorem parseOptions_success (rule : Rule) (rem : Str) (r : Rule)
    (h : parseOptions rule rem = .returned (r, none)) :
    ∃ fuel buf, optionLoop fuel buf rule = .returned (r, none) := by
  unfold parseOptions at h
  simp only [] at h
  repeat' split at h
  all_goals first | (simp at h) | skip
  all_goals exact ⟨_, _, h⟩

theorem Promoted.push {rule : Rule} (h : Promoted rule) (option arg : Str)
    (hnum : (option = ['s', 'i', 'd'] ∨ option = ['g', 'i', 'd']) → (ParseUint arg).isSome) :
    Promoted (rule.push ⟨option, arg⟩) := by
  obtain ⟨h1, h2, h3⟩ := h
  unfold Rule.push
  simp only []
  by_cases e1 : option = ['m', 's', 'g']
  · subst e1
    refine ⟨?_, ?_, ?_⟩ <;> simp [lastArg_concat, h1, h2, h3]
  · by_cases e2 : option = ['s', 'i', 'd']
    · subst e2
      obtain ⟨n, hn⟩ := Option.isSome_iff_exists.mp (hnum (Or.inl rfl))
      refine ⟨?_, ?_, ?_⟩ <;> simp [lastArg_concat, h1, h2, h3, hn]
    · by_cases e3 : option = ['g', 'i', 'd']
      · subst e3
        obtain ⟨n, hn⟩ := Option.isSome_iff_exists.mp (hnum (Or.inr rfl))
        refine ⟨?_, ?_, ?_⟩ <;> simp [lastArg_concat, h1, h2, h3, hn]
      · refine ⟨?_, ?_, ?_⟩ <;> simp [lastArg_concat, h1, h2, h3, e1, e2, e3]

theorem optionLoop_success (fuel : Nat) (buf : Str) (rule r : Rule)
    (h : optionLoop (fuel + 1) buf rule = .returned (r, none)) :
    (r = rule ∧ HasPrefix (trimLeadingWhiteSpace buf) [')'] = true) ∨
    ∃ option arg rest,
      parseOption (trimLeadingWhiteSpace buf) = some (option, arg, rest, none) ∧
      ((option = ['s', 'i', 'd'] ∨ option = ['g', 'i', 'd']) → (ParseUint arg).isSome) ∧
      optionLoop fuel rest (rule.push ⟨option, arg⟩) = .returned (r, none) := by
  rw [optionLoop] at h
  simp only [] at h
  split at h
  · simp at h
  · split at h
    · rename_i hp
      left
      simp only [Outcome.returned.injEq, Prod.mk.injEq, and_true] at h
      exact ⟨h.symm, hp⟩
    · split at h
      · simp at h
      · simp at h
      · rename_i option arg rest hpo
        right
        refine ⟨option, arg, rest, hpo, ?_⟩
        unfold Rule.push
        simp only []
        by_cases e1 : option = ['m', 's', 'g']
        · subst e1
          simp only [if_true] at h ⊢
          exact ⟨by simp, h⟩
        · by_cases e2 : option = ['s', 'i', 'd']
          · subst e2
            simp only [if_true, if_neg e1] at h ⊢
            cases hu : ParseUint arg with
            | none => rw [hu] at h; simp at h
            | some n => rw [hu] at h; exact ⟨by simp, h⟩
          · by_cases e3 : option = ['g', 'i', 'd']
            · subst e3
              simp only [if_true, if_neg e1, if_neg e2] at h ⊢
              cases hu : ParseUint arg with
              | none => rw [hu] at h; simp at h
              | some n => rw [hu] at h; exact ⟨by simp, h⟩
            · simp only [if_neg e1, if_neg e2, if_neg e3] at h ⊢
              exact ⟨by simp [e2, e3], h⟩

theorem optionLoop_promoted (fuel : Nat) (buf : Str) (rule r : Rule) (hP : Promoted rule)
    (h : optionLoop fuel buf rule = .returned (r, none)) : Promoted r := by
  induction fuel generalizing buf rule with
  | zero => simp [optionLoop] at h
  | succ f ih =>
    rcases optionLoop_success f buf rule r h with ⟨rfl, _⟩ | ⟨option, arg, rest, _, hnum, hl⟩
    · exact hP
    · exact ih rest _ (hP.push option arg hnum) hl

/-- C3: on every input on which `Parse` succeeds, the promoted fields are a
projection of the returned option list: `Msg` is the argument of the last
option named `msg` (empty without one), `Sid` the base-10 value of the
argument of the last option named `sid` (0 without one), and `Gid` likewise for
`gid`. -/
theorem Parse_promoted_projection (vd : Str → Bool) (buf : Str) (r : Rule)
    (h : Parse vd buf = .returned (r, none)) :
    r.Msg = (lastArg ['m', 's', 'g'] r.Options).getD [] ∧
    (match lastArg ['s', 'i', 'd'] r.Options with
     | none => r.Sid = 0
     | some a => ParseUint a = some r.Sid) ∧
    (match lastArg ['g', 'i', 'd'] r.Options with
     | none => r.Gid = 0
     | some a => ParseUint a = some r.Gid) := by
  obtain ⟨rule, rem, h1, h2, h3, h4, hopt⟩ := Parse_success vd buf r h
  obtain ⟨fuel, body, hl⟩ := parseOptions_success rule rem r hopt
  have hP : Promoted rule := by
    unfold Promoted
    rw [h1, h2, h3, h4]
    simp [lastArg]
  exact optionLoop_promoted fuel body rule r hP hl

theorem Parse_promoted_projection_witness :
    Parse validateDirection
        "alert tcp any any -> any 80 (msg:\"test rule\"; sid:1; gid:1;)".toList =
      .returned (scenario1, none) ∧
    (scenario1.Msg = (lastArg ['m', 's', 'g'] scenario1.Options).getD [] ∧
    (match lastArg ['s', 'i', 'd'] scenario1.Options with
     | none => scenario1.Sid = 0
     | some a => ParseUint a = some scenario1.Sid) ∧
    (match lastArg ['g', 'i', 'd'] scenario1.Options with
     | none => scenario1.Gid = 0
     | some a => ParseUint a = some scenario1.Gid)) :=
  ⟨by decide, Parse_promoted_projection validateDirection
    "alert tcp any any -> any 80 (msg:\"test rule\"; sid:1; gid:1;)".toList scenario1
    (by decide)⟩

/-! ## The enable status -/

theorem optionLoop_enabled (fuel : Nat) (buf : Str) (rule r : Rule) (e : Option ParseError)
    (h : optionLoop fuel buf rule = .returned (r, e)) : r.Enabled = rule.Enabled := by
  induction fuel generalizing buf rule with
  | zero => simp [optionLoop] at h
  | succ f ih =>
    rw [optionLoop] at h
    simp only [] at h
    repeat' split at h
    all_goals first
      | (simp only [Outcome.returned.injEq, Prod.mk.injEq] at h; rw [← h.1])
      | (have h2 := ih _ _ h; exact h2)
      | (simp at h)

theorem parseOptions_enabled (rule : Rule) (rem : Str) (r : Rule) (e : Option ParseError)
    (h : parseOptions rule rem = .returned (r, e)) : r.Enabled = rule.Enabled := by
  unfold parseOptions at h
  simp only [] at h
  repeat' split at h
  all_goals first
    | (simp only [Outcome.returned.injEq, Prod.mk.injEq] at h; rw [← h.1])
    | (have h2 := optionLoop_enabled _ _ _ _ _ h; exact h2)
    | (simp at h)

theorem parseFields_enabled (vd : Str → Bool) (rule : Rule) (buf : Str) (r : Rule)
    (e : Option ParseError) (h : parseFields vd rule buf = .returned (r, e)) :
    r.Enabled = rule.Enabled := by
  unfold parseFields at h
  simp only [] at h
  repeat' split at h
  all_goals first
    | (simp only [Outcome.returned.injEq, Prod.mk.injEq] at h; rw [← h.1])
    | (have h2 := parseOptions_enabled _ _ _ _ h; exact h2)
    | (simp at h)

/-- Every rule `Parse` returns, with or without an error, is disabled exactly
when the input begins with `#` after its leading spaces. -/
theorem Parse_enabled (vd : Str → Bool) (buf : Str) (r : Rule) (e : Option ParseError)
    (h : Parse vd buf = .returned (r, e)) :
    r.Enabled = !HasPrefix (trimLeadingWhiteSpace buf) ['#'] := by
  unfold Parse at h
  simp only [] at h
  split at h
  · rename_i hp
    rw [parseFields_enabled vd _ _ r e h]
    simpa using hp
  · rename_i hp
    rw [parseFields_enabled vd _ _ r e h]
    simpa using hp

/-- C4 (the code at the failing input): the input
`\t#alert tcp any any -> any any (msg:"disabled";)` begins, after its leading
tab, with `#`, and `Parse` returns it as an enabled rule whose action is
`#alert`: `trimLeadingWhiteSpace` removes spaces only, so the `#` is not seen
as the disable marker. -/
theorem Parse_tab_hash_enabled :
    Parse validateDirection "\t#alert tcp any any -> any any (msg:\"disabled\";)".toList =
      .returned (tabHashRule, none) ∧
    tabHashRule.Enabled = true ∧ tabHashRule.Action = "#alert".toList := by
  decide

/-- C5 (the code at the failing input): on the argument `"` (one double
quote) `trimQuotes` evaluates the slice `buf[1:0]` and panics, so `parseOption`
panics on `msg:";` and `Parse` panics on
`alert tcp any any -> any any (msg:";)`. -/
theorem Parse_lone_quote_panics :
    trimQuotes ['"'] = none ∧ slice ['"'] 1 0 = none ∧
    parseOption "msg:\";)".toList = none ∧
    Parse validateDirection "alert tcp any any -> any any (msg:\";)".toList = .panicked := by
  decide

/-- C9 (the code at the failing input): on `\t tcp any any -> any any (x;)`
`Parse` returns no error and a rule whose `Action` is the empty string. -/
theorem Parse_empty_action :
    Parse validateDirection "\t tcp any any -> any any (x;)".toList =
      .returned (emptyActionRule, none) ∧
    emptyActionRule.Action = [] := by
  decide

/-! ## Escaped semicolons -/

theorem trimQuotes_escaped (x y : Str) :
    ∃ a, trimQuotes (x ++ '\\' :: ';' :: y) = some a ∧ ';' ∈ a ∧
      (¬ (x.head? = some '"' ∧ y.getLast? = some '"') → a = x ++ '\\' :: ';' :: y) := by
  by_cases hq : x.head? = some '"' ∧ y.getLast? = some '"'
  · obtain ⟨hx, hy⟩ := hq
    cases x with
    | nil => simp at hx
    | cons c x =>
      simp only [List.head?_cons, Option.some.injEq] at hx
      subst hx
      rcases List.eq_nil_or_concat y with rfl | ⟨y, d, rfl⟩
      · simp at hy
      · have hd : d = '"' := by simpa using hy
        subst hd
        refine ⟨x ++ '\\' :: ';' :: y, ?_, by simp, fun h => absurd ⟨rfl, by simp⟩ h⟩
        have e : ('"' :: x) ++ '\\' :: ';' :: (y.concat '"') =
            '"' :: ((x ++ '\\' :: ';' :: y) ++ ['"']) := by simp
        rw [e, trimQuotes_quoted]
  · refine ⟨x ++ '\\' :: ';' :: y, trimQuotes_unquoted _ ?_, by simp, fun _ => rfl⟩
    rintro ⟨h1, h2⟩
    apply hq
    constructor
    · cases x with
      | nil => simp at h1
      | cons c x => simpa using h1
    · rcases List.eq_nil_or_concat y with rfl | ⟨y, d, rfl⟩
      · rw [List.getLast?_append_of_ne_nil _ (by simp)] at h2
        simp at h2
      · have e : x ++ '\\' :: ';' :: y.concat d = (x ++ '\\' :: ';' :: y) ++ [d] := by simp
        rw [e, List.getLast?_append_of_ne_nil _ (by simp)] at h2
        simpa using h2

/-- C6, as amended: for an option name `n` free of `;` and `:` and not beginning
with a space, `x` and `y` free of `;` and `\`, and any `rest`,
`parseOption` of `n:x\;y;rest` succeeds with option `n` and remainder `rest`;
its argument is what `trimQuotes` makes of `x\;y`, it contains the `;`, and it
is `x\;y` itself, all of `y` included, unless `x` begins with and `y` ends with
a double quote (the pair of quotes is then removed). -/
theorem parseOption_escaped_semicolon (n x y rest : Str)
    (hn : ';' ∉ n ∧ ':' ∉ n ∧ n.head? ≠ some ' ')
    (hx : ';' ∉ x ∧ '\\' ∉ x) (hy : ';' ∉ y ∧ '\\' ∉ y) :
    ∃ a, parseOption (n ++ ':' :: (x ++ '\\' :: ';' :: (y ++ ';' :: rest))) =
        some (n, a, rest, none) ∧
      trimQuotes (x ++ '\\' :: ';' :: y) = some a ∧ ';' ∈ a ∧
      (¬ (x.head? = some '"' ∧ y.getLast? = some '"') → a = x ++ '\\' :: ';' :: y) := by
  obtain ⟨a, h1, h2, h3⟩ := trimQuotes_escaped x y
  refine ⟨a, ?_, h1, h2, h3⟩
  have hp := parseOption_arg 0 n (x ++ '\\' :: ';' :: y) rest hn
    (ArgText_escaped x y hx.1 hx.2 hy.1 hy.2)
  rw [h1] at hp
  simpa [spaces] using hp

theorem parseOption_escaped_semicolon_witness :
    ∃ a, parseOption "msg:esc\\;aped; sid:1;)".toList =
        some ("msg".toList, a, " sid:1;)".toList, none) ∧
      trimQuotes "esc\\;aped".toList = some a ∧ ';' ∈ a ∧
      (¬ ("esc".toList.head? = some '"' ∧ "aped".toList.getLast? = some '"') →
        a = "esc\\;aped".toList) :=
  parseOption_escaped_semicolon "msg".toList "esc".toList "aped".toList " sid:1;)".toList
    (by decide) (by decide) (by decide)

/-- C6, as stated, fails at `n = msg`, `x = "`, `y = "` and an empty `rest`:
the argument returned for `msg:"\;";` is `\;`, which does not contain `y`. -/
theorem parseOption_escaped_semicolon_counterexample :
    ¬ ∃ a, parseOption ("msg".toList ++ ':' :: (['"'] ++ '\\' :: ';' :: (['"'] ++ ';' :: []))) =
        some ("msg".toList, a, [], none) ∧ ';' ∈ a ∧ ['"'] <:+: a := by
  rintro ⟨a, h, _, hy⟩
  have e : parseOption ("msg".toList ++ ':' :: (['"'] ++ '\\' :: ';' :: (['"'] ++ ';' :: []))) =
      some ("msg".toList, ['\\', ';'], [], none) := by decide
  rw [e] at h
  simp only [Option.some.injEq, Prod.mk.injEq, true_and, and_true] at h
  subst h
  revert hy
  decide

/-- C7, as amended: `Parse` keeps the backslash of an escaped semicolon.  For a
valid header and `x`, `y` free of `;`, `\` and `"`, `Parse` of the header
followed by ` (msg:"x\;y";)` succeeds, its single option has the argument
`x\;y` (backslash included), and `Msg` is the same string. -/
theorem Parse_escaped_semicolon_kept (vd : Str → Bool) (h : Header) (x y : Str)
    (hv : h.Valid vd) (hx : ';' ∉ x ∧ '\\' ∉ x ∧ '"' ∉ x) (hy : ';' ∉ y ∧ '\\' ∉ y ∧ '"' ∉ y) :
    ∃ r, Parse vd (h.text (" (msg:\"".toList ++ (x ++ '\\' :: ';' :: (y ++ "\";)".toList)))) =
        .returned (r, none) ∧
      r.Options = [⟨"msg".toList, x ++ '\\' :: ';' :: y⟩] ∧
      r.Msg = x ++ '\\' :: ';' :: y := by
  have hr : List.Forall₂ Written.Reads
      [(⟨0, "msg".toList, some ('"' :: ((x ++ '\\' :: ';' :: y) ++ ['"']))⟩ : Written)]
      [x ++ '\\' :: ';' :: y] := by
    have hm1 : OptName "msg".toList := by decide
    have hm2 : "msg".toList.head? ≠ some ')' := by decide
    have hm3 : ¬ ("msg".toList = ['s', 'i', 'd'] ∨ "msg".toList = ['g', 'i', 'd']) := by decide
    refine List.Forall₂.cons ⟨⟨hm1, hm2, ?_, trimQuotes_quoted _⟩, fun hk => absurd hk hm3⟩
      List.Forall₂.nil
    have e : '"' :: ((x ++ '\\' :: ';' :: y) ++ ['"']) =
        ('"' :: x) ++ '\\' :: ';' :: (y ++ ['"']) := by simp
    show ArgText ('"' :: ((x ++ '\\' :: ';' :: y) ++ ['"']))
    rw [e]
    exact ArgText_escaped _ _ (by simp [hx.1]) (by simp [hx.2.1]) (by simp [hy.1])
        (by simp [hy.2.1])
  have hp := Parse_written vd h hv 0 0 _ _ hr
  have e : h.text (" (msg:\"".toList ++ (x ++ '\\' :: ';' :: (y ++ "\";)".toList))) =
      h.text (spaces (0 + 1) ++ '(' :: writtenAll
        [(⟨0, "msg".toList, some ('"' :: ((x ++ '\\' :: ';' :: y) ++ ['"']))⟩ : Written)]
        (spaces 0 ++ [')'])) := by
    simp [writtenAll, Written.text, spaces]
  rw [e]
  refine ⟨_, hp, ?_, ?_⟩
  · simp [Rule.push, Header.rule]
  · simp [Rule.push, Header.rule]

theorem Parse_escaped_semicolon_kept_witness :
    ∃ r, Parse validateDirection
        "alert tcp any any -> any any (msg:\"esc\\;aped\";)".toList = .returned (r, none) ∧
      r.Options = [⟨"msg".toList, "esc\\;aped".toList⟩] ∧ r.Msg = "esc\\;aped".toList :=
  Parse_escaped_semicolon_kept validateDirection
    { action := "alert".toList, proto := "tcp".toList, srcAddr := "any".toList,
      srcPort := "any".toList, dir := "->".toList, dstAddr := "any".toList,
      dstPort := "any".toList }
    "esc".toList "aped".toList (by decide) (by decide) (by decide)

/-- C7, as stated, fails on its own example: the argument of the single option
of `alert tcp any any -> any any (msg:"esc\;aped";)` is not `esc;aped`. -/
theorem Parse_escaped_semicolon_counterexample :
    ¬ ∃ r, Parse validateDirection
        "alert tcp any any -> any any (msg:\"esc\\;aped\";)".toList = .returned (r, none) ∧
      r.Options.map RuleOption.Args = ["esc;aped".toList] := by
  rintro ⟨r, h, ha⟩
  have e : Parse validateDirection
      "alert tcp any any -> any any (msg:\"esc\\;aped\";)".toList =
      .returned (scenario3, none) := by decide
  rw [e] at h
  simp only [Outcome.returned.injEq, Prod.mk.injEq, and_true] at h
  subst h
  revert ha
  decide

/-! ## Numeric options -/

theorem sid_gid_scans (k a : Str) (hk : k = "sid".toList ∨ k = "gid".toList)
    (ha : ';' ∉ a ∧ '\\' ∉ a ∧ '"' ∉ a) : (⟨0, k, some a⟩ : Written).Scans a := by
  have h1 : OptName k ∧ k.head? ≠ some ')' := by
    rcases hk with rfl | rfl <;> decide
  refine ⟨h1.1, h1.2, ArgText_plain a ha.1 ha.2.1, trimQuotes_unquoted a ?_⟩
  rintro ⟨hq, _⟩
  cases a with
  | nil => simp at hq
  | cons c cs =>
    simp only [List.head?_cons, Option.some.injEq] at hq
    exact ha.2.2 (hq ▸ List.mem_cons_self _ _)

/-- C8: for a valid header, `k` one of `sid` and `gid`, and an argument text `a`
free of `;`, `\` and `"`, `Parse` of the header followed by ` (k:a;)`
succeeds if and only if `a` is a non-empty string of decimal digits whose value
is below 2^64; the promoted field (`Sid` for `sid`, `Gid` for `gid`) is then
that value, and for every other `a` `Parse` returns an error. -/
theorem Parse_sid_gid_numeral (vd : Str → Bool) (h : Header) (k a : Str)
    (hv : h.Valid vd) (hk : k = "sid".toList ∨ k = "gid".toList)
    (ha : ';' ∉ a ∧ '\\' ∉ a ∧ '"' ∉ a) :
    ((∃ r, Parse vd (h.text (' ' :: '(' :: (k ++ ':' :: (a ++ [';', ')'])))) =
        .returned (r, none)) ↔ (Numeral a ∧ numeralValue a < 2 ^ 64)) ∧
    (∀ r, Parse vd (h.text (' ' :: '(' :: (k ++ ':' :: (a ++ [';', ')'])))) =
        .returned (r, none) →
      (k = "sid".toList → r.Sid = numeralValue a) ∧
      (k = "gid".toList → r.Gid = numeralValue a)) ∧
    (¬ (Numeral a ∧ numeralValue a < 2 ^ 64) →
      ∃ r, Parse vd (h.text (' ' :: '(' :: (k ++ ':' :: (a ++ [';', ')'])))) =
        .returned (r, some (.failedToParseSid a))) := by
  have hs := sid_gid_scans k a hk ha
  have e : h.text (' ' :: '(' :: (k ++ ':' :: (a ++ [';', ')']))) =
      h.text (spaces (0 + 1) ++ '(' :: writtenAll [(⟨0, k, some a⟩ : Written)]
        (spaces 0 ++ [')'])) := by
    simp [writtenAll, Written.text, spaces]
  have hgood : Numeral a ∧ numeralValue a < 2 ^ 64 →
      Parse vd (h.text (' ' :: '(' :: (k ++ ':' :: (a ++ [';', ')'])))) =
        .returned (h.rule.push ⟨k, a⟩, none) := by
    intro hnum
    have hr : List.Forall₂ Written.Reads [(⟨0, k, some a⟩ : Written)] [a] :=
      List.Forall₂.cons ⟨hs, fun _ => (ParseUint_isSome_iff a).mpr hnum⟩ List.Forall₂.nil
    rw [e]
    exact Parse_written vd h hv 0 0 _ _ hr
  have hbad : ¬ (Numeral a ∧ numeralValue a < 2 ^ 64) →
      Parse vd (h.text (' ' :: '(' :: (k ++ ':' :: (a ++ [';', ')'])))) =
        .returned ({ h.rule with Options := h.rule.Options ++ [⟨k, a⟩] },
          some (.failedToParseSid a)) := by
    intro hnum
    have hu : ParseUint a = none := by
      rw [← Option.not_isSome_iff_eq_none, ParseUint_isSome_iff]
      exact hnum
    have hT : Tight ('(' :: writtenAll [(⟨0, k, some a⟩ : Written)] (spaces 0 ++ [')'])) := by
      rw [writtenAll_concat]
      exact Tight.paren _
    rw [e, Parse_header vd h hv 0 _ hT, parseOptions_paren]
    exact optionLoop_step_fail _ ⟨0, k, some a⟩ a _ h.rule hs hk hu
  have hval : Numeral a ∧ numeralValue a < 2 ^ 64 →
      (k = "sid".toList → (h.rule.push ⟨k, a⟩).Sid = numeralValue a) ∧
      (k = "gid".toList → (h.rule.push ⟨k, a⟩).Gid = numeralValue a) := by
    intro hnum
    have hu : ParseUint a = some (numeralValue a) :=
      (ParseUint_eq_some_iff a _).mpr ⟨hnum.1, rfl, hnum.2⟩
    constructor
    · rintro rfl
      simp [Rule.push, hu]
    · rintro rfl
      simp [Rule.push, hu]
  refine ⟨⟨?_, fun hnum => ⟨_, hgood hnum⟩⟩, ?_, fun hnum => ⟨_, hbad hnum⟩⟩
  · rintro ⟨r, hr⟩
    by_contra hnum
    rw [hbad hnum] at hr
    simp at hr
  · intro r hr
    by_cases hnum : Numeral a ∧ numeralValue a < 2 ^ 64
    · rw [hgood hnum] at hr
      simp only [Outcome.returned.injEq, Prod.mk.injEq, and_true] at hr
      subst hr
      exact hval hnum
    · rw [hbad hnum] at hr
      simp at hr

theorem Parse_sid_gid_numeral_witness :
    (∃ r, Parse validateDirection "alert tcp any any -> any any (sid:2100498;)".toList =
        .returned (r, none) ∧ r.Sid = 2100498) ∧
    (∃ r, Parse validateDirection "alert tcp any any -> any any (sid:abc;)".toList =
        .returned (r, some (.failedToParseSid "abc".toList))) := by
  have T1 := Parse_sid_gid_numeral validateDirection
    { action := "alert".toList, proto := "tcp".toList, srcAddr := "any".toList,
      srcPort := "any".toList, dir := "->".toList, dstAddr := "any".toList,
      dstPort := "any".toList }
    "sid".toList "2100498".toList (by decide) (by decide) (by decide)
  have T2 := Parse_sid_gid_numeral validateDirection
    { action := "alert".toList, proto := "tcp".toList, srcAddr := "any".toList,
      srcPort := "any".toList, dir := "->".toList, dstAddr := "any".toList,
      dstPort := "any".toList }
    "sid".toList "abc".toList (by decide) (by decide) (by decide)
  constructor
  · obtain ⟨r, hr⟩ := T1.1.mpr (by decide)
    exact ⟨r, hr, ((T1.2.1 r hr).1 rfl).trans (by decide)⟩
  · exact T2.2.2 (by decide)

/-! ## Incomplete headers -/

/-- C10: an input made only of `k ≤ 6` white-space-free tokens separated by
runs of one or more spaces (the first not beginning with `#`, the fifth, if
there is one, accepted by the direction validator) makes `Parse` return the
incomplete-rule error. -/
theorem Parse_incomplete_header (vd : Str → Bool) (ts : List (Str × Nat))
    (hk : ts.length ≤ 6) (ht : ∀ p ∈ ts, Token p.1)
    (h1 : ∀ p, ts.head? = some p → p.1.head? ≠ some '#')
    (h5 : ∀ p, ts[4]? = some p → vd p.1 = true) :
    ∃ r, Parse vd (joinTokens ts) = .returned (r, some .errIncompleteRule) := by
  have hhash : ∀ (t rest : Str), Token t → t.head? ≠ some '#' →
      HasPrefix (trimLeadingWhiteSpace (t ++ rest)) ['#'] = false := by
    intro t rest htk hh
    have := trimLeadingWhiteSpace_spaces 0 (t ++ rest) (htk.head_ne ' ' (by decide) rest)
    simp only [spaces, List.replicate_zero, List.nil_append] at this
    rw [this]
    obtain ⟨hne, _⟩ := htk
    cases t with
    | nil => exact absurd rfl hne
    | cons a t =>
      have : a ≠ '#' := by simpa using hh
      simp [HasPrefix, List.isPrefixOf, this, Ne.symm this]
  have htrim : ∀ (t rest : Str), Token t → trimLeadingWhiteSpace (t ++ rest) = t ++ rest := by
    intro t rest htk
    have := trimLeadingWhiteSpace_spaces 0 (t ++ rest) (htk.head_ne ' ' (by decide) rest)
    simpa [spaces] using this
  match ts, hk, ht, h1, h5 with
  | [], _, _, _, _ =>
    simp [joinTokens, Parse, parseFields, trimLeadingWhiteSpace, TrimLeft, HasPrefix,
      List.isPrefixOf, splitAt_nil]
  | [(t1, g1)], _, ht, h1, h5 =>
    have k1 : Token t1 := ht (t1, g1) (by simp)
    have T1 : Tight t1 := k1.tight
    have e1 := hhash t1 [] k1 (h1 (t1, g1) rfl)
    have e2 := htrim t1 [] k1
    simp only [List.append_nil] at e1 e2
    rw [e2] at e1
    simp only [joinTokens, Parse, parseFields, e1, e2, splitAt_last _ k1]
    simp
  | [(t1, g1), (t2, g2)], _, ht, h1, h5 =>
    have k1 : Token t1 := ht (t1, g1) (by simp)
    have k2 : Token t2 := ht (t2, g2) (by simp)
    have T2 : Tight t2 := k2.tight
    have e1 := hhash t1 (spaces (g1 + 1) ++ t2) k1 (h1 (t1, g1) rfl)
    have e2 := htrim t1 (spaces (g1 + 1) ++ t2) k1
    rw [e2] at e1
    simp only [joinTokens, Parse, parseFields, e1, e2, splitAt_field _ _ _ k1 T2, splitAt_last _ k2]
    simp [T2.ne_nil]
  | [(t1, g1), (t2, g2), (t3, g3)], _, ht, h1, h5 =>
    have k1 : Token t1 := ht (t1, g1) (by simp)
    have k2 : Token t2 := ht (t2, g2) (by simp)
    have k3 : Token t3 := ht (t3, g3) (by simp)
    have T3 : Tight t3 := k3.tight
    have T2 : Tight (t2 ++ (spaces (g2 + 1) ++ t3)) := Tight.field (g2 + 1) k2 T3
    have e1 := hhash t1 (spaces (g1 + 1) ++ (t2 ++ (spaces (g2 + 1) ++ t3))) k1 (h1 (t1, g1) rfl)
    have e2 := htrim t1 (spaces (g1 + 1) ++ (t2 ++ (spaces (g2 + 1) ++ t3))) k1
    rw [e2] at e1
    simp only [joinTokens, Parse, parseFields, e1, e2, splitAt_field _ _ _ k1 T2,
      splitAt_field _ _ _ k2 T3, splitAt_last _ k3]
    simp [T2.ne_nil, T3.ne_nil]
  | [(t1, g1), (t2, g2), (t3, g3), (t4, g4)], _, ht, h1, h5 =>
    have k1 : Token t1 := ht (t1, g1) (by simp)
    have k2 : Token t2 := ht (t2, g2) (by simp)
    have k3 : Token t3 := ht (t3, g3) (by simp)
    have k4 : Token t4 := ht (t4, g4) (by simp)
    have T4 : Tight t4 := k4.tight
    have T3 : Tight (t3 ++ (spaces (g3 + 1) ++ t4)) := Tight.field (g3 + 1) k3 T4
    have T2 : Tight (t2 ++ (spaces (g2 + 1) ++ (t3 ++ (spaces (g3 + 1) ++ t4)))) := Tight.field (g2 + 1) k2 T3
    have e1 := hhash t1 (spaces (g1 + 1) ++ (t2 ++ (spaces (g2 + 1) ++ (t3 ++ (spaces (g3 + 1) ++ t4))))) k1 (h1 (t1, g1) rfl)
    have e2 := htrim t1 (spaces (g1 + 1) ++ (t2 ++ (spaces (g2 + 1) ++ (t3 ++ (spaces (g3 + 1) ++ t4))))) k1
    rw [e2] at e1
    simp only [joinTokens, Parse, parseFields, e1, e2, splitAt_field _ _ _ k1 T2,
      splitAt_field _ _ _ k2 T3, splitAt_field _ _ _ k3 T4, splitAt_last _ k4]
    simp [T2.ne_nil, T3.ne_nil, T4.ne_nil]
  | [(t1, g1), (t2, g2), (t3, g3), (t4, g4), (t5, g5)], _, ht, h1, h5 =>
    have k1 : Token t1 := ht (t1, g1) (by simp)
    have k2 : Token t2 := ht (t2, g2) (by simp)
    have k3 : Token t3 := ht (t3, g3) (by simp)
    have k4 : Token t4 := ht (t4, g4) (by simp)
    have k5 : Token t5 := ht (t5, g5) (by simp)
    have T5 : Tight t5 := k5.tight
    have T4 : Tight (t4 ++ (spaces (g4 + 1) ++ t5)) := Tight.field (g4 + 1) k4 T5
    have T3 : Tight (t3 ++ (spaces (g3 + 1) ++ (t4 ++ (spaces (g4 + 1) ++ t5)))) := Tight.field (g3 + 1) k3 T4
    have T2 : Tight (t2 ++ (spaces (g2 + 1) ++ (t3 ++ (spaces (g3 + 1) ++ (t4 ++ (spaces (g4 + 1) ++ t5)))))) := Tight.field (g2 + 1) k2 T3
    have hd : vd t5 = true := h5 (t5, g5) rfl
    have e1 := hhash t1 (spaces (g1 + 1) ++ (t2 ++ (spaces (g2 + 1) ++ (t3 ++ (spaces (g3 + 1) ++ (t4 ++ (spaces (g4 + 1) ++ t5))))))) k1 (h1 (t1, g1) rfl)
    have e2 := htrim t1 (spaces (g1 + 1) ++ (t2 ++ (spaces (g2 + 1) ++ (t3 ++ (spaces (g3 + 1) ++ (t4 ++ (spaces (g4 + 1) ++ t5))))))) k1
    rw [e2] at e1
    simp only [joinTokens, Parse, parseFields, e1, e2, splitAt_field _ _ _ k1 T2,
      splitAt_field _ _ _ k2 T3, splitAt_field _ _ _ k3 T4, splitAt_field _ _ _ k4 T5,
      splitAt_last _ k5]
    simp [T2.ne_nil, T3.ne_nil, T4.ne_nil, T5.ne_nil, hd]
  | [(t1, g1), (t2, g2), (t3, g3), (t4, g4), (t5, g5), (t6, g6)], _, ht, h1, h5 =>
    have k1 : Token t1 := ht (t1, g1) (by simp)
    have k2 : Token t2 := ht (t2, g2) (by simp)
    have k3 : Token t3 := ht (t3, g3) (by simp)
    have k4 : Token t4 := ht (t4, g4) (by simp)
    have k5 : Token t5 := ht (t5, g5) (by simp)
    have k6 : Token t6 := ht (t6, g6) (by simp)
    have T6 : Tight t6 := k6.tight
    have T5 : Tight (t5 ++ (spaces (g5 + 1) ++ t6)) := Tight.field (g5 + 1) k5 T6
    have T4 : Tight (t4 ++ (spaces (g4 + 1) ++ (t5 ++ (spaces (g5 + 1) ++ t6)))) := Tight.field (g4 + 1) k4 T5
    have T3 : Tight (t3 ++ (spaces (g3 + 1) ++ (t4 ++ (spaces (g4 + 1) ++ (t5 ++ (spaces (g5 + 1) ++ t6)))))) := Tight.field (g3 + 1) k3 T4
    have T2 : Tight (t2 ++ (spaces (g2 + 1) ++ (t3 ++ (spaces (g3 + 1) ++ (t4 ++ (spaces (g4 + 1) ++ (t5 ++ (spaces (g5 + 1) ++ t6)))))))) := Tight.field (g2 + 1) k2 T3
    have hd : vd t5 = true := h5 (t5, g5) rfl
    have e1 := hhash t1 (spaces (g1 + 1) ++ (t2 ++ (spaces (g2 + 1) ++ (t3 ++ (spaces (g3 + 1) ++ (t4 ++ (spaces (g4 + 1) ++ (t5 ++ (spaces (g5 + 1) ++ t6))))))))) k1 (h1 (t1, g1) rfl)
    have e2 := htrim t1 (spaces (g1 + 1) ++ (t2 ++ (spaces (g2 + 1) ++ (t3 ++ (spaces (g3 + 1) ++ (t4 ++ (spaces (g4 + 1) ++ (t5 ++ (spaces (g5 + 1) ++ t6))))))))) k1
    rw [e2] at e1
    simp only [joinTokens, Parse, parseFields, e1, e2, splitAt_field _ _ _ k1 T2,
      splitAt_field _ _ _ k2 T3, splitAt_field _ _ _ k3 T4, splitAt_field _ _ _ k4 T5,
      splitAt_field _ _ _ k5 T6, splitAt_last _ k6]
    simp [T2.ne_nil, T3.ne_nil, T4.ne_nil, T5.ne_nil, T6.ne_nil, hd]
  | _ :: _ :: _ :: _ :: _ :: _ :: _ :: _, hk, _, _, _ =>
    simp at hk

theorem Parse_incomplete_header_witness :
    ∃ r, Parse validateDirection "alert tcp  any any -> any".toList =
      .returned (r, some .errIncompleteRule) :=
  Parse_incomplete_header validateDirection
    [("alert".toList, 0), ("tcp".toList, 1), ("any".toList, 0), ("any".toList, 0),
      ("->".toList, 0), ("any".toList, 0)]
    (by decide) (by decide) (by decide) (by decide)

/-! ## Trailing white space -/

theorem rdropWhile_append_right (p : Char → Bool) (B R : Str) :
    (B ++ R).rdropWhile p =
      if R.rdropWhile p = [] then B.rdropWhile p else B ++ R.rdropWhile p := by
  unfold List.rdropWhile
  rw [List.reverse_append, List.dropWhile_append]
  by_cases h : List.dropWhile p R.reverse = []
  · simp [h]
  · simp [h]

theorem rdropWhile_cons_of_neg (p : Char → Bool) (c : Char) (T : Str) (hc : p c = false) :
    List.rdropWhile p (c :: T) = c :: List.rdropWhile p T := by
  have h := rdropWhile_append_right p [c] T
  have h1 : List.rdropWhile p [c] = [c] := by
    simp [List.rdropWhile, hc]
  simp only [List.singleton_append] at h
  rw [h, h1]
  split
  · rename_i h2
    rw [h2]
  · rfl

theorem rdropWhile_idem_append (p : Char → Bool) (B R : Str) :
    (B ++ R.rdropWhile p).rdropWhile p = (B ++ R).rdropWhile p := by
  rw [rdropWhile_append_right, rdropWhile_append_right]
  have : (R.rdropWhile p).rdropWhile p = R.rdropWhile p := by
    rw [List.rdropWhile_eq_self_iff]
    intro hne
    have := List.rdropWhile_last_not p R hne
    simpa using this
  rw [this]

theorem tight_rdropWhile (R : Str) (h : ∃ c, R.head? = some c ∧ isSpace c = false) :
    Tight (R.rdropWhile isSpace) := by
  obtain ⟨c, hc, hs⟩ := h
  cases R with
  | nil => simp at hc
  | cons a T =>
    simp only [List.head?_cons, Option.some.injEq] at hc
    subst hc
    rw [rdropWhile_cons_of_neg isSpace a T hs]
    refine ⟨⟨a, rfl, hs⟩, ?_⟩
    have hne : a :: List.rdropWhile isSpace T ≠ [] := by simp
    refine ⟨(a :: List.rdropWhile isSpace T).getLast hne, List.getLast?_eq_getLast _ hne, ?_⟩
    have h2 := List.rdropWhile_last_not isSpace (a :: T)
    rw [rdropWhile_cons_of_neg isSpace a T hs] at h2
    simpa using h2 hne

theorem TrimSpace_head (B X : Str) (hB : ∃ c, B.head? = some c ∧ isSpace c = false) :
    TrimSpace (B ++ X) = (B ++ X).rdropWhile isSpace := by
  obtain ⟨c, hc, hs⟩ := hB
  cases B with
  | nil => simp at hc
  | cons a B =>
    simp only [List.head?_cons, Option.some.injEq] at hc
    subst hc
    simp [TrimSpace, List.dropWhile_cons, hs]

theorem TrimSpace_spaces_any (g : Nat) (X : Str) : TrimSpace (spaces g ++ X) = TrimSpace X := by
  unfold TrimSpace spaces
  rw [List.dropWhile_append_of_pos]
  intro a ha
  rw [List.eq_of_mem_replicate ha]
  decide

theorem Index_noSpace (s : Str) (h : ' ' ∉ s) : Index s [' '] = none := by
  induction s with
  | nil => simp [Index]
  | cons a t ih =>
    have ha : a ≠ ' ' := fun e => h (e ▸ List.mem_cons_self _ _)
    have ih1 := ih (fun hm => h (List.mem_cons_of_mem _ hm))
    simp [Index, List.isPrefixOf, ha, Ne.symm ha, ih1]

theorem splitAt_noSpace (s : Str) (h : ' ' ∉ s) : splitAt s [' '] = some (TrimSpace s, []) := by
  unfold splitAt SplitN2
  rw [if_neg (by simp), Index_noSpace s h]

theorem splitAt_field_any (t X : Str) (g : Nat) (ht : Token t) :
    splitAt (t ++ (spaces (g + 1) ++ X)) [' '] = some (t, TrimSpace X) := by
  have e : t ++ (spaces (g + 1) ++ X) = t ++ ' ' :: (spaces g ++ X) := by
    simp [spaces, List.replicate_succ]
  unfold splitAt SplitN2
  rw [e, if_neg (by simp), Index_space t _ ht.2]
  have e2 : List.drop (t.length + [' '].length) (t ++ ' ' :: (spaces g ++ X)) = spaces g ++ X := by
    have : t ++ ' ' :: (spaces g ++ X) = (t ++ [' ']) ++ (spaces g ++ X) := by simp
    rw [this]
    have hl : t.length + [' '].length = (t ++ [' ']).length := by simp
    rw [hl, List.drop_left]
  have e3 : List.take t.length (t ++ ' ' :: (spaces g ++ X)) = t := by simp
  simp only [e2, e3, ht.tight.trim, TrimSpace_spaces_any]

theorem parseFields_congr (vd : Str → Bool) (rule : Rule) (b1 b2 : Str)
    (h : splitAt b1 [' '] = splitAt b2 [' ']) :
    parseFields vd rule b1 = parseFields vd rule b2 := by
  unfold parseFields
  rw [h]

theorem Header.text_split (h : Header) (X : Str) :
    h.text X = spaces h.lead ++ (h.action ++ (spaces (h.g1 + 1) ++
      ((h.proto ++ (spaces (h.g2 + 1) ++ (h.srcAddr ++ (spaces (h.g3 + 1) ++
        (h.srcPort ++ (spaces (h.g4 + 1) ++ (h.dir ++ (spaces (h.g5 + 1) ++
        (h.dstAddr ++ (spaces (h.g6 + 1) ++ h.dstPort)))))))))) ++ X))) := by
  simp [Header.text, List.append_assoc]

theorem Parse_token_first (vd : Str → Bool) (t rest : Str) (k : Nat) (ht : Token t)
    (hh : t.head? ≠ some '#') :
    Parse vd (spaces k ++ (t ++ rest)) =
      parseFields vd { Enabled := true } (t ++ rest) := by
  have e1 := trimLeadingWhiteSpace_spaces k (t ++ rest) (ht.head_ne ' ' (by decide) rest)
  have e2 : HasPrefix (t ++ rest) ['#'] = false := by
    obtain ⟨hne, _⟩ := ht
    cases t with
    | nil => exact absurd rfl hne
    | cons a t =>
      have : a ≠ '#' := by simpa using hh
      simp [HasPrefix, List.isPrefixOf, this, Ne.symm this]
  unfold Parse
  simp only [e1, e2, Bool.false_eq_true, not_false_eq_true, if_true]

theorem Parse_header_trim (vd : Str → Bool) (h : Header) (hv : h.Valid vd) (g : Nat) (R : Str)
    (hR : ∃ c, R.head? = some c ∧ isSpace c = false) :
    Parse vd (h.text (spaces (g + 1) ++ R)) = parseOptions h.rule (R.rdropWhile isSpace) := by
  have hT := tight_rdropWhile R hR
  rw [← Parse_header vd h hv g _ hT]
  obtain ⟨t1, t2, _, _, _, _, _, hh, _⟩ := hv
  rw [h.text_split, h.text_split, Parse_token_first vd _ _ _ t1 hh,
    Parse_token_first vd _ _ _ t1 hh]
  apply parseFields_congr
  rw [splitAt_field_any _ _ _ t1, splitAt_field_any _ _ _ t1]
  have hB : ∃ c, (h.proto ++ (spaces (h.g2 + 1) ++ (h.srcAddr ++ (spaces (h.g3 + 1) ++
      (h.srcPort ++ (spaces (h.g4 + 1) ++ (h.dir ++ (spaces (h.g5 + 1) ++
      (h.dstAddr ++ (spaces (h.g6 + 1) ++ h.dstPort)))))))))).head? = some c ∧
      isSpace c = false := by
    obtain ⟨⟨c, hc, hs⟩, _⟩ := t2.tight
    refine ⟨c, ?_, hs⟩
    cases hp : h.proto with
    | nil => rw [hp] at hc; simp at hc
    | cons a t => rw [hp] at hc; simpa using hc
  rw [TrimSpace_head _ _ hB, TrimSpace_head _ _ hB]
  have key : ∀ B : Str, List.rdropWhile isSpace (B ++ (spaces (g + 1) ++ R)) =
      List.rdropWhile isSpace (B ++ (spaces (g + 1) ++ List.rdropWhile isSpace R)) := by
    intro B
    rw [← List.append_assoc, ← List.append_assoc B, rdropWhile_idem_append]
  rw [key]

/-! ## A missing destination port, a missing parenthesis -/

theorem Parse_header_end (vd : Str → Bool) (h : Header)
    (t1 : Token h.action) (t2 : Token h.proto) (t3 : Token h.srcAddr) (t4 : Token h.srcPort)
    (t5 : Token h.dir) (t6 : Token h.dstAddr) (hh : h.action.head? ≠ some '#')
    (hd : vd h.dir = true) (hT : Tight h.dstPort) (hS : ' ' ∉ h.dstPort) :
    Parse vd (h.text []) = .returned (h.rule, some .errIncompleteRule) := by
  have T7 : Tight (h.dstPort ++ []) := by simpa using hT
  have T6 := Tight.field (h.g6 + 1) t6 T7
  have T5 := Tight.field (h.g5 + 1) t5 T6
  have T4 := Tight.field (h.g4 + 1) t4 T5
  have T3 := Tight.field (h.g3 + 1) t3 T4
  have T2 := Tight.field (h.g2 + 1) t2 T3
  have hS2 : splitAt (h.dstPort ++ []) [' '] = some (h.dstPort, []) := by
    rw [List.append_nil, splitAt_noSpace _ hS, hT.trim]
  unfold Header.text
  rw [Parse_token_first vd _ _ _ t1 hh]
  unfold parseFields
  simp only [splitAt_field _ _ _ t1 T2, splitAt_field _ _ _ t2 T3, splitAt_field _ _ _ t3 T4,
    splitAt_field _ _ _ t4 T5, splitAt_field _ _ _ t5 T6, splitAt_field _ _ _ t6 T7, hS2, hd]
  simp [t2.1, t3.1, t4.1, t5.1, t6.1, hT.ne_nil, Header.rule]

/-- C11, as amended: six white-space-free header tokens (the first not
beginning with `#`, the fifth a valid direction) separated by runs of spaces
and followed by spaces and a parenthesised option list that contains no space
character make `Parse` return the incomplete-rule error. -/
theorem Parse_missing_port (vd : Str → Bool) (ts : List (Str × Nat)) (body : Str)
    (hk : ts.length = 6) (ht : ∀ p ∈ ts, Token p.1)
    (h1 : ∀ p, ts.head? = some p → p.1.head? ≠ some '#')
    (h5 : ∀ p, ts[4]? = some p → vd p.1 = true) (hb : ' ' ∉ body) :
    ∃ r, Parse vd (joinTokens (ts ++ [('(' :: (body ++ [')']), 0)])) =
      .returned (r, some .errIncompleteRule) :=
  match ts, hk, ht, h1, h5 with
  | [(t1, g1), (t2, g2), (t3, g3), (t4, g4), (t5, g5), (t6, g6)], _, ht, h1, h5 => by
    have hp := Parse_header_end vd
      { action := t1, proto := t2, srcAddr := t3, srcPort := t4, dir := t5, dstAddr := t6,
        dstPort := '(' :: (body ++ [')']), lead := 0, g1 := g1, g2 := g2, g3 := g3, g4 := g4,
        g5 := g5, g6 := g6 }
      (ht (t1, g1) (by simp)) (ht (t2, g2) (by simp)) (ht (t3, g3) (by simp))
      (ht (t4, g4) (by simp)) (ht (t5, g5) (by simp)) (ht (t6, g6) (by simp))
      (h1 (t1, g1) rfl) (h5 (t5, g5) rfl) (Tight.paren body) (by simp [hb])
    have e : joinTokens ([(t1, g1), (t2, g2), (t3, g3), (t4, g4), (t5, g5), (t6, g6)] ++
        [('(' :: (body ++ [')']), 0)]) = Header.text
        { action := t1, proto := t2, srcAddr := t3, srcPort := t4, dir := t5, dstAddr := t6,
          dstPort := '(' :: (body ++ [')']), lead := 0, g1 := g1, g2 := g2, g3 := g3, g4 := g4,
          g5 := g5, g6 := g6 } [] := by
      simp [joinTokens, Header.text, spaces]
    rw [e]
    exact ⟨_, hp⟩
  | [], hk, _, _, _ => by simp at hk
  | _ :: [], hk, _, _, _ => by simp at hk
  | _ :: _ :: [], hk, _, _, _ => by simp at hk
  | _ :: _ :: _ :: [], hk, _, _, _ => by simp at hk
  | _ :: _ :: _ :: _ :: [], hk, _, _, _ => by simp at hk
  | _ :: _ :: _ :: _ :: _ :: [], hk, _, _, _ => by simp at hk
  | _ :: _ :: _ :: _ :: _ :: _ :: _ :: _, hk, _, _, _ => by simp at hk

theorem Parse_missing_port_witness :
    ∃ r, Parse validateDirection "alert tcp any any -> any (msg:\"x\";)".toList =
      .returned (r, some .errIncompleteRule) :=
  Parse_missing_port validateDirection
    [("alert".toList, 0), ("tcp".toList, 0), ("any".toList, 0), ("any".toList, 0),
      ("->".toList, 0), ("any".toList, 0)]
    "msg:\"x\";".toList (by decide) (by decide) (by decide) (by decide) (by decide)

/-- C11, as stated, fails when the option list contains a space:
`alert tcp any any -> any (msg:"x y";)` is cut at that space and `Parse`
returns the "expected (" error, not the incomplete-rule error. -/
theorem Parse_missing_port_counterexample :
    ¬ ∃ r, Parse validateDirection "alert tcp any any -> any (msg:\"x y\";)".toList =
      .returned (r, some .errIncompleteRule) := by
  rintro ⟨r, h⟩
  have e : errorOf (Parse validateDirection
      "alert tcp any any -> any (msg:\"x y\";)".toList) =
      some (.expectedParen (bytes ['y'])) := by decide
  rw [h] at e
  simp [errorOf] at e

/-! ## A missing closing parenthesis -/

theorem optionLoop_written_gen (os : List Written) (vs : List Str)
    (h : List.Forall₂ Written.Reads os vs) (tail : Str) (fuel : Nat) (rule : Rule)
    (hf : (writtenAll os tail).length < fuel) :
    tail.length < fuel - os.length ∧
    optionLoop fuel (writtenAll os tail) rule =
      optionLoop (fuel - os.length) tail
        ((List.zipWith (fun o v => (⟨o.name, v⟩ : RuleOption)) os vs).foldl Rule.push rule) := by
  induction h generalizing fuel rule with
  | nil => simpa [writtenAll] using hf
  | @cons o v os vs hov _ ih =>
    cases fuel with
    | zero => simp at hf
    | succ f =>
      simp only [writtenAll] at hf ⊢
      have hl := o.text_length (writtenAll os tail)
      obtain ⟨h1, h2⟩ := ih f (rule.push ⟨o.name, v⟩) (by omega)
      rw [optionLoop_step f o v _ rule hov, h2]
      refine ⟨?_, ?_⟩
      · simpa using h1
      · simp

theorem Written.Complete.reads_value {o : Written} (h : o.Complete) :
    ∃ v, o.value = some v ∧ o.Reads v := by
  obtain ⟨⟨hn, n4⟩, hw, v, hv, hnum⟩ := h
  refine ⟨v, hv, ⟨hn, n4, ?_⟩, fun hk => (ParseUint_isSome_iff v).mpr (hnum hk)⟩
  unfold Written.value at hv
  cases hr : o.raw with
  | none =>
    rw [hr] at hv
    simpa using hv.symm
  | some w =>
    rw [hr] at hv
    have := hw w hr
    exact ⟨ArgText_plain w this.1 this.2, hv⟩

theorem Complete_forall₂ (os : List Written) (hos : ∀ o ∈ os, o.Complete) :
    ∃ vs, List.Forall₂ Written.Reads os vs := by
  induction os with
  | nil => exact ⟨[], List.Forall₂.nil⟩
  | cons o os ih =>
    obtain ⟨vs, hvs⟩ := ih (fun x hx => hos x (List.mem_cons_of_mem _ hx))
    obtain ⟨v, _, hv⟩ := (hos o (List.mem_cons_self _ _)).reads_value
    exact ⟨v :: vs, List.Forall₂.cons hv hvs⟩

theorem Written.text_append (o : Written) (r t : Str) : o.text (r ++ t) = o.text r ++ t := by
  unfold Written.text
  cases o.raw <;> simp

theorem writtenAll_append (os : List Written) (r t : Str) :
    writtenAll os (r ++ t) = writtenAll os r ++ t := by
  induction os with
  | nil => rfl
  | cons o os ih => simp only [writtenAll, ih, Written.text_append]

theorem Written.text_last (o : Written) (r : Str) (c : Char) (h : r.getLast? = some c ∨
    (r = [] ∧ c = ';')) : (o.text r).getLast? = some c := by
  unfold Written.text
  rcases h with h | ⟨rfl, rfl⟩
  · have hne : r ≠ [] := by
      rintro rfl
      simp at h
    cases o.raw with
    | none =>
      simp only
      rw [← List.append_assoc, show ';' :: r = [';'] ++ r from rfl, ← List.append_assoc,
        List.getLast?_append_of_ne_nil _ hne]
      exact h
    | some w =>
      simp only
      rw [← List.append_assoc, show ':' :: (w ++ ';' :: r) = (':' :: (w ++ [';'])) ++ r by simp,
        ← List.append_assoc, List.getLast?_append_of_ne_nil _ hne]
      exact h
  · cases o.raw with
    | none =>
      simp only
      rw [← List.append_assoc, List.getLast?_append_of_ne_nil _ (by simp)]
      rfl
    | some w =>
      simp only
      rw [← List.append_assoc, show ':' :: (w ++ [';']) = (':' :: w) ++ [';'] by simp,
        ← List.append_assoc, List.getLast?_append_of_ne_nil _ (by simp)]
      rfl

theorem writtenAll_nil_last (os : List Written) (hne : os ≠ []) :
    (writtenAll os []).getLast? = some ';' := by
  induction os with
  | nil => exact absurd rfl hne
  | cons o os ih =>
    simp only [writtenAll]
    by_cases h : os = []
    · subst h
      exact o.text_last [] ';' (Or.inr ⟨rfl, rfl⟩)
    · exact o.text_last _ ';' (Or.inl (ih h))

theorem rdropWhile_paren_written (os : List Written) (n : Nat) :
    List.rdropWhile isSpace ('(' :: writtenAll os (spaces n)) = '(' :: writtenAll os [] := by
  have e : '(' :: writtenAll os (spaces n) = ('(' :: writtenAll os []) ++ spaces n := by
    rw [show spaces n = [] ++ spaces n from rfl, writtenAll_append]
    simp
  have h1 : List.rdropWhile isSpace (spaces n) = [] := by
    rw [List.rdropWhile_eq_nil_iff]
    intro x hx
    rw [List.eq_of_mem_replicate hx]
    decide
  rw [e, rdropWhile_append_right, if_pos h1, List.rdropWhile_eq_self_iff]
  intro hne
  have hl : ('(' :: writtenAll os []).getLast? = some (('(' :: writtenAll os []).getLast hne) :=
    List.getLast?_eq_getLast _ hne
  by_cases ho : os = []
  · subst ho
    simp [writtenAll]
    decide
  · have h2 := writtenAll_nil_last os ho
    have hne2 : writtenAll os [] ≠ [] := by
      intro h3
      rw [h3] at h2
      simp at h2
    have hl2 : ('(' :: writtenAll os []).getLast? = some ';' := by
      rw [show '(' :: writtenAll os [] = ['('] ++ writtenAll os [] from rfl,
        List.getLast?_append_of_ne_nil _ hne2, h2]
    rw [hl2] at hl
    simp only [Option.some.injEq] at hl
    rw [← hl]
    decide

theorem writtenAll_length (os : List Written) (t : Str) :
    os.length + t.length ≤ (writtenAll os t).length := by
  induction os with
  | nil => simp [writtenAll]
  | cons o os ih =>
    have := o.text_length (writtenAll os t)
    simp only [writtenAll, List.length_cons]
    omega

/-- C14, as amended: for a valid seven-field header, zero or more complete
options (each `name;` or `name:value;`, after any number of spaces, with a
name, possibly empty, free of `;` and `:` and not beginning with a space or
`)`, and a value free of `;` and `\`, not a lone double quote, and a numeral
below 2^64 when the name is `sid` or `gid`) and any number of trailing spaces,
`Parse` of the header, ` (`, the options and the spaces fails with the
incomplete-rule error. -/
theorem Parse_missing_close (vd : Str → Bool) (h : Header) (os : List Written) (n : Nat)
    (hv : h.Valid vd) (hos : ∀ o ∈ os, o.Complete) :
    ∃ r, Parse vd (h.text (' ' :: '(' :: writtenAll os (spaces n))) =
      .returned (r, some .errIncompleteRule) := by
  obtain ⟨vs, hvs⟩ := Complete_forall₂ os hos
  have hp := Parse_header_trim vd h hv 0 ('(' :: writtenAll os (spaces n)) ⟨'(', rfl, by decide⟩
  rw [rdropWhile_paren_written, parseOptions_paren] at hp
  have hlen := writtenAll_length os []
  obtain ⟨h1, h2⟩ := optionLoop_written_gen os vs hvs [] ((writtenAll os []).length + 1)
    h.rule (by omega)
  rw [h2] at hp
  have hf : (writtenAll os []).length + 1 - os.length =
      ((writtenAll os []).length - os.length) + 1 := by
    simp only [List.length_nil, Nat.add_zero] at hlen
    omega
  rw [hf] at hp
  have e : h.text (' ' :: '(' :: writtenAll os (spaces n)) =
      h.text (spaces (0 + 1) ++ '(' :: writtenAll os (spaces n)) := by simp [spaces]
  rw [e, hp]
  simp [optionLoop]

theorem Parse_missing_close_witness :
    ∃ r, Parse validateDirection
        "alert tcp any any -> any any (msg:\"x\"; nocase;sid:7;;:x;  ".toList =
      .returned (r, some .errIncompleteRule) :=
  Parse_missing_close validateDirection scenario3Header
    [⟨0, "msg".toList, some "\"x\"".toList⟩, ⟨1, "nocase".toList, none⟩,
      ⟨0, "sid".toList, some "7".toList⟩, ⟨0, [], none⟩, ⟨0, [], some "x".toList⟩] 2
    (by decide) (by decide)

/-- C14, as stated, fails for a complete option whose name is `sid` and whose
value is not a number: `alert tcp any any -> any any (sid:abc;` fails with
"failed to parse sid", not with the incomplete-rule error. -/
theorem Parse_missing_close_counterexample :
    ¬ ∃ r, Parse validateDirection "alert tcp any any -> any any (sid:abc;".toList =
      .returned (r, some .errIncompleteRule) := by
  rintro ⟨r, h⟩
  have e : errorOf (Parse validateDirection "alert tcp any any -> any any (sid:abc;".toList) =
      some (.failedToParseSid "abc".toList) := by decide
  rw [h] at e
  simp [errorOf] at e

/-! ## The errors of `parseOption` -/

theorem IndexFunc_optDelim_none (st : Bool) (s : Str) (h1 : ';' ∉ s) (h2 : ':' ∉ s) :
    IndexFunc optDelim st s = (none, st) := by
  have h := IndexFunc_skip optDelim st s [] (by
    intro c hc
    have a1 : c ≠ ';' := fun e => h1 (e ▸ hc)
    have a2 : c ≠ ':' := fun e => h2 (e ▸ hc)
    simp [optDelim, a1, a2])
  simpa [IndexFunc] using h

theorem optDelim_cases (s : Str) :
    (';' ∉ s ∧ ':' ∉ s) ∨
    (∃ n rest, s = n ++ ';' :: rest ∧ ';' ∉ n ∧ ':' ∉ n) ∨
    (∃ n rest, s = n ++ ':' :: rest ∧ ';' ∉ n ∧ ':' ∉ n) := by
  induction s with
  | nil => left; simp
  | cons c cs ih =>
    by_cases h1 : c = ';'
    · right; left
      exact ⟨[], cs, by simp [h1], by simp, by simp⟩
    · by_cases h2 : c = ':'
      · right; right
        exact ⟨[], cs, by simp [h2], by simp, by simp⟩
      · rcases ih with ⟨a, b⟩ | ⟨n, rest, e, a, b⟩ | ⟨n, rest, e, a, b⟩
        · left
          exact ⟨by simp [Ne.symm h1, a], by simp [Ne.symm h2, b]⟩
        · right; left
          exact ⟨c :: n, rest, by simp [e], by simp [Ne.symm h1, a], by simp [Ne.symm h2, b]⟩
        · right; right
          exact ⟨c :: n, rest, by simp [e], by simp [Ne.symm h1, a], by simp [Ne.symm h2, b]⟩

theorem first_delim_unique (n n2 r r2 : Str) (d d2 : Char)
    (hn : ';' ∉ n ∧ ':' ∉ n) (hn2 : ';' ∉ n2 ∧ ':' ∉ n2)
    (hd : d = ';' ∨ d = ':') (hd2 : d2 = ';' ∨ d2 = ':')
    (h : n ++ d :: r = n2 ++ d2 :: r2) : n = n2 ∧ d = d2 ∧ r = r2 := by
  have i1 : (IndexFunc optDelim false (n ++ d :: r)).1 = some n.length := by
    rcases hd with rfl | rfl
    · rw [IndexFunc_optDelim_semi false n r hn.1 hn.2]
    · rw [IndexFunc_optDelim_colon false n r hn.1 hn.2]
  have i2 : (IndexFunc optDelim false (n2 ++ d2 :: r2)).1 = some n2.length := by
    rcases hd2 with rfl | rfl
    · rw [IndexFunc_optDelim_semi false n2 r2 hn2.1 hn2.2]
    · rw [IndexFunc_optDelim_colon false n2 r2 hn2.1 hn2.2]
  rw [h, i2] at i1
  simp only [Option.some.injEq] at i1
  obtain ⟨e1, e2⟩ := List.append_inj h i1.symm
  simp only [List.cons.injEq] at e2
  exact ⟨e1, e2.1, e2.2⟩

theorem argDelim_none_iff (b : Bool) (w : Str) :
    (IndexFunc argDelim b w).1 = none ↔ hasUnescapedSemi b w = false := by
  induction w generalizing b with
  | nil => simp [IndexFunc, hasUnescapedSemi]
  | cons c cs ih =>
    cases b with
    | true =>
      simp only [IndexFunc, argDelim, if_true, hasUnescapedSemi]
      rw [← ih false]
      cases (IndexFunc argDelim false cs).1 <;> simp
    | false =>
      by_cases h1 : c = '\\'
      · simp only [IndexFunc, argDelim, Bool.false_eq_true, if_false, h1, if_true,
          hasUnescapedSemi]
        rw [← ih true]
        cases (IndexFunc argDelim true cs).1 <;> simp
      · by_cases h2 : c = ';'
        · simp [IndexFunc, argDelim, h2, hasUnescapedSemi]
        · simp only [IndexFunc, argDelim, Bool.false_eq_true, if_false, h1, h2,
            hasUnescapedSemi]
          rw [← ih false]
          cases (IndexFunc argDelim false cs).1 <;> simp

theorem parseOption_unterminated (s : Str)
    (h : UnterminatedOption (trimLeadingWhiteSpace s)) :
    parseOption s = some ([], [], trimLeadingWhiteSpace s, some .unterminatedOption) := by
  unfold parseOption
  simp only [IndexFunc_optDelim_none false _ h.1 h.2]

theorem parseOption_semi (s n rest : Str) (e : trimLeadingWhiteSpace s = n ++ ';' :: rest)
    (h1 : ';' ∉ n) (h2 : ':' ∉ n) : parseOption s = some (n, [], rest, none) := by
  unfold parseOption
  simp only [e, IndexFunc_optDelim_semi false n rest h1 h2, slice_prefix, slice_after]
  simp [trimQuotes_nil]

theorem parseOption_colon (s n rest : Str) (e : trimLeadingWhiteSpace s = n ++ ':' :: rest)
    (h1 : ';' ∉ n) (h2 : ':' ∉ n) :
    parseOption s =
      if rest.length = 0 then some (n, [], rest, some .noArgument)
      else
        match IndexFunc argDelim false rest with
        | (none, _) => some (n, [], rest, some .unterminatedOptionArgument)
        | (some argend, _) =>
          match slice rest 0 argend, slice rest (argend + 1) rest.length with
          | some arg, some rule => (trimQuotes arg).map (fun a => (n, a, rule, none))
          | _, _ => none := by
  unfold parseOption
  simp only [e, IndexFunc_optDelim_colon false n rest h1 h2, slice_prefix, slice_after]
  rfl

theorem parseOption_colon_error_iff (s n rest : Str)
    (e : trimLeadingWhiteSpace s = n ++ ':' :: rest) (h1 : ';' ∉ n) (h2 : ':' ∉ n)
    (err : ParseError) :
    (∃ o a r, parseOption s = some (o, a, r, some err)) ↔
      (rest = [] ∧ err = .noArgument) ∨
      (rest ≠ [] ∧ hasUnescapedSemi false rest = false ∧ err = .unterminatedOptionArgument) := by
  rw [parseOption_colon s n rest e h1 h2]
  by_cases hr : rest = []
  · subst hr
    simp only [List.length_nil, if_true, Option.some.injEq, Prod.mk.injEq, ne_eq,
      not_true_eq_false, false_and, or_false, true_and]
    constructor
    · rintro ⟨_, _, _, _, _, _, h⟩
      exact h.symm
    · rintro rfl
      exact ⟨_, _, _, rfl, rfl, rfl, rfl⟩
  · have hl : rest.length ≠ 0 := by simpa using hr
    rw [if_neg hl]
    rcases hi : IndexFunc argDelim false rest with ⟨i, st⟩
    have hnone := argDelim_none_iff false rest
    rw [hi] at hnone
    cases i with
    | none =>
      simp only [Option.some.injEq, Prod.mk.injEq, hr, false_and, ne_eq, not_false_eq_true,
        true_and, false_or]
      have hu : hasUnescapedSemi false rest = false := hnone.mp rfl
      constructor
      · rintro ⟨_, _, _, _, _, _, h⟩
        exact ⟨hu, h.symm⟩
      · rintro ⟨_, rfl⟩
        exact ⟨_, _, _, rfl, rfl, rfl, rfl⟩
    | some i =>
      have hu : hasUnescapedSemi false rest ≠ false := by
        intro h
        have := hnone.mpr h
        simp at this
      simp only [hr, false_and, ne_eq, not_false_eq_true, true_and, false_or, hu]
      constructor
      · rintro ⟨o, a, r, h⟩
        split at h
        · cases ht : trimQuotes _ with
          | none => rw [ht] at h; simp at h
          | some v => rw [ht] at h; simp at h
        · simp at h
      · intro h
        exact absurd h (by simp)

/-- C13: with `s'` the buffer without its leading spaces, `parseOption`
returns an error exactly in three cases, and the matching error in each: `s'`
contains neither `;` nor `:` ("unterminated option"); the first `;` or `:`
of `s'` is a `:` that is its last character ("no argument"); the first `;`
or `:` of `s'` is a `:` followed by non-empty text without an unescaped `;`
("unterminated option argument"). -/
theorem parseOption_error_iff (s : Str) (err : ParseError) :
    (∃ o a r, parseOption s = some (o, a, r, some err)) ↔
      (UnterminatedOption (trimLeadingWhiteSpace s) ∧ err = .unterminatedOption) ∨
      (NoArgument (trimLeadingWhiteSpace s) ∧ err = .noArgument) ∨
      (UnterminatedArgument (trimLeadingWhiteSpace s) ∧
        err = .unterminatedOptionArgument) := by
  rcases optDelim_cases (trimLeadingWhiteSpace s) with ⟨a, b⟩ | ⟨n, rest, e, a, b⟩ |
    ⟨n, rest, e, a, b⟩
  · rw [parseOption_unterminated s ⟨a, b⟩]
    constructor
    · rintro ⟨_, _, _, h⟩
      simp only [Option.some.injEq, Prod.mk.injEq] at h
      exact Or.inl ⟨⟨a, b⟩, h.2.2.2.symm⟩
    · rintro (⟨_, rfl⟩ | ⟨⟨n, e, _, _⟩, _⟩ | ⟨⟨n, w, e, _, _, _, _⟩, _⟩)
      · exact ⟨_, _, _, rfl⟩
      · exact absurd (e ▸ (by simp : ':' ∈ n ++ [':'])) b
      · exact absurd (e ▸ (by simp : ':' ∈ n ++ ':' :: w)) b
  · rw [parseOption_semi s n rest e a b]
    constructor
    · rintro ⟨_, _, _, h⟩
      simp at h
    · rintro (⟨⟨h1, _⟩, _⟩ | ⟨⟨n2, e2, a2, b2⟩, _⟩ | ⟨⟨n2, w, e2, a2, b2, _, _⟩, _⟩)
      · exact absurd (e ▸ (by simp : ';' ∈ n ++ ';' :: rest)) h1
      · have := first_delim_unique n n2 rest [] ';' ':' ⟨a, b⟩ ⟨a2, b2⟩ (Or.inl rfl)
          (Or.inr rfl) (e.symm.trans e2)
        exact absurd this.2.1 (by decide)
      · have := first_delim_unique n n2 rest w ';' ':' ⟨a, b⟩ ⟨a2, b2⟩ (Or.inl rfl)
          (Or.inr rfl) (e.symm.trans e2)
        exact absurd this.2.1 (by decide)
  · rw [parseOption_colon_error_iff s n rest e a b err]
    constructor
    · rintro (⟨rfl, rfl⟩ | ⟨h1, h2, rfl⟩)
      · exact Or.inr (Or.inl ⟨⟨n, e, a, b⟩, rfl⟩)
      · exact Or.inr (Or.inr ⟨⟨n, rest, e, a, b, h1, h2⟩, rfl⟩)
    · rintro (⟨⟨_, h1⟩, _⟩ | ⟨⟨n2, e2, a2, b2⟩, rfl⟩ | ⟨⟨n2, w, e2, a2, b2, h1, h2⟩, rfl⟩)
      · exact absurd (e ▸ (by simp : ':' ∈ n ++ ':' :: rest)) h1
      · have := first_delim_unique n n2 rest [] ':' ':' ⟨a, b⟩ ⟨a2, b2⟩ (Or.inr rfl)
          (Or.inr rfl) (e.symm.trans e2)
        exact Or.inl ⟨this.2.2, rfl⟩
      · have := first_delim_unique n n2 rest w ':' ':' ⟨a, b⟩ ⟨a2, b2⟩ (Or.inr rfl)
          (Or.inr rfl) (e.symm.trans e2)
        rw [← this.2.2] at h1 h2
        exact Or.inr ⟨h1, h2, rfl⟩

/-! ## Every successful extraction reads a written option -/

theorem argDelim_some_decomp (b : Bool) (s : Str) (i : Nat)
    (h : (IndexFunc argDelim b s).1 = some i) :
    ∃ w rest, s = w ++ ';' :: rest ∧ w.length = i ∧
      ∀ rest2 : Str, (IndexFunc argDelim b (w ++ ';' :: rest2)).1 = some i := by
  induction s generalizing b i with
  | nil => simp [IndexFunc] at h
  | cons c cs ih =>
    have step : ∀ b2 : Bool, argDelim b c = (false, b2) →
        (IndexFunc argDelim b (c :: cs)).1 = some i →
        ∃ w rest, c :: cs = w ++ ';' :: rest ∧ w.length = i ∧
          ∀ rest2 : Str, (IndexFunc argDelim b (w ++ ';' :: rest2)).1 = some i := by
      intro b2 hb hi
      simp only [IndexFunc, hb] at hi
      cases hj : (IndexFunc argDelim b2 cs).1 with
      | none => rw [hj] at hi; simp at hi
      | some j =>
        rw [hj] at hi
        simp only [Option.map_some', Option.some.injEq] at hi
        obtain ⟨w, rest, e, hl, hall⟩ := ih b2 j hj
        refine ⟨c :: w, rest, by simp [e], by simp [hl, hi], ?_⟩
        intro rest2
        show (IndexFunc argDelim b (c :: (w ++ ';' :: rest2))).1 = some i
        rw [IndexFunc, hb]
        simp only [hall rest2, Option.map_some', hi]
    cases b with
    | true => exact step false (by simp [argDelim]) h
    | false =>
      by_cases h1 : c = '\\'
      · exact step true (by simp [argDelim, h1]) h
      · by_cases h2 : c = ';'
        · subst h2
          simp [IndexFunc, argDelim] at h
          subst h
          exact ⟨[], cs, rfl, rfl, fun rest2 => by simp [IndexFunc, argDelim]⟩
        · exact step false (by simp [argDelim, h1, h2]) h

theorem trimLeadingWhiteSpace_head (s : Str) :
    (trimLeadingWhiteSpace s).head? ≠ some ' ' := by
  unfold trimLeadingWhiteSpace TrimLeft
  induction s with
  | nil => simp
  | cons c cs ih =>
    by_cases hc : c = ' '
    · simpa [List.dropWhile_cons, hc] using ih
    · simp [List.dropWhile_cons, hc]

theorem trimLeadingWhiteSpace_spaces_eq (s : Str) :
    ∃ k, s = spaces k ++ trimLeadingWhiteSpace s := by
  unfold trimLeadingWhiteSpace TrimLeft
  induction s with
  | nil => exact ⟨0, rfl⟩
  | cons c cs ih =>
    by_cases hc : c = ' '
    · obtain ⟨k, hk⟩ := ih
      refine ⟨k + 1, ?_⟩
      have e : List.dropWhile (fun c => decide (c ∈ [' '])) (c :: cs) =
          List.dropWhile (fun c => decide (c ∈ [' '])) cs := by
        simp [List.dropWhile_cons, hc]
      rw [e, hc]
      show ' ' :: cs = ' ' :: (spaces k ++ _)
      rw [← hk]
    · refine ⟨0, ?_⟩
      simp [List.dropWhile_cons, hc, spaces]

theorem trimLeadingWhiteSpace_idem (s : Str) :
    trimLeadingWhiteSpace (trimLeadingWhiteSpace s) = trimLeadingWhiteSpace s := by
  have h := trimLeadingWhiteSpace_spaces 0 _ (trimLeadingWhiteSpace_head s)
  simpa [spaces] using h

theorem parseOption_success_written (s o a rest : Str)
    (h : parseOption s = some (o, a, rest, none)) :
    ∃ raw : Option Str,
      trimLeadingWhiteSpace s = (⟨0, o, raw⟩ : Written).text rest ∧ OptName o ∧
      (match raw with
       | none => a = []
       | some w => ArgText w ∧ trimQuotes w = some a) := by
  have hhead := trimLeadingWhiteSpace_head s
  have hname : ∀ (n : Str) (d : Char) (r : Str), trimLeadingWhiteSpace s = n ++ d :: r →
      n.head? ≠ some ' ' := by
    intro n d r e
    rw [e] at hhead
    cases n with
    | nil => simp
    | cons c cs => simpa using hhead
  rcases optDelim_cases (trimLeadingWhiteSpace s) with ⟨a1, b1⟩ | ⟨n, r, e, a1, b1⟩ |
    ⟨n, r, e, a1, b1⟩
  · rw [parseOption_unterminated s ⟨a1, b1⟩] at h
    simp at h
  · rw [parseOption_semi s n r e a1 b1] at h
    simp only [Option.some.injEq, Prod.mk.injEq, and_true] at h
    obtain ⟨rfl, rfl, rfl⟩ := h
    exact ⟨none, by simp [Written.text, spaces, e], ⟨a1, b1, hname _ _ _ e⟩, rfl⟩
  · rw [parseOption_colon s n r e a1 b1] at h
    split at h
    · simp at h
    · rcases hi : IndexFunc argDelim false r with ⟨i, st⟩
      rw [hi] at h
      cases i with
      | none => simp at h
      | some i =>
        have hi1 : (IndexFunc argDelim false r).1 = some i := by rw [hi]
        obtain ⟨w, rest2, e2, hl, hall⟩ := argDelim_some_decomp false r i hi1
        subst hl
        simp only [e2, slice_prefix, slice_after] at h
        cases ht : trimQuotes w with
        | none => rw [ht] at h; simp at h
        | some v =>
          rw [ht] at h
          simp only [Option.map_some', Option.some.injEq, Prod.mk.injEq, and_true] at h
          obtain ⟨rfl, rfl, rfl⟩ := h
          refine ⟨some w, by simp [Written.text, spaces, e, e2], ⟨a1, b1, hname _ _ _ e⟩, ?_, ht⟩
          exact hall

theorem optionLoop_stop (fuel : Nat) (buf : Str) (rule : Rule) (hne : buf.length ≠ 0)
    (hp : HasPrefix (trimLeadingWhiteSpace buf) [')'] = true) :
    optionLoop (fuel + 1) buf rule = .returned (rule, none) := by
  rw [optionLoop]
  simp [hne, hp]

theorem HasPrefix_paren (s : Str) (h : HasPrefix s [')'] = true) : ∃ post, s = ')' :: post := by
  cases s with
  | nil => simp [HasPrefix, List.isPrefixOf] at h
  | cons c cs =>
    have : c = ')' := by
      simp [HasPrefix, List.isPrefixOf] at h
      exact h.symm
    exact ⟨cs, by rw [this]⟩

/-- A loop that ends without an error has read a sequence of written options
and stopped at a `)`; `post` is the text behind that `)`. -/
theorem optionLoop_success_written (fuel : Nat) (buf : Str) (rule r : Rule)
    (h : optionLoop fuel buf rule = .returned (r, none)) :
    ∃ (os : List Written) (vs : List Str) (k : Nat) (post : Str),
      List.Forall₂ Written.Reads os vs ∧ buf = writtenAll os (spaces k ++ ')' :: post) ∧
      r = (List.zipWith (fun o v => (⟨o.name, v⟩ : RuleOption)) os vs).foldl Rule.push rule := by
  induction fuel generalizing buf rule with
  | zero => simp [optionLoop] at h
  | succ f ih =>
    obtain ⟨k, hk⟩ := trimLeadingWhiteSpace_spaces_eq buf
    by_cases hp : HasPrefix (trimLeadingWhiteSpace buf) [')'] = true
    · have hne : buf.length ≠ 0 := by
        intro h0
        have : buf = [] := List.length_eq_zero.mp h0
        rw [this] at hp
        simp [trimLeadingWhiteSpace, TrimLeft, HasPrefix, List.isPrefixOf] at hp
      rw [optionLoop_stop f buf rule hne hp] at h
      simp only [Outcome.returned.injEq, Prod.mk.injEq, and_true] at h
      obtain ⟨post, hpost⟩ := HasPrefix_paren _ hp
      refine ⟨[], [], k, post, List.Forall₂.nil, ?_, by simp [h]⟩
      rw [hpost] at hk
      simpa [writtenAll] using hk
    · rcases optionLoop_success f buf rule r h with ⟨_, hp2⟩ | ⟨o, a, rest, hpo, hnum, hl⟩
      · exact absurd hp2 hp
      · obtain ⟨raw, e, hn, hv⟩ := parseOption_success_written _ o a rest hpo
        rw [trimLeadingWhiteSpace_idem] at e
        have hclose : o.head? ≠ some ')' := by
          intro hc
          apply hp
          rw [e]
          cases o with
          | nil => simp at hc
          | cons c cs =>
            simp only [List.head?_cons, Option.some.injEq] at hc
            subst hc
            simp [Written.text, spaces, HasPrefix, List.isPrefixOf]
        obtain ⟨os, vs, k2, post, hr, hb, hres⟩ := ih rest _ hl
        refine ⟨⟨k, o, raw⟩ :: os, a :: vs, k2, post,
          List.Forall₂.cons ⟨⟨hn, hclose, hv⟩, hnum⟩ hr, ?_, ?_⟩
        · rw [e] at hk
          rw [hk, hb]
          simp [writtenAll, Written.text, spaces]
        · simp [hres]

theorem parseOptions_success_paren (rule : Rule) (rem : Str) (r : Rule)
    (h : parseOptions rule rem = .returned (r, none)) :
    ∃ body, rem = '(' :: body ∧ optionLoop (body.length + 1) body rule = .returned (r, none) := by
  cases rem with
  | nil => simp [parseOptions_nil] at h
  | cons c body =>
    by_cases hc : c = '('
    · subst hc
      rw [parseOptions_paren] at h
      exact ⟨body, rfl, h⟩
    · simp [parseOptions_other rule c body hc] at h

theorem rdropWhile_paren_close (os : List Written) (k : Nat) (T : Str) :
    List.rdropWhile isSpace ('(' :: writtenAll os (spaces k ++ ')' :: T)) =
      '(' :: writtenAll os (spaces k ++ ')' :: List.rdropWhile isSpace T) := by
  have e : ∀ X : Str, '(' :: writtenAll os (spaces k ++ ')' :: X) =
      ('(' :: writtenAll os (spaces k)) ++ ')' :: X := by
    intro X
    rw [writtenAll_append]
    simp
  rw [e, e, rdropWhile_append_right, rdropWhile_cons_of_neg isSpace ')' T (by decide)]
  simp

theorem Parse_written_then (vd : Str → Bool) (h : Header) (hv : h.Valid vd) (g k : Nat)
    (os : List Written) (vs : List Str) (hr : List.Forall₂ Written.Reads os vs) (T : Str) :
    Parse vd (h.text (spaces (g + 1) ++ '(' :: writtenAll os (spaces k ++ ')' :: T))) =
      .returned ((List.zipWith (fun o v => (⟨o.name, v⟩ : RuleOption)) os vs).foldl
        Rule.push h.rule, none) := by
  rw [Parse_header_trim vd h hv g ('(' :: writtenAll os (spaces k ++ ')' :: T))
    ⟨'(', rfl, by decide⟩, rdropWhile_paren_close, parseOptions_paren]
  exact optionLoop_written os vs hr k _ _ h.rule (by omega)

/-! ## Termination -/

theorem parseOption_rem_suffix (s o a rem : Str) (h : parseOption s = some (o, a, rem, none)) :
    rem <:+ s ∧ rem.length < s.length := by
  obtain ⟨raw, e, _, _⟩ := parseOption_success_written s o a rem h
  have h1 : trimLeadingWhiteSpace s <:+ s := by
    unfold trimLeadingWhiteSpace TrimLeft
    exact List.dropWhile_suffix _
  have h2 : rem <:+ trimLeadingWhiteSpace s := by
    rw [e, show rem = [] ++ rem from rfl, Written.text_append]
    exact List.suffix_append _ _
  have h3 := (⟨0, o, raw⟩ : Written).text_length rem
  rw [← e] at h3
  have h4 := h1.length_le
  exact ⟨h2.trans h1, by omega⟩

theorem optionLoop_succ_eq (fuel : Nat) (buf : Str) (rule : Rule) (o a rest : Str)
    (hne : buf.length ≠ 0) (hp : HasPrefix (trimLeadingWhiteSpace buf) [')'] = false)
    (hpo : parseOption (trimLeadingWhiteSpace buf) = some (o, a, rest, none)) :
    optionLoop (fuel + 1) buf rule =
      if (o = ['s', 'i', 'd'] ∨ o = ['g', 'i', 'd']) ∧ ParseUint a = none then
        .returned ({ rule with Options := rule.Options ++ [⟨o, a⟩] },
          some (.failedToParseSid a))
      else optionLoop fuel rest (rule.push ⟨o, a⟩) := by
  rw [optionLoop]
  simp only [hne, if_false, hp, hpo, Bool.false_eq_true]
  unfold Rule.push
  by_cases h1 : o = ['m', 's', 'g']
  · subst h1
    simp
  · by_cases h2 : o = ['s', 'i', 'd']
    · subst h2
      cases hu : ParseUint a <;> simp [hu]
    · by_cases h3 : o = ['g', 'i', 'd']
      · subst h3
        cases hu : ParseUint a <;> simp [hu]
      · simp [h1, h2, h3]

theorem optionLoop_bound (fuel : Nat) (buf : Str) (rule : Rule) (hf : buf.length < fuel) :
    optionLoop fuel buf rule ≠ .outOfFuel ∧
    ∀ r e, optionLoop fuel buf rule = .returned (r, e) →
      r.Options.length ≤ rule.Options.length + buf.length := by
  induction fuel generalizing buf rule with
  | zero => simp at hf
  | succ f ih =>
    by_cases hne : buf.length = 0
    · have e : optionLoop (f + 1) buf rule = .returned (rule, some .errIncompleteRule) := by
        rw [optionLoop]
        simp [hne]
      rw [e]
      refine ⟨by simp, ?_⟩
      intro r e2 h
      simp only [Outcome.returned.injEq, Prod.mk.injEq] at h
      rw [← h.1]
      omega
    · by_cases hp : HasPrefix (trimLeadingWhiteSpace buf) [')'] = true
      · rw [optionLoop_stop f buf rule hne hp]
        refine ⟨by simp, ?_⟩
        intro r e2 h
        simp only [Outcome.returned.injEq, Prod.mk.injEq] at h
        rw [← h.1]
        omega
      · have hp2 : HasPrefix (trimLeadingWhiteSpace buf) [')'] = false := by simpa using hp
        rcases hpo : parseOption (trimLeadingWhiteSpace buf) with _ | ⟨o, a, rest, _ | err⟩
        · have e : optionLoop (f + 1) buf rule = .panicked := by
            rw [optionLoop]
            simp [hne, hp2, hpo]
          rw [e]
          simp
        · rw [optionLoop_succ_eq f buf rule o a rest hne hp2 hpo]
          obtain ⟨_, hlt⟩ := parseOption_rem_suffix _ o a rest hpo
          have hle : (trimLeadingWhiteSpace buf).length ≤ buf.length := by
            unfold trimLeadingWhiteSpace TrimLeft
            exact (List.dropWhile_suffix _).length_le
          split
          · refine ⟨by simp, ?_⟩
            intro r e2 h
            simp only [Outcome.returned.injEq, Prod.mk.injEq] at h
            rw [← h.1]
            simp
            omega
          · obtain ⟨i1, i2⟩ := ih rest (rule.push ⟨o, a⟩) (by omega)
            refine ⟨i1, ?_⟩
            intro r e2 h
            have := i2 r e2 h
            rw [(rule.push_header ⟨o, a⟩).2.2.2.2.2.2.2.2] at this
            simp at this
            omega
        · have e : optionLoop (f + 1) buf rule = .returned (rule, some err) := by
            rw [optionLoop]
            simp [hne, hp2, hpo]
          rw [e]
          refine ⟨by simp, ?_⟩
          intro r e2 h
          simp only [Outcome.returned.injEq, Prod.mk.injEq] at h
          rw [← h.1]
          omega

theorem parseOptions_total (rule : Rule) (rem : Str) : parseOptions rule rem ≠ .outOfFuel := by
  unfold parseOptions
  simp only []
  repeat' split
  all_goals first
    | exact (optionLoop_bound _ _ _ (Nat.lt_succ_self _)).1
    | simp

theorem parseFields_total (vd : Str → Bool) (rule : Rule) (buf : Str) :
    parseFields vd rule buf ≠ .outOfFuel := by
  unfold parseFields
  simp only []
  repeat' split
  all_goals first
    | exact parseOptions_total _ _
    | simp

theorem Parse_total (vd : Str → Bool) (buf : Str) : Parse vd buf ≠ .outOfFuel := by
  unfold Parse
  simp only []
  split <;> exact parseFields_total _ _ _

/-- C20: `Parse` terminates on every input.  Whenever `parseOption` returns no
error, the remainder is a proper suffix of its argument; the option loop, run
with more fuel than the length of its buffer, never runs out of fuel and adds
at most as many options as the buffer has characters; and `Parse` returns or
panics on every input, never running out of the fuel of the model. -/
theorem Parse_terminates (vd : Str → Bool) :
    (∀ s o a rem : Str, parseOption s = some (o, a, rem, none) →
      rem <:+ s ∧ rem.length < s.length) ∧
    (∀ (fuel : Nat) (buf : Str) (rule : Rule), buf.length < fuel →
      optionLoop fuel buf rule ≠ .outOfFuel ∧
      ∀ r e, optionLoop fuel buf rule = .returned (r, e) →
        r.Options.length ≤ rule.Options.length + buf.length) ∧
    (∀ buf : Str, Parse vd buf ≠ .outOfFuel) :=
  ⟨parseOption_rem_suffix, optionLoop_bound, Parse_total vd⟩

theorem Parse_terminates_witness :
    " sid:1;)".toList <:+ " msg:x; sid:1;)".toList ∧
    " sid:1;)".toList.length < " msg:x; sid:1;)".toList.length :=
  (Parse_terminates validateDirection).1 " msg:x; sid:1;)".toList "msg".toList "x".toList
    " sid:1;)".toList (by decide)

/-! ## The raw rule string -/

theorem optionLoop_raw (fuel : Nat) (buf : Str) (rule r : Rule) (e : Option ParseError)
    (h : optionLoop fuel buf rule = .returned (r, e)) : r.Raw = rule.Raw := by
  induction fuel generalizing buf rule with
  | zero => simp [optionLoop] at h
  | succ f ih =>
    rw [optionLoop] at h
    simp only [] at h
    repeat' split at h
    all_goals first
      | (simp only [Outcome.returned.injEq, Prod.mk.injEq] at h; rw [← h.1])
      | (have h2 := ih _ _ h; exact h2)
      | (simp at h)

theorem parseOptions_raw (rule : Rule) (rem : Str) (r : Rule) (e : Option ParseError)
    (h : parseOptions rule rem = .returned (r, e)) : r.Raw = rule.Raw := by
  unfold parseOptions at h
  simp only [] at h
  repeat' split at h
  all_goals first
    | (simp only [Outcome.returned.injEq, Prod.mk.injEq] at h; rw [← h.1])
    | (have h2 := optionLoop_raw _ _ _ _ _ h; exact h2)
    | (simp at h)

theorem parseFields_raw (vd : Str → Bool) (rule : Rule) (buf : Str) (r : Rule)
    (e : Option ParseError) (h : parseFields vd rule buf = .returned (r, e)) :
    r.Raw = rule.Raw := by
  unfold parseFields at h
  simp only [] at h
  repeat' split at h
  all_goals first
    | (simp only [Outcome.returned.injEq, Prod.mk.injEq] at h; rw [← h.1])
    | (have h2 := parseOptions_raw _ _ _ _ h; exact h2)
    | (simp at h)

/-- Every rule `Parse` returns has an empty `Raw` field: the parser never
assigns it. -/
theorem Parse_raw (vd : Str → Bool) (buf : Str) (r : Rule) (e : Option ParseError)
    (h : Parse vd buf = .returned (r, e)) : r.Raw = [] := by
  unfold Parse at h
  simp only [] at h
  split at h
  · exact parseFields_raw vd _ _ r e h
  · exact parseFields_raw vd _ _ r e h

/-- C19 (the code at the failing input): on
`alert tcp any any -> any 80 (msg:"test rule"; sid:1; gid:1;)` `Parse`
succeeds and the `Raw` field of the returned rule is the empty string, not the
input. -/
theorem Parse_raw_empty :
    Parse validateDirection
        "alert tcp any any -> any 80 (msg:\"test rule\"; sid:1; gid:1;)".toList =
      .returned (scenario1, none) ∧
    scenario1.Raw = [] ∧
    scenario1.Raw ≠ "alert tcp any any -> any 80 (msg:\"test rule\"; sid:1; gid:1;)".toList := by
  decide

/-! ## `ParseReader` -/

theorem ReadBytes_line (l rest : Str) (h : '\n' ∉ l) :
    ReadBytes '\n' (l ++ '\n' :: rest) = (l ++ ['\n'], none, rest) := by
  induction l with
  | nil => simp [ReadBytes]
  | cons c cs ih =>
    have hc : c ≠ '\n' := fun e => h (e ▸ List.mem_cons_self _ _)
    have ih1 := ih (fun hm => h (List.mem_cons_of_mem _ hm))
    simp [ReadBytes, hc, ih1]

theorem ReadBytes_last (l : Str) (h : '\n' ∉ l) :
    ReadBytes '\n' l = (l, some .EOF, []) := by
  induction l with
  | nil => simp [ReadBytes]
  | cons c cs ih =>
    have hc : c ≠ '\n' := fun e => h (e ▸ List.mem_cons_self _ _)
    have ih1 := ih (fun hm => h (List.mem_cons_of_mem _ hm))
    simp [ReadBytes, hc, ih1]

theorem split_newline (s : Str) :
    '\n' ∉ s ∨ ∃ l rest, s = l ++ '\n' :: rest ∧ '\n' ∉ l := by
  induction s with
  | nil => left; simp
  | cons c cs ih =>
    by_cases hc : c = '\n'
    · right
      exact ⟨[], cs, by simp [hc], by simp⟩
    · rcases ih with h | ⟨l, rest, e, h⟩
      · left
        simp [Ne.symm hc, h]
      · right
        exact ⟨c :: l, rest, by simp [e], by simp [Ne.symm hc, h]⟩

/-- What the loop does with the outcome of one step when more input follows. -/
theorem readerLoop_line (vd : Str → Bool) (fuel : Nat) (l rest : Str) (rules : List Rule)
    (buffered : Str) (h : '\n' ∉ l) :
    readerLoop vd (fuel + 1) (l ++ '\n' :: rest) rules buffered =
      match readerStep vd (l ++ ['\n']) rules buffered with
      | .panicked => .panicked
      | .outOfFuel => .outOfFuel
      | .returned (rules, buffered) => readerLoop vd fuel rest rules buffered := by
  rw [readerLoop, ReadBytes_line l rest h]
  simp only [ne_eq, not_true_eq_false, false_and, if_false]

/-- What the loop does with the outcome of the step on the last bytes. -/
theorem readerLoop_last (vd : Str → Bool) (fuel : Nat) (l : Str) (rules : List Rule)
    (buffered : Str) (h : '\n' ∉ l) :
    readerLoop vd (fuel + 1) l rules buffered =
      match readerStep vd l rules buffered with
      | .panicked => .panicked
      | .outOfFuel => .outOfFuel
      | .returned (rules, _) => .returned (rules, none) := by
  rw [readerLoop, ReadBytes_last l h]
  simp only [ne_eq, not_true_eq_false, and_false, if_false]
  cases readerStep vd l rules buffered with
  | returned a => simp
  | panicked => rfl
  | outOfFuel => rfl

theorem readerLoop_fuel (vd : Str → Bool) (f1 f2 : Nat) (s : Str) (rules : List Rule)
    (buffered : Str) (h1 : s.length < f1) (h2 : s.length < f2) :
    readerLoop vd f1 s rules buffered = readerLoop vd f2 s rules buffered := by
  induction f1 generalizing f2 s rules buffered with
  | zero => simp at h1
  | succ f1 ih =>
    cases f2 with
    | zero => simp at h2
    | succ f2 =>
      rcases split_newline s with h | ⟨l, rest, rfl, h⟩
      · rw [readerLoop_last vd f1 s rules buffered h, readerLoop_last vd f2 s rules buffered h]
      · rw [readerLoop_line vd f1 l rest rules buffered h,
          readerLoop_line vd f2 l rest rules buffered h]
        have hl : rest.length < f1 ∧ rest.length < f2 := by
          simp at h1 h2
          omega
        cases readerStep vd (l ++ ['\n']) rules buffered with
        | returned a => exact ih f2 rest a.1 a.2 hl.1 hl.2
        | panicked => rfl
        | outOfFuel => rfl

theorem TrimSpace_append_space (l w : Str) (hw : ∀ c ∈ w, isSpace c = true) :
    TrimSpace (l ++ w) = TrimSpace l := by
  unfold TrimSpace
  have hr : List.rdropWhile isSpace w = [] := by
    rw [List.rdropWhile_eq_nil_iff]
    exact hw
  rw [List.dropWhile_append]
  by_cases h : (List.dropWhile isSpace l).isEmpty = true
  · rw [if_pos h]
    have h1 : List.dropWhile isSpace l = [] := by simpa using h
    have h2 : List.dropWhile isSpace w = [] := by
      rw [List.dropWhile_eq_nil_iff]
      exact hw
    rw [h1, h2]
  · rw [if_neg h, rdropWhile_append_right, if_pos hr]

theorem TrimSpace_space_cons (y : Str) : TrimSpace (' ' :: y) = TrimSpace y := by
  have := TrimSpace_spaces_any 1 y
  simpa [spaces] using this

theorem TrimSpace_idem (x : Str) : TrimSpace (TrimSpace x) = TrimSpace x := by
  unfold TrimSpace
  have key : ∀ y : Str, List.dropWhile isSpace y = y →
      List.rdropWhile isSpace (List.dropWhile isSpace (List.rdropWhile isSpace y)) =
        List.rdropWhile isSpace y := by
    intro y hy
    have hidem : List.rdropWhile isSpace (List.rdropWhile isSpace y) =
        List.rdropWhile isSpace y := by
      have := rdropWhile_idem_append isSpace [] y
      simpa using this
    cases y with
    | nil => simp [List.rdropWhile]
    | cons a t =>
      have ha : isSpace a = false := by
        by_contra hc
        have hc2 : isSpace a = true := by simpa using hc
        have hlen := congrArg List.length hy
        simp only [List.dropWhile_cons, hc2, if_true, List.length_cons] at hlen
        have := (List.dropWhile_suffix isSpace (l := t)).length_le
        omega
      rw [rdropWhile_cons_of_neg isSpace a t ha] at hidem ⊢
      simp only [List.dropWhile_cons, ha, Bool.false_eq_true, if_false]
      exact hidem
  apply key
  induction x with
  | nil => rfl
  | cons a t ih =>
    by_cases ha : isSpace a = true
    · simpa [List.dropWhile_cons, ha] using ih
    · simp [List.dropWhile_cons, ha]

theorem readerStep_nil (vd : Str → Bool) (rules : List Rule) (buffered : Str) :
    readerStep vd [] rules buffered = .returned (rules, buffered) := by
  simp [readerStep]

theorem readerStep_continuation (vd : Str → Bool) (bytes : Str) (rules : List Rule)
    (buffered : Str) (h : HasSuffix (TrimSpace bytes) ['\\'] = true) :
    ∃ b, readerStep vd bytes rules buffered = .returned (rules, b) := by
  unfold readerStep
  split
  · simp only [h, if_true]
    have hs : (slice (TrimSpace bytes) 0 ((TrimSpace bytes).length - 1)).isSome := by
      rw [slice_isSome_iff]
      omega
    obtain ⟨cut, hcut⟩ := Option.isSome_iff_exists.mp hs
    rw [hcut]
    exact ⟨_, rfl⟩
  · exact ⟨_, rfl⟩

theorem readerLoop_nil (vd : Str → Bool) (fuel : Nat) (rules : List Rule) (buffered : Str) :
    readerLoop vd (fuel + 1) [] rules buffered = .returned (rules, none) := by
  rw [readerLoop_last vd fuel [] rules buffered (by simp), readerStep_nil]

theorem readerLoop_dangling (vd : Str → Bool) (ds : List Str) (nl : Bool)
    (hd : ∀ d ∈ ds, '\n' ∉ d ∧ HasSuffix (TrimSpace d) ['\\'] = true) (fuel : Nat)
    (rules : List Rule) (buffered : Str) (hf : (danglingText ds nl).length < fuel) :
    readerLoop vd fuel (danglingText ds nl) rules buffered = .returned (rules, none) := by
  have hnl : ∀ c ∈ ['\n'], isSpace c = true := by
    intro c hc
    rw [List.mem_singleton.mp hc]
    decide
  induction ds generalizing fuel buffered with
  | nil =>
    cases fuel with
    | zero => simp at hf
    | succ f => exact readerLoop_nil vd f rules buffered
  | cons d ds ih =>
    obtain ⟨hdn, hds⟩ := hd d (List.mem_cons_self _ _)
    cases fuel with
    | zero => simp at hf
    | succ f =>
      cases ds with
      | nil =>
        cases nl with
        | true =>
          simp only [danglingText, if_true] at hf ⊢
          have e : d ++ ['\n'] = d ++ '\n' :: [] := rfl
          rw [e, readerLoop_line vd f d [] rules buffered hdn]
          obtain ⟨b, hb⟩ := readerStep_continuation vd (d ++ ['\n']) rules buffered
            (by rw [TrimSpace_append_space d ['\n'] hnl]; exact hds)
          rw [hb]
          cases f with
          | zero => simp at hf
          | succ f2 => exact readerLoop_nil vd f2 rules b
        | false =>
          simp only [danglingText, Bool.false_eq_true, if_false] at hf ⊢
          rw [readerLoop_last vd f d rules buffered hdn]
          obtain ⟨b, hb⟩ := readerStep_continuation vd d rules buffered hds
          rw [hb]
      | cons d2 ds =>
        simp only [danglingText] at hf ⊢
        rw [readerLoop_line vd f d _ rules buffered hdn]
        obtain ⟨b, hb⟩ := readerStep_continuation vd (d ++ ['\n']) rules buffered
          (by rw [TrimSpace_append_space d ['\n'] hnl]; exact hds)
        rw [hb]
        apply ih (fun x hx => hd x (List.mem_cons_of_mem _ hx))
        simp only [List.length_append, List.length_cons] at hf
        omega

theorem readerLoop_error_nil (vd : Str → Bool) (fuel : Nat) (s : Str) (rules : List Rule)
    (buffered : Str) (rs : List Rule) (e : Option ReadError)
    (h : readerLoop vd fuel s rules buffered = .returned (rs, e)) : e = none := by
  induction fuel generalizing s rules buffered with
  | zero => simp [readerLoop] at h
  | succ f ih =>
    rcases split_newline s with hn | ⟨l, rest, rfl, hn⟩
    · rw [readerLoop_last vd f s rules buffered hn] at h
      cases hs : readerStep vd s rules buffered with
      | returned a =>
        rw [hs] at h
        simp only [Outcome.returned.injEq, Prod.mk.injEq] at h
        exact h.2.symm
      | panicked => rw [hs] at h; simp at h
      | outOfFuel => rw [hs] at h; simp at h
    · rw [readerLoop_line vd f l rest rules buffered hn] at h
      cases hs : readerStep vd (l ++ ['\n']) rules buffered with
      | returned a =>
        rw [hs] at h
        exact ih rest a.1 a.2 h
      | panicked => rw [hs] at h; simp at h
      | outOfFuel => rw [hs] at h; simp at h

theorem readerLoop_append (vd : Str → Bool) (c : Str)
    (hc : ∀ (fuel : Nat) (rules : List Rule) (buffered : Str), c.length < fuel →
      readerLoop vd fuel c rules buffered = .returned (rules, none))
    (f2 : Nat) (s : Str) (hs : s = [] ∨ s.getLast? = some '\n') (f1 : Nat)
    (rules : List Rule) (buffered : Str) (h2 : s.length < f2)
    (h1 : (s ++ c).length < f1) :
    readerLoop vd f1 (s ++ c) rules buffered = readerLoop vd f2 s rules buffered := by
  induction f2 generalizing s f1 rules buffered with
  | zero => simp at h2
  | succ f2 ih =>
    rcases split_newline s with hn | ⟨l, rest, rfl, hn⟩
    · have hnil : s = [] := by
        rcases hs with h | h
        · exact h
        · exact absurd (List.mem_of_getLast?_eq_some h) hn
      subst hnil
      rw [readerLoop_nil, List.nil_append]
      exact hc f1 rules buffered (by simpa using h1)
    · cases f1 with
      | zero => simp at h1
      | succ f1 =>
        have e : (l ++ '\n' :: rest) ++ c = l ++ '\n' :: (rest ++ c) := by simp
        rw [e, readerLoop_line vd f1 l (rest ++ c) rules buffered hn,
          readerLoop_line vd f2 l rest rules buffered hn]
        have hrest : rest = [] ∨ rest.getLast? = some '\n' := by
          by_cases hr : rest = []
          · exact Or.inl hr
          · right
            rcases hs with h | h
            · simp at h
            · rw [show l ++ '\n' :: rest = (l ++ ['\n']) ++ rest by simp,
                List.getLast?_append_of_ne_nil _ hr] at h
              exact h
        cases readerStep vd (l ++ ['\n']) rules buffered with
        | returned a =>
          apply ih rest hrest f1 a.1 a.2
          · simp at h2
            omega
          · rw [e] at h1
            simp at h1 ⊢
            omega
        | panicked => rfl
        | outOfFuel => rfl

theorem readerStep_total (vd : Str → Bool) (bytes : Str) (rules : List Rule)
    (buffered : Str) : readerStep vd bytes rules buffered ≠ .outOfFuel := by
  unfold readerStep
  simp only []
  split
  · split
    · split <;> simp
    · have ht := Parse_total vd (TrimSpace (buffered ++ [' '] ++ TrimSpace bytes))
      split <;> simp_all
  · simp

theorem readerLoop_total (vd : Str → Bool) (fuel : Nat) (s : Str) (rules : List Rule)
    (buffered : Str) (h : s.length < fuel) :
    readerLoop vd fuel s rules buffered ≠ .outOfFuel := by
  induction fuel generalizing s rules buffered with
  | zero => simp at h
  | succ f ih =>
    rcases split_newline s with hn | ⟨l, rest, rfl, hn⟩
    · rw [readerLoop_last vd f s rules buffered hn]
      have ht := readerStep_total vd s rules buffered
      cases hs : readerStep vd s rules buffered with
      | returned a => simp
      | panicked => simp
      | outOfFuel => exact absurd hs ht
    · rw [readerLoop_line vd f l rest rules buffered hn]
      have ht := readerStep_total vd (l ++ ['\n']) rules buffered
      cases hs : readerStep vd (l ++ ['\n']) rules buffered with
      | returned a =>
        apply ih rest a.1 a.2
        simp at h
        omega
      | panicked => simp
      | outOfFuel => exact absurd hs ht

theorem ParseReader_total (vd : Str → Bool) (s : Str) : ParseReader vd s ≠ .outOfFuel :=
  readerLoop_total vd _ s [] [] (Nat.lt_succ_self _)

theorem ParseReader_cases (vd : Str → Bool) (s : Str) :
    ParseReader vd s = .panicked ∨ ∃ rules, ParseReader vd s = .returned (rules, none) := by
  have ht := ParseReader_total vd s
  cases h : ParseReader vd s with
  | returned a =>
    obtain ⟨rules, e⟩ := a
    have he : e = none := by
      unfold ParseReader at h
      exact readerLoop_error_nil vd _ _ _ _ rules e h
    subst he
    exact Or.inr ⟨rules, rfl⟩
  | panicked => exact Or.inl rfl
  | outOfFuel => exact absurd h ht

/-- A dangling continuation at the end of the input, apart from panics: for a
text `s` that is empty or ends with a newline and physical lines each of which,
once trimmed, ends with `\`, `ParseReader` of `s` followed by these lines ends
exactly as `ParseReader` of `s`; unless `ParseReader` of `s` panics, both
return the same list of rules and a nil error. -/
theorem ParseReader_dangling (vd : Str → Bool) (s : Str) (ds : List Str) (nl : Bool)
    (hs : s = [] ∨ s.getLast? = some '\n')
    (hd : ∀ d ∈ ds, '\n' ∉ d ∧ HasSuffix (TrimSpace d) ['\\'] = true) :
    ParseReader vd (s ++ danglingText ds nl) = ParseReader vd s ∧
    (ParseReader vd s ≠ .panicked →
      ∃ rules, ParseReader vd s = .returned (rules, none) ∧
        ParseReader vd (s ++ danglingText ds nl) = .returned (rules, none)) := by
  have key : ParseReader vd (s ++ danglingText ds nl) = ParseReader vd s := by
    unfold ParseReader
    exact readerLoop_append vd (danglingText ds nl)
      (fun fuel rules buffered hf => readerLoop_dangling vd ds nl hd fuel rules buffered hf)
      _ s hs _ [] [] (Nat.lt_succ_self _) (Nat.lt_succ_self _)
  refine ⟨key, ?_⟩
  intro hnp
  rcases ParseReader_cases vd s with h | ⟨rules, h⟩
  · exact absurd h hnp
  · exact ⟨rules, h, by rw [key, h]⟩

theorem HasSuffix_singleton (s : Str) (c : Char) :
    HasSuffix s [c] = true ↔ s.getLast? = some c := by
  unfold HasSuffix
  rw [List.isSuffixOf_iff_suffix, List.getLast?_eq_some_iff]
  constructor
  · rintro ⟨t, ht⟩
    exact ⟨t, ht.symm⟩
  · rintro ⟨t, ht⟩
    exact ⟨t, ht.symm⟩

theorem readerStep_plain (vd : Str → Bool) (bytes : Str) (rules : List Rule)
    (hne : bytes ≠ []) (h : HasSuffix (TrimSpace bytes) ['\\'] = false) :
    readerStep vd bytes rules [] =
      match Parse vd (TrimSpace bytes) with
      | .returned (rule, none) => .returned (rules ++ [rule], [])
      | .returned (_, some _) => .returned (rules, [])
      | .panicked => .panicked
      | .outOfFuel => .outOfFuel := by
  unfold readerStep
  have hl : bytes.length > 0 := List.length_pos.mpr hne
  simp only [hl, if_true, h, Bool.false_eq_true, if_false, List.nil_append,
    List.singleton_append, TrimSpace_space_cons, TrimSpace_idem]

theorem ParseReader_two_lines (vd : Str → Bool) (k : Nat) (X Y : Str)
    (hX : ∃ c, X.head? = some c ∧ isSpace c = false) (hXn : '\n' ∉ X)
    (hY : ∃ c, Y.head? = some c ∧ isSpace c = false) (hYn : '\n' ∉ Y)
    (hYl : (Y.rdropWhile isSpace).getLast? ≠ some '\\') :
    ParseReader vd (spaces k ++ (X ++ (' ' :: '\\' :: '\n' :: Y))) =
      match Parse vd (X ++ (' ' :: ' ' :: Y.rdropWhile isSpace)) with
      | .returned (rule, none) => .returned ([rule], none)
      | .returned (_, some _) => .returned ([], none)
      | .panicked => .panicked
      | .outOfFuel => .outOfFuel := by
  have hnl : ∀ c ∈ ['\n'], isSpace c = true := by
    intro c hc
    rw [List.mem_singleton.mp hc]
    decide
  have e : spaces k ++ (X ++ (' ' :: '\\' :: '\n' :: Y)) =
      (spaces k ++ (X ++ [' ', '\\'])) ++ '\n' :: Y := by simp
  have hLn : '\n' ∉ spaces k ++ (X ++ [' ', '\\']) := by
    simp only [List.mem_append, not_or]
    refine ⟨?_, hXn, by decide⟩
    intro hm
    have := List.eq_of_mem_replicate hm
    revert this
    decide
  have hline : TrimSpace ((spaces k ++ (X ++ [' ', '\\'])) ++ ['\n']) = X ++ [' ', '\\'] := by
    rw [TrimSpace_append_space _ _ hnl, TrimSpace_spaces_any]
    apply Tight.trim
    obtain ⟨c, hc, hs⟩ := hX
    refine ⟨⟨c, ?_, hs⟩, ⟨'\\', ?_, by decide⟩⟩
    · cases X with
      | nil => simp at hc
      | cons a t => simpa using hc
    · rw [show X ++ [' ', '\\'] = (X ++ [' ']) ++ ['\\'] by simp,
        List.getLast?_append_of_ne_nil _ (by simp)]
      rfl
  have hstep1 : readerStep vd ((spaces k ++ (X ++ [' ', '\\'])) ++ ['\n']) [] [] =
      .returned ([], ' ' :: (X ++ [' '])) := by
    unfold readerStep
    rw [if_pos (by simp), hline]
    have hsuf : HasSuffix (X ++ [' ', '\\']) ['\\'] = true := by
      rw [HasSuffix_singleton, show X ++ [' ', '\\'] = (X ++ [' ']) ++ ['\\'] by simp,
        List.getLast?_append_of_ne_nil _ (by simp)]
      rfl
    simp only [hsuf, if_true]
    have hsl : slice (X ++ [' ', '\\']) 0 ((X ++ [' ', '\\']).length - 1) = some (X ++ [' ']) := by
      have := slice_prefix (X ++ [' ']) ['\\']
      simpa using this
    rw [hsl]
    simp
  have hT := tight_rdropWhile Y hY
  have hYne : Y ≠ [] := by
    obtain ⟨c, hc, _⟩ := hY
    rintro rfl
    simp at hc
  have hline2 : TrimSpace Y = Y.rdropWhile isSpace := by
    have := TrimSpace_head Y [] hY
    simpa using this
  have hstep2 : readerStep vd Y [] (' ' :: (X ++ [' '])) =
      match Parse vd (X ++ (' ' :: ' ' :: Y.rdropWhile isSpace)) with
      | .returned (rule, none) => .returned ([rule], [])
      | .returned (_, some _) => .returned ([], [])
      | .panicked => .panicked
      | .outOfFuel => .outOfFuel := by
    unfold readerStep
    have hl : Y.length > 0 := List.length_pos.mpr hYne
    have hsuf : HasSuffix (List.rdropWhile isSpace Y) ['\\'] = false := by
      rw [Bool.eq_false_iff, ne_eq, HasSuffix_singleton]
      exact hYl
    have htrim : TrimSpace (' ' :: (X ++ [' ']) ++ [' '] ++ List.rdropWhile isSpace Y) =
        X ++ (' ' :: ' ' :: List.rdropWhile isSpace Y) := by
      have e2 : ' ' :: (X ++ [' ']) ++ [' '] ++ List.rdropWhile isSpace Y =
          ' ' :: (X ++ (' ' :: ' ' :: List.rdropWhile isSpace Y)) := by simp
      rw [e2, TrimSpace_space_cons]
      apply Tight.trim
      obtain ⟨c, hc, hs⟩ := hX
      have hTne := hT.ne_nil
      obtain ⟨_, ⟨d, hd, hds⟩⟩ := hT
      refine ⟨⟨c, ?_, hs⟩, ⟨d, ?_, hds⟩⟩
      · cases X with
        | nil => simp at hc
        | cons a t => simpa using hc
      · rw [show X ++ (' ' :: ' ' :: List.rdropWhile isSpace Y) =
            (X ++ [' ', ' ']) ++ List.rdropWhile isSpace Y by simp,
          List.getLast?_append_of_ne_nil _ hTne]
        exact hd
    simp only [hl, if_true, hline2, hsuf, Bool.false_eq_true, if_false, htrim, List.nil_append]
  unfold ParseReader
  rw [e, readerLoop_line vd _ _ Y [] [] hLn, hstep1]
  simp only
  have hfuel : ∃ f, ((spaces k ++ (X ++ [' ', '\\'])) ++ '\n' :: Y).length = f + 1 :=
    ⟨(spaces k ++ (X ++ [' ', '\\'])).length + Y.length, by simp; omega⟩
  obtain ⟨f, hf⟩ := hfuel
  rw [hf, readerLoop_last vd f Y [] _ hYn, hstep2]
  cases Parse vd (X ++ (' ' :: ' ' :: List.rdropWhile isSpace Y)) with
  | returned a =>
    obtain ⟨rule, e3⟩ := a
    cases e3 <;> rfl
  | panicked => rfl
  | outOfFuel => rfl

theorem rdropWhile_append_tight (B R : Str) (hR : ∃ c, R.head? = some c ∧ isSpace c = false) :
    List.rdropWhile isSpace (B ++ R) = B ++ List.rdropWhile isSpace R := by
  rw [rdropWhile_append_right, if_neg (tight_rdropWhile R hR).ne_nil]

theorem Token.no_newline {t : Str} (ht : Token t) : '\n' ∉ t := by
  intro hm
  have := ht.2 '\n' hm
  revert this
  decide

theorem spaces_no_newline (n : Nat) : '\n' ∉ spaces n := by
  intro hm
  have := List.eq_of_mem_replicate hm
  revert this
  decide

theorem Token.head {t : Str} (ht : Token t) (rest : Str) :
    ∃ c, (t ++ rest).head? = some c ∧ isSpace c = false := by
  obtain ⟨⟨c, hc, hs⟩, _⟩ := ht.tight
  refine ⟨c, ?_, hs⟩
  cases t with
  | nil => simp at hc
  | cons a t => simpa using hc

/-! ## ParseReader line by line -/

theorem physicalLines_last (l : Str) (h : '\n' ∉ l) : physicalLines l = [l] := by
  induction l with
  | nil => rfl
  | cons c cs ih =>
    have hc : c ≠ '\n' := fun e => h (by simp [e])
    have hcs : '\n' ∉ cs := fun m => h (List.mem_cons_of_mem _ m)
    simp [physicalLines, hc, ih hcs]

theorem physicalLines_line (l rest : Str) (h : '\n' ∉ l) :
    physicalLines (l ++ '\n' :: rest) = l :: physicalLines rest := by
  induction l with
  | nil => simp [physicalLines]
  | cons c cs ih =>
    have hc : c ≠ '\n' := fun e => h (by simp [e])
    have hcs : '\n' ∉ cs := fun m => h (List.mem_cons_of_mem _ m)
    simp [physicalLines, hc, ih hcs]

theorem Parse_nil_error (vd : Str → Bool) :
    ∃ r, Parse vd [] = .returned (r, some .errIncompleteRule) :=
  ⟨_, rfl⟩

theorem readerLoop_lines (vd : Str → Bool) (fuel : Nat) (s : Str) (rules : List Rule)
    (hf : s.length < fuel)
    (hc : ∀ l ∈ physicalLines s, HasSuffix (TrimSpace l) ['\\'] = false) :
    readerLoop vd fuel s rules [] =
      match parseEach vd (physicalLines s) with
      | .returned rs => .returned (rules ++ rs, none)
      | .panicked => .panicked
      | .outOfFuel => .outOfFuel := by
  induction fuel generalizing s rules with
  | zero => simp at hf
  | succ f ih =>
    rcases split_newline s with hn | ⟨l, rest, rfl, hn⟩
    · rw [readerLoop_last vd f s rules [] hn, physicalLines_last s hn]
      rw [physicalLines_last s hn] at hc
      have hs := hc s (List.mem_singleton.mpr rfl)
      by_cases hnil : s = []
      · subst hnil
        obtain ⟨r, hp⟩ := Parse_nil_error vd
        have ht : TrimSpace ([] : Str) = [] := rfl
        simp [readerStep_nil, parseEach, ht, hp]
      · rw [readerStep_plain vd s rules hnil hs]
        simp only [parseEach]
        cases hp : Parse vd (TrimSpace s) with
        | returned a =>
          obtain ⟨rule, e⟩ := a
          cases e <;> simp
        | panicked => simp
        | outOfFuel => simp
    · rw [readerLoop_line vd f l rest rules [] hn, physicalLines_line l rest hn]
      rw [physicalLines_line l rest hn] at hc
      have hl := hc l (List.mem_cons_self _ _)
      have hrest : ∀ x ∈ physicalLines rest, HasSuffix (TrimSpace x) ['\\'] = false :=
        fun x hx => hc x (List.mem_cons_of_mem _ hx)
      have hfr : rest.length < f := by
        simp at hf
        omega
      have ht : TrimSpace (l ++ ['\n']) = TrimSpace l :=
        TrimSpace_append_space l ['\n'] (by decide)
      rw [readerStep_plain vd (l ++ ['\n']) rules (by simp) (by rw [ht]; exact hl), ht]
      simp only [parseEach]
      cases hp : Parse vd (TrimSpace l) with
      | returned a =>
        obtain ⟨rule, e⟩ := a
        cases e with
        | none =>
          simp only []
          rw [ih rest (rules ++ [rule]) hfr hrest]
          cases parseEach vd (physicalLines rest) <;> simp
        | some e =>
          simp only []
          rw [ih rest rules hfr hrest]
      | panicked => simp
      | outOfFuel => simp

/-- Without continued lines `ParseReader` is `Parse` line by line: when no
physical line, once trimmed, ends with `\`, `ParseReader` ends as the calls of
`Parse` on the trimmed lines in order do, returning the rules of the calls
without error and a nil error, and panicking when one of the calls panics;
when no call panics it returns. -/
theorem ParseReader_lines (vd : Str → Bool) (s : Str)
    (hc : ∀ l ∈ physicalLines s, HasSuffix (TrimSpace l) ['\\'] = false) :
    (ParseReader vd s =
      match parseEach vd (physicalLines s) with
      | .returned rs => .returned (rs, none)
      | .panicked => .panicked
      | .outOfFuel => .outOfFuel) ∧
    ((∀ l ∈ physicalLines s, Parse vd (TrimSpace l) ≠ .panicked) →
      ∃ rs, parseEach vd (physicalLines s) = .returned rs ∧
        ParseReader vd s = .returned (rs, none)) := by
  have key := readerLoop_lines vd (s.length + 1) s [] (Nat.lt_succ_self _) hc
  simp only [List.nil_append] at key
  refine ⟨key, ?_⟩
  intro hp
  have hr : ∀ ls : List Str, (∀ l ∈ ls, Parse vd (TrimSpace l) ≠ .panicked) →
      ∃ rs, parseEach vd ls = .returned rs := by
    intro ls
    induction ls with
    | nil => intro _; exact ⟨[], rfl⟩
    | cons l ls ih =>
      intro h
      obtain ⟨rs, hrs⟩ := ih (fun x hx => h x (List.mem_cons_of_mem _ hx))
      have h1 := h l (List.mem_cons_self _ _)
      have h2 := Parse_total vd (TrimSpace l)
      simp only [parseEach]
      cases hq : Parse vd (TrimSpace l) with
      | returned a =>
        obtain ⟨rule, e⟩ := a
        cases e with
        | none => simp [hrs]
        | some e => simp [hrs]
      | panicked => exact absurd hq h1
      | outOfFuel => exact absurd hq h2
  obtain ⟨rs, hrs⟩ := hr _ hp
  refine ⟨rs, hrs, ?_⟩
  unfold ParseReader
  rw [key, hrs]

/-- C16 (the code at the failing input): no line of the text ends with `\`,
the first line is a valid rule and the second has the one-character argument
`"`; `Parse` panics on the second line, and so does `ParseReader` on the
text, which returns neither the rule of the first line nor a nil error. -/
theorem ParseReader_lone_quote_panics :
    (∀ l ∈ physicalLines
        "alert tcp any any -> any any (msg:x;)\nalert tcp any any -> any any (msg:\";)\n".toList,
      HasSuffix (TrimSpace l) ['\\'] = false) ∧
    Parse validateDirection "alert tcp any any -> any any (msg:x;)".toList =
      .returned (garbageRule, none) ∧
    ParseReader validateDirection
        "alert tcp any any -> any any (msg:x;)\nalert tcp any any -> any any (msg:\";)\n".toList =
      .panicked := by
  decide

/-! ## White space around a text -/

theorem TrimSpace_ws_append (lw X : Str) (hl : ∀ c ∈ lw, isSpace c = true) :
    TrimSpace (lw ++ X) = TrimSpace X := by
  unfold TrimSpace
  rw [List.dropWhile_append_of_pos hl]

theorem rdropWhile_append_rtakeWhile (p : Char → Bool) (l : Str) :
    l.rdropWhile p ++ l.rtakeWhile p = l := by
  unfold List.rdropWhile List.rtakeWhile
  rw [← List.reverse_append, List.takeWhile_append_dropWhile, List.reverse_reverse]

theorem TrimSpace_decomp (s : Str) :
    ∃ lw tw, s = lw ++ (TrimSpace s ++ tw) ∧ (∀ c ∈ lw, isSpace c = true) ∧
      ∀ c ∈ tw, isSpace c = true := by
  refine ⟨s.takeWhile isSpace, (s.dropWhile isSpace).rtakeWhile isSpace, ?_, ?_, ?_⟩
  · unfold TrimSpace
    rw [rdropWhile_append_rtakeWhile, List.takeWhile_append_dropWhile]
  · intro c hc
    exact List.mem_takeWhile_imp hc
  · intro c hc
    exact List.mem_rtakeWhile_imp hc

theorem TrimSpace_tight (s : Str) (h : TrimSpace s ≠ []) : Tight (TrimSpace s) := by
  constructor
  · unfold TrimSpace at h ⊢
    have hd : s.dropWhile isSpace ≠ [] := by
      intro e
      rw [e] at h
      simp at h
    obtain ⟨t, ht⟩ := List.rdropWhile_prefix isSpace (l := s.dropWhile isSpace)
    have hnot := List.head?_dropWhile_not isSpace s
    cases hr : List.rdropWhile isSpace (s.dropWhile isSpace) with
    | nil => exact absurd hr h
    | cons a r =>
      rw [hr] at ht
      rw [← ht] at hnot
      simp only [List.cons_append, List.head?_cons] at hnot
      refine ⟨a, rfl, ?_⟩
      simpa using hnot
  · refine ⟨(TrimSpace s).getLast h, List.getLast?_eq_getLast _ h, ?_⟩
    have := List.rdropWhile_last_not isSpace (s.dropWhile isSpace) h
    simpa [TrimSpace] using this

theorem TrimSpace_eq_nil_iff (s : Str) : TrimSpace s = [] ↔ ∀ c ∈ s, isSpace c = true := by
  constructor
  · intro h
    obtain ⟨lw, tw, e, hl, ht⟩ := TrimSpace_decomp s
    rw [h] at e
    intro c hc
    rw [e] at hc
    simp only [List.nil_append, List.mem_append] at hc
    rcases hc with hc | hc
    · exact hl c hc
    · exact ht c hc
  · intro h
    unfold TrimSpace
    rw [List.dropWhile_eq_nil_iff.mpr h]
    rfl

theorem TrimSpace_rdropWhile (R : Str) : TrimSpace (R.rdropWhile isSpace) = TrimSpace R := by
  have h := TrimSpace_append_space (R.rdropWhile isSpace) (R.rtakeWhile isSpace)
    (fun c hc => List.mem_rtakeWhile_imp hc)
  rw [rdropWhile_append_rtakeWhile] at h
  exact h.symm

theorem rdropWhile_eq_nil_of_TrimSpace (R : Str) (h : TrimSpace R = []) :
    R.rdropWhile isSpace = [] :=
  List.rdropWhile_eq_nil_iff.mpr ((TrimSpace_eq_nil_iff R).mp h)

theorem rdropWhile_ne_nil_of_TrimSpace (R : Str) (h : TrimSpace R ≠ []) :
    R.rdropWhile isSpace ≠ [] := by
  intro e
  apply h
  rw [TrimSpace_eq_nil_iff]
  exact List.rdropWhile_eq_nil_iff.mp e

/-! ## `splitAt` on an arbitrary buffer -/

theorem Index_decomp (s : Str) (m : Nat) (h : Index s [' '] = some m) :
    ∃ p0 p1, s = p0 ++ ' ' :: p1 ∧ p0.length = m ∧ ' ' ∉ p0 := by
  induction s generalizing m with
  | nil => simp [Index] at h
  | cons c cs ih =>
    by_cases hc : c = ' '
    · subst hc
      have : m = 0 := by
        simp [Index, List.isPrefixOf] at h
        exact h.symm
      subst this
      exact ⟨[], cs, rfl, rfl, by simp⟩
    · have hc2 : ¬ ' ' = c := fun e => hc e.symm
      have h2 : (Index cs [' ']).map (· + 1) = some m := by
        simpa [Index, List.isPrefixOf, hc2] using h
      cases hn : Index cs [' '] with
      | none => rw [hn] at h2; simp at h2
      | some n =>
      rw [hn] at h2
      simp only [Option.map_some', Option.some.injEq] at h2
      subst h2
      obtain ⟨p0, p1, e, hl, hm⟩ := ih n hn
      refine ⟨c :: p0, p1, by rw [e]; rfl, by simp [hl], ?_⟩
      simp [hc2, hm]

theorem Index_space_mem (p0 rest : Str) (h : ' ' ∉ p0) :
    Index (p0 ++ ' ' :: rest) [' '] = some p0.length := by
  induction p0 with
  | nil => simp [Index, List.isPrefixOf]
  | cons a t ih =>
    have ha : a ≠ ' ' := fun e => h (by simp [e])
    have ih1 := ih (fun m => h (List.mem_cons_of_mem _ m))
    simp [Index, List.isPrefixOf, ha, Ne.symm ha, ih1]

theorem splitAt_decomp (buf a rem : Str) (h : splitAt buf [' '] = some (a, rem))
    (hne : rem ≠ []) :
    ∃ pre w, pre ≠ [] ∧ buf = pre ++ (rem ++ w) ∧ (∀ c ∈ w, isSpace c = true) ∧ Tight rem ∧
      ∀ X, splitAt (pre ++ X) [' '] = some (a, TrimSpace X) := by
  unfold splitAt SplitN2 at h
  rw [if_neg (by simp)] at h
  cases hi : Index buf [' '] with
  | none =>
    rw [hi] at h
    simp only [Option.some.injEq, Prod.mk.injEq] at h
    exact absurd h.2.symm hne
  | some m =>
    rw [hi] at h
    simp only [Option.some.injEq, Prod.mk.injEq, List.length_singleton] at h
    obtain ⟨ha, hr⟩ := h
    obtain ⟨p0, p1, e, hl, hm⟩ := Index_decomp buf m hi
    have hd : List.drop (m + 1) buf = p1 := by
      rw [e, ← hl, show p0 ++ ' ' :: p1 = (p0 ++ [' ']) ++ p1 by simp,
        show p0.length + 1 = (p0 ++ [' ']).length by simp, List.drop_left]
    have ht : List.take m buf = p0 := by
      rw [e, ← hl, List.take_left]
    rw [hd] at hr
    rw [ht] at ha
    obtain ⟨lw, tw, e1, hlw, htw⟩ := TrimSpace_decomp p1
    rw [hr] at e1
    refine ⟨p0 ++ ' ' :: lw, tw, by simp, ?_, htw, ?_, ?_⟩
    · rw [e]
      conv_lhs => rw [e1]
      simp
    · rw [← hr]
      exact TrimSpace_tight p1 (by rw [hr]; exact hne)
    · intro X
      unfold splitAt SplitN2
      rw [if_neg (by simp), show (p0 ++ ' ' :: lw) ++ X = p0 ++ ' ' :: (lw ++ X) by simp,
        Index_space_mem p0 _ hm]
      have hd2 : List.drop (p0.length + [' '].length) (p0 ++ ' ' :: (lw ++ X)) = lw ++ X := by
        rw [show p0 ++ ' ' :: (lw ++ X) = (p0 ++ [' ']) ++ (lw ++ X) by simp,
          show p0.length + [' '].length = (p0 ++ [' ']).length by simp, List.drop_left]
      have ht2 : List.take p0.length (p0 ++ ' ' :: (lw ++ X)) = p0 := List.take_left _ _
      simp only [hd2, ht2, ha, TrimSpace_ws_append lw X hlw]

theorem tight_append_head (P Q Z : Str) (hP : P ≠ []) (hT : Tight (P ++ Q)) :
    ∃ c, (P ++ Z).head? = some c ∧ isSpace c = false := by
  obtain ⟨⟨c, hc, hs⟩, _⟩ := hT
  cases P with
  | nil => exact absurd rfl hP
  | cons a P => exact ⟨c, by simpa using hc, hs⟩

theorem TrimSpace_mid (P X : Str) (hP : ∃ c, P.head? = some c ∧ isSpace c = false)
    (hX : TrimSpace X ≠ []) :
    TrimSpace (P ++ X) = P ++ X.rdropWhile isSpace := by
  rw [TrimSpace_head P X hP, rdropWhile_append_right,
    if_neg (rdropWhile_ne_nil_of_TrimSpace X hX)]

theorem TrimSpace_rdropWhile_ne (X : Str) (hX : TrimSpace X ≠ []) :
    TrimSpace (X.rdropWhile isSpace) ≠ [] := by
  rw [TrimSpace_rdropWhile]
  exact hX

/-- A successful `parseFields` has read seven fields off a prefix `pre` of its
buffer; the rest of the buffer, trimmed, is what `parseOptions` is given, and
the same holds when any other text stands behind `pre`. -/
theorem parseFields_tail (vd : Str → Bool) (rule0 : Rule) (buf : Str) (r : Rule)
    (h : parseFields vd rule0 buf = .returned (r, none)) :
    ∃ (pre : Str) (rule : Rule) (rem w : Str), pre ≠ [] ∧ buf = pre ++ (rem ++ w) ∧
      (∀ c ∈ w, isSpace c = true) ∧ Tight rem ∧ rule.Options = rule0.Options ∧
      parseOptions rule rem = .returned (r, none) ∧
      ∀ X, TrimSpace X ≠ [] →
        parseFields vd rule0 (pre ++ X) = parseOptions rule (TrimSpace X) := by
  unfold parseFields at h
  cases h1 : splitAt buf [' '] with
  | none => rw [h1] at h; simp at h
  | some p1 =>
  obtain ⟨a1, rem1⟩ := p1
  rw [h1] at h
  simp only [] at h
  by_cases e1 : rem1.length = 0
  · rw [if_pos e1] at h; simp at h
  rw [if_neg e1] at h
  cases h2 : splitAt rem1 [' '] with
  | none => rw [h2] at h; simp at h
  | some p2 =>
  obtain ⟨a2, rem2⟩ := p2
  rw [h2] at h
  simp only [] at h
  by_cases e2 : rem2.length = 0
  · rw [if_pos e2] at h; simp at h
  rw [if_neg e2] at h
  cases h3 : splitAt rem2 [' '] with
  | none => rw [h3] at h; simp at h
  | some p3 =>
  obtain ⟨a3, rem3⟩ := p3
  rw [h3] at h
  simp only [] at h
  by_cases e3 : rem3.length = 0
  · rw [if_pos e3] at h; simp at h
  rw [if_neg e3] at h
  cases h4 : splitAt rem3 [' '] with
  | none => rw [h4] at h; simp at h
  | some p4 =>
  obtain ⟨a4, rem4⟩ := p4
  rw [h4] at h
  simp only [] at h
  by_cases e4 : rem4.length = 0
  · rw [if_pos e4] at h; simp at h
  rw [if_neg e4] at h
  cases h5 : splitAt rem4 [' '] with
  | none => rw [h5] at h; simp at h
  | some p5 =>
  obtain ⟨a5, rem5⟩ := p5
  rw [h5] at h
  simp only [] at h
  by_cases hd : vd a5 = true
  swap
  · rw [if_pos (by simpa using hd)] at h; simp at h
  rw [if_neg (by simpa using hd)] at h
  by_cases e5 : rem5.length = 0
  · rw [if_pos e5] at h; simp at h
  rw [if_neg e5] at h
  cases h6 : splitAt rem5 [' '] with
  | none => rw [h6] at h; simp at h
  | some p6 =>
  obtain ⟨a6, rem6⟩ := p6
  rw [h6] at h
  simp only [] at h
  by_cases e6 : rem6.length = 0
  · rw [if_pos e6] at h; simp at h
  rw [if_neg e6] at h
  cases h7 : splitAt rem6 [' '] with
  | none => rw [h7] at h; simp at h
  | some p7 =>
  obtain ⟨a7, rem7⟩ := p7
  rw [h7] at h
  simp only [] at h
  by_cases e7 : rem7.length = 0
  · rw [if_pos e7] at h; simp at h
  rw [if_neg e7] at h
  obtain ⟨pre1, w1, hp1, eq1, hw1, T1, S1⟩ := splitAt_decomp _ _ _ h1
    (fun e => e1 (by rw [e]; rfl))
  obtain ⟨pre2, w2, hp2, eq2, hw2, T2, S2⟩ := splitAt_decomp _ _ _ h2
    (fun e => e2 (by rw [e]; rfl))
  obtain ⟨pre3, w3, hp3, eq3, hw3, T3, S3⟩ := splitAt_decomp _ _ _ h3
    (fun e => e3 (by rw [e]; rfl))
  obtain ⟨pre4, w4, hp4, eq4, hw4, T4, S4⟩ := splitAt_decomp _ _ _ h4
    (fun e => e4 (by rw [e]; rfl))
  obtain ⟨pre5, w5, hp5, eq5, hw5, T5, S5⟩ := splitAt_decomp _ _ _ h5
    (fun e => e5 (by rw [e]; rfl))
  obtain ⟨pre6, w6, hp6, eq6, hw6, T6, S6⟩ := splitAt_decomp _ _ _ h6
    (fun e => e6 (by rw [e]; rfl))
  obtain ⟨pre7, w7, hp7, eq7, hw7, T7, S7⟩ := splitAt_decomp _ _ _ h7
    (fun e => e7 (by rw [e]; rfl))
  subst eq1
  subst eq2
  subst eq3
  subst eq4
  subst eq5
  subst eq6
  subst eq7
  refine ⟨pre1 ++ (pre2 ++ (pre3 ++ (pre4 ++ (pre5 ++ (pre6 ++ (pre7)))))),
    ⟨rule0.Raw, rule0.Enabled, a1, a2, a3, a4, a5, a6, a7, rule0.Options, rule0.Msg, rule0.Sid,
      rule0.Gid⟩, rem7,
    w7 ++ (w6 ++ (w5 ++ (w4 ++ (w3 ++ (w2 ++ w1))))), by simp [hp1], by simp [List.append_assoc],
    ?_, T7, rfl, h, ?_⟩
  · intro c hc
    simp only [List.mem_append] at hc
    rcases hc with hc | hc | hc | hc | hc | hc | hc
    · exact hw7 c hc
    · exact hw6 c hc
    · exact hw5 c hc
    · exact hw4 c hc
    · exact hw3 c hc
    · exact hw2 c hc
    · exact hw1 c hc
  · intro X hX
    have hX2 := TrimSpace_rdropWhile_ne X hX
    have hid : List.rdropWhile isSpace (List.rdropWhile isSpace X) = List.rdropWhile isSpace X :=
      List.rdropWhile_idempotent isSpace X
    have q1 : splitAt (pre1 ++ (pre2 ++ (pre3 ++ (pre4 ++ (pre5 ++ (pre6 ++ (pre7 ++ (X)))))))) [' '] =
        some (a1, pre2 ++ (pre3 ++ (pre4 ++ (pre5 ++ (pre6 ++ (pre7 ++ (List.rdropWhile isSpace X))))))) := by
      rw [S1]
      have := TrimSpace_mid (pre2 ++ (pre3 ++ (pre4 ++ (pre5 ++ (pre6 ++ (pre7)))))) (X) (tight_append_head _ _ _ hp2 T1) hX
      simp only [List.append_assoc] at this
      rw [this]
    have q2 : splitAt (pre2 ++ (pre3 ++ (pre4 ++ (pre5 ++ (pre6 ++ (pre7 ++ (List.rdropWhile isSpace X))))))) [' '] =
        some (a2, pre3 ++ (pre4 ++ (pre5 ++ (pre6 ++ (pre7 ++ (List.rdropWhile isSpace X)))))) := by
      rw [S2]
      have := TrimSpace_mid (pre3 ++ (pre4 ++ (pre5 ++ (pre6 ++ (pre7))))) (List.rdropWhile isSpace X) (tight_append_head _ _ _ hp3 T2) hX2
      simp only [List.append_assoc, hid] at this
      rw [this]
    have q3 : splitAt (pre3 ++ (pre4 ++ (pre5 ++ (pre6 ++ (pre7 ++ (List.rdropWhile isSpace X)))))) [' '] =
        some (a3, pre4 ++ (pre5 ++ (pre6 ++ (pre7 ++ (List.rdropWhile isSpace X))))) := by
      rw [S3]
      have := TrimSpace_mid (pre4 ++ (pre5 ++ (pre6 ++ (pre7)))) (List.rdropWhile isSpace X) (tight_append_head _ _ _ hp4 T3) hX2
      simp only [List.append_assoc, hid] at this
      rw [this]
    have q4 : splitAt (pre4 ++ (pre5 ++ (pre6 ++ (pre7 ++ (List.rdropWhile isSpace X))))) [' '] =
        some (a4, pre5 ++ (pre6 ++ (pre7 ++ (List.rdropWhile isSpace X)))) := by
      rw [S4]
      have := TrimSpace_mid (pre5 ++ (pre6 ++ (pre7))) (List.rdropWhile isSpace X) (tight_append_head _ _ _ hp5 T4) hX2
      simp only [List.append_assoc, hid] at this
      rw [this]
    have q5 : splitAt (pre5 ++ (pre6 ++ (pre7 ++ (List.rdropWhile isSpace X)))) [' '] =
        some (a5, pre6 ++ (pre7 ++ (List.rdropWhile isSpace X))) := by
      rw [S5]
      have := TrimSpace_mid (pre6 ++ (pre7)) (List.rdropWhile isSpace X) (tight_append_head _ _ _ hp6 T5) hX2
      simp only [List.append_assoc, hid] at this
      rw [this]
    have q6 : splitAt (pre6 ++ (pre7 ++ (List.rdropWhile isSpace X))) [' '] =
        some (a6, pre7 ++ (List.rdropWhile isSpace X)) := by
      rw [S6]
      have := TrimSpace_mid (pre7) (List.rdropWhile isSpace X)
        (by simpa using tight_append_head pre7 _ [] hp7 T6) hX2
      simp only [List.append_assoc, hid] at this
      rw [this]
    have q7 : splitAt (pre7 ++ List.rdropWhile isSpace X) [' '] = some (a7, TrimSpace X) := by
      rw [S7, TrimSpace_rdropWhile]
    have n7 : ¬ (TrimSpace X).length = 0 := fun e => hX (List.length_eq_zero.mp e)
    unfold parseFields
    simp only [List.append_assoc, q1, q2, q3, q4, q5, q6, q7]
    simp [hp2, hp3, hp4, hp5, hp6, hp7, hd, n7]

theorem HasPrefix_hash (s : Str) : HasPrefix s ['#'] = decide (s.head? = some '#') := by
  cases s with
  | nil => simp [HasPrefix, List.isPrefixOf]
  | cons c cs =>
    by_cases hc : c = '#'
    · subst hc
      simp [HasPrefix, List.isPrefixOf]
    · have : ¬ '#' = c := fun e => hc e.symm
      simp [HasPrefix, List.isPrefixOf, hc, this]

/-- `Parse` strips a prefix `P0` of its buffer (leading spaces, and for a
disabled rule the `#` and the spaces behind it) and runs `parseFields` on the
rest `b`; it does the same on every text that begins as `b` does. -/
theorem Parse_prefix (vd : Str → Bool) (buf : Str) :
    ∃ (P0 b : Str) (rule0 : Rule), rule0.Options = [] ∧ buf = P0 ++ b ∧
      Parse vd buf = parseFields vd rule0 b ∧
      ∀ X, X.head? = b.head? → Parse vd (P0 ++ X) = parseFields vd rule0 X := by
  obtain ⟨k, hk⟩ := trimLeadingWhiteSpace_spaces_eq buf
  have hh := trimLeadingWhiteSpace_head buf
  by_cases hp : HasPrefix (trimLeadingWhiteSpace buf) ['#'] = true
  · obtain ⟨t2, ht2⟩ : ∃ t2, trimLeadingWhiteSpace buf = '#' :: t2 := by
      cases hb : trimLeadingWhiteSpace buf with
      | nil => rw [hb] at hp; simp [HasPrefix, List.isPrefixOf] at hp
      | cons c cs =>
        rw [hb, HasPrefix_hash] at hp
        simp only [List.head?_cons, Option.some.injEq, decide_eq_true_eq] at hp
        exact ⟨cs, by rw [hp]⟩
    obtain ⟨j, hj⟩ := trimLeadingWhiteSpace_spaces_eq t2
    have hh2 := trimLeadingWhiteSpace_head t2
    have key : ∀ X : Str, X.head? ≠ some ' ' →
        Parse vd (spaces k ++ ('#' :: (spaces j ++ X))) = parseFields vd {} X := by
      intro X hX
      unfold Parse
      simp only []
      rw [trimLeadingWhiteSpace_spaces k _ (by simp)]
      have h1 : HasPrefix ('#' :: (spaces j ++ X)) ['#'] = true := by
        simp [HasPrefix, List.isPrefixOf]
      have h2 : TrimPrefix ('#' :: (spaces j ++ X)) ['#'] = spaces j ++ X := by
        simp [TrimPrefix, h1]
      simp only [h1, h2, not_true_eq_false, if_false, trimLeadingWhiteSpace_spaces j X hX]
    refine ⟨spaces k ++ ('#' :: spaces j), trimLeadingWhiteSpace t2, {}, rfl, ?_, ?_, ?_⟩
    · conv_lhs => rw [hk, ht2, hj]
      simp
    · have := key (trimLeadingWhiteSpace t2) hh2
      rw [← hj, ← ht2, ← hk] at this
      exact this
    · intro X hX
      have := key X (by rw [hX]; exact hh2)
      simpa [List.append_assoc] using this
  · have hp2 : HasPrefix (trimLeadingWhiteSpace buf) ['#'] = false := by
      simpa using hp
    have key : ∀ X : Str, X.head? = (trimLeadingWhiteSpace buf).head? →
        Parse vd (spaces k ++ X) = parseFields vd { Enabled := true } X := by
      intro X hX
      unfold Parse
      simp only []
      rw [trimLeadingWhiteSpace_spaces k X (by rw [hX]; exact hh)]
      have h1 : HasPrefix X ['#'] = false := by
        rw [HasPrefix_hash, hX, ← HasPrefix_hash]
        exact hp2
      simp only [h1, Bool.false_eq_true, not_false_eq_true, if_true]
    refine ⟨spaces k, trimLeadingWhiteSpace buf, { Enabled := true }, rfl, hk, ?_, key⟩
    have := key _ rfl
    rw [← hk] at this
    exact this

theorem head?_append_left (P X Y : Str) (hP : P ≠ []) : (P ++ X).head? = (P ++ Y).head? := by
  cases P with
  | nil => exact absurd rfl hP
  | cons a P => rfl

theorem TrimSpace_paren_close (os : List Written) (k : Nat) (T : Str) :
    TrimSpace ('(' :: writtenAll os (spaces k ++ ')' :: T)) =
      '(' :: writtenAll os (spaces k ++ ')' :: List.rdropWhile isSpace T) := by
  have h := TrimSpace_head ['('] (writtenAll os (spaces k ++ ')' :: T)) ⟨'(', rfl, by decide⟩
  simp only [List.singleton_append] at h
  rw [h, rdropWhile_paren_close]

/-- Every input on which `Parse` succeeds is a prefix `pre`, `(`, a sequence of
written options that are read back as the options of the returned rule,
spaces, `)` and a text `post`; and `Parse` returns the same rule when `post`
is replaced by any text. -/
theorem Parse_success_tail (vd : Str → Bool) (buf : Str) (r : Rule)
    (h : Parse vd buf = .returned (r, none)) :
    ∃ (pre : Str) (os : List Written) (vs : List Str) (k : Nat) (post : Str),
      buf = pre ++ '(' :: writtenAll os (spaces k ++ ')' :: post) ∧
      List.Forall₂ Written.Reads os vs ∧
      r.Options = List.zipWith (fun o v => (⟨o.name, v⟩ : RuleOption)) os vs ∧
      ∀ T : Str, Parse vd (pre ++ '(' :: writtenAll os (spaces k ++ ')' :: T)) =
        .returned (r, none) := by
  obtain ⟨P0, b, rule0, h0, hb, hP, hall0⟩ := Parse_prefix vd buf
  rw [hP] at h
  obtain ⟨pre, rule, rem, w, hpre, e, hw, _, hopts, hopt, hall⟩ :=
    parseFields_tail vd rule0 b r h
  obtain ⟨body, rfl, hl⟩ := parseOptions_success_paren rule rem r hopt
  obtain ⟨os, vs, k, post, hr, hbody, hres⟩ := optionLoop_success_written _ body rule r hl
  subst hbody
  refine ⟨P0 ++ pre, os, vs, k, post ++ w, ?_, hr, ?_, ?_⟩
  · rw [hb, e]
    have e2 : writtenAll os (spaces k ++ ')' :: (post ++ w)) =
        writtenAll os (spaces k ++ ')' :: post) ++ w := by
      rw [← writtenAll_append]
      simp
    rw [e2]
    simp
  · have := (foldl_push_header (List.zipWith (fun o v => (⟨o.name, v⟩ : RuleOption)) os vs)
      rule).2.2.2.2.2.2.2.2
    rw [hres, this, hopts, h0]
    rfl
  · intro T
    have hne : TrimSpace ('(' :: writtenAll os (spaces k ++ ')' :: T)) ≠ [] := by
      rw [TrimSpace_paren_close]
      simp
    rw [List.append_assoc, hall0 _ (by rw [e]; exact head?_append_left pre _ _ hpre),
      hall _ hne, TrimSpace_paren_close, parseOptions_paren, hres]
    exact optionLoop_written os vs hr k _ _ rule (by omega)

/-! ## Headers with a disable marker -/

theorem Parse_marked (vd : Str → Bool) (h : Header) (m : Option Nat) (X : Str)
    (t1 : Token h.action) (hh : m = none → h.action.head? ≠ some '#') :
    Parse vd (h.textMarked m X) = parseFields vd { Enabled := m.isNone } (h.fields X) := by
  cases m with
  | none =>
    have := Parse_token_first vd h.action (spaces (h.g1 + 1) ++ (h.proto ++
      (spaces (h.g2 + 1) ++ (h.srcAddr ++ (spaces (h.g3 + 1) ++ (h.srcPort ++
      (spaces (h.g4 + 1) ++ (h.dir ++ (spaces (h.g5 + 1) ++ (h.dstAddr ++
      (spaces (h.g6 + 1) ++ (h.dstPort ++ X)))))))))))) h.lead t1 (hh rfl)
    simpa [Header.textMarked, marker, Header.fields] using this
  | some k =>
    have hX : (h.fields X).head? ≠ some ' ' := t1.head_ne ' ' (by decide) _
    unfold Parse Header.textMarked marker
    simp only []
    rw [show ('#' :: spaces k) ++ h.fields X = '#' :: (spaces k ++ h.fields X) by rfl,
      trimLeadingWhiteSpace_spaces h.lead _ (by simp)]
    have h1 : HasPrefix ('#' :: (spaces k ++ h.fields X)) ['#'] = true := by
      simp [HasPrefix, List.isPrefixOf]
    have h2 : TrimPrefix ('#' :: (spaces k ++ h.fields X)) ['#'] = spaces k ++ h.fields X := by
      simp [TrimPrefix, h1]
    simp only [h1, h2, not_true_eq_false, if_false, trimLeadingWhiteSpace_spaces k _ hX]
    rfl

theorem Tight.token_last {t X : Str} (ht : Token t)
    (hX : ∃ d, X.getLast? = some d ∧ isSpace d = false) : Tight (t ++ X) := by
  obtain ⟨⟨c, hc, hcs⟩, _⟩ := ht.tight
  obtain ⟨d, hd, hds⟩ := hX
  have hXne : X ≠ [] := by
    rintro rfl
    simp at hd
  constructor
  · refine ⟨c, ?_, hcs⟩
    cases t with
    | nil => simp at hc
    | cons a t => simpa using hc
  · refine ⟨d, ?_, hds⟩
    rw [List.getLast?_append_of_ne_nil _ hXne]
    exact hd

theorem rdropWhile_last (R : Str) (hR : TrimSpace R ≠ []) (B : Str) :
    ∃ d, (B ++ R.rdropWhile isSpace).getLast? = some d ∧ isSpace d = false := by
  have hne := rdropWhile_ne_nil_of_TrimSpace R hR
  refine ⟨(R.rdropWhile isSpace).getLast hne, ?_, ?_⟩
  · rw [List.getLast?_append_of_ne_nil _ hne, List.getLast?_eq_getLast _ hne]
  · have := List.rdropWhile_last_not isSpace R hne
    simpa using this

theorem parseFields_fields (vd : Str → Bool) (rule0 : Rule) (h : Header)
    (t1 : Token h.action) (t2 : Token h.proto) (t3 : Token h.srcAddr) (t4 : Token h.srcPort)
    (t5 : Token h.dir) (t6 : Token h.dstAddr) (t7 : Token h.dstPort)
    (hd : vd h.dir = true) (g : Nat) (R : Str) (hR : TrimSpace R ≠ []) :
    parseFields vd rule0 (h.fields (spaces (g + 1) ++ R)) =
      parseOptions (h.fill rule0) (TrimSpace R) := by
  have T7 : Tight (h.dstPort ++ (spaces (g + 1) ++ List.rdropWhile isSpace R)) :=
    Tight.token_last t7 (rdropWhile_last R hR _)
  have T6 := Tight.field (h.g6 + 1) t6 T7
  have T5 := Tight.field (h.g5 + 1) t5 T6
  have T4 := Tight.field (h.g4 + 1) t4 T5
  have T3 := Tight.field (h.g3 + 1) t3 T4
  have T2 := Tight.field (h.g2 + 1) t2 T3
  have q1 : splitAt (h.action ++ (spaces (h.g1 + 1) ++ (h.proto ++ (spaces (h.g2 + 1) ++ (h.srcAddr ++ (spaces (h.g3 + 1) ++ (h.srcPort ++ (spaces (h.g4 + 1) ++ (h.dir ++ (spaces (h.g5 + 1) ++ (h.dstAddr ++ (spaces (h.g6 + 1) ++ (h.dstPort ++ (spaces (g + 1) ++ R)))))))))))))) [' '] =
      some (h.action, h.proto ++ (spaces (h.g2 + 1) ++ (h.srcAddr ++ (spaces (h.g3 + 1) ++ (h.srcPort ++ (spaces (h.g4 + 1) ++ (h.dir ++ (spaces (h.g5 + 1) ++ (h.dstAddr ++ (spaces (h.g6 + 1) ++ (h.dstPort ++ (spaces (g + 1) ++ List.rdropWhile isSpace R)))))))))))) := by
    rw [splitAt_field_any _ _ _ t1]
    have := TrimSpace_mid (h.proto ++ (spaces (h.g2 + 1) ++ (h.srcAddr ++ (spaces (h.g3 + 1) ++ (h.srcPort ++ (spaces (h.g4 + 1) ++ (h.dir ++ (spaces (h.g5 + 1) ++ (h.dstAddr ++ (spaces (h.g6 + 1) ++ (h.dstPort ++ spaces (g + 1)))))))))))) R (t2.head _) hR
    simp only [List.append_assoc] at this
    rw [this]
  have q7 : splitAt (h.dstPort ++ (spaces (g + 1) ++ List.rdropWhile isSpace R)) [' '] =
      some (h.dstPort, TrimSpace R) := by
    rw [splitAt_field_any _ _ _ t7, TrimSpace_rdropWhile]
  have n7 : ¬ (TrimSpace R).length = 0 := fun e => hR (List.length_eq_zero.mp e)
  unfold parseFields Header.fields
  simp only [q1, splitAt_field _ _ _ t2 T3, splitAt_field _ _ _ t3 T4,
    splitAt_field _ _ _ t4 T5, splitAt_field _ _ _ t5 T6, splitAt_field _ _ _ t6 T7, q7, hd]
  simp [t2.1, t3.1, t4.1, t5.1, t6.1, t7.1, n7, Header.fill]

theorem parseFields_fields_end (vd : Str → Bool) (rule0 : Rule) (h : Header)
    (t1 : Token h.action) (t2 : Token h.proto) (t3 : Token h.srcAddr) (t4 : Token h.srcPort)
    (t5 : Token h.dir) (t6 : Token h.dstAddr) (t7 : Token h.dstPort)
    (hd : vd h.dir = true) :
    parseFields vd rule0 (h.fields []) =
      .returned (h.fill rule0, some .errIncompleteRule) := by
  have T7 : Tight (h.dstPort ++ []) := by simpa using t7.tight
  have T6 := Tight.field (h.g6 + 1) t6 T7
  have T5 := Tight.field (h.g5 + 1) t5 T6
  have T4 := Tight.field (h.g4 + 1) t4 T5
  have T3 := Tight.field (h.g3 + 1) t3 T4
  have T2 := Tight.field (h.g2 + 1) t2 T3
  have hS2 : splitAt (h.dstPort ++ []) [' '] = some (h.dstPort, []) := by
    rw [List.append_nil, splitAt_last _ t7]
  unfold parseFields Header.fields
  simp only [splitAt_field _ _ _ t1 T2, splitAt_field _ _ _ t2 T3, splitAt_field _ _ _ t3 T4,
    splitAt_field _ _ _ t4 T5, splitAt_field _ _ _ t5 T6, splitAt_field _ _ _ t6 T7, hS2, hd]
  simp [t2.1, t3.1, t4.1, t5.1, t6.1, t7.1, Header.fill]

theorem parseFields_fields_blank (vd : Str → Bool) (rule0 : Rule) (h : Header)
    (t1 : Token h.action) (t2 : Token h.proto) (t3 : Token h.srcAddr) (t4 : Token h.srcPort)
    (t5 : Token h.dir) (t6 : Token h.dstAddr) (t7 : Token h.dstPort)
    (hd : vd h.dir = true) (g : Nat) (R : Str) (hR : TrimSpace R = []) :
    parseFields vd rule0 (h.fields (spaces (g + 1) ++ R)) =
      .returned (h.fill rule0, some .errIncompleteRule) := by
  rw [← parseFields_fields_end vd rule0 h t1 t2 t3 t4 t5 t6 t7 hd]
  apply parseFields_congr
  unfold Header.fields
  rw [splitAt_field_any _ _ _ t1, splitAt_field_any _ _ _ t1]
  have hw : ∀ c ∈ spaces (g + 1) ++ R, isSpace c = true := by
    intro c hc
    rcases List.mem_append.mp hc with hc | hc
    · rw [List.eq_of_mem_replicate hc]
      decide
    · exact (TrimSpace_eq_nil_iff R).mp hR c hc
  have := TrimSpace_append_space (h.proto ++ (spaces (h.g2 + 1) ++ (h.srcAddr ++ (spaces (h.g3 + 1) ++ (h.srcPort ++ (spaces (h.g4 + 1) ++ (h.dir ++ (spaces (h.g5 + 1) ++ (h.dstAddr ++ (spaces (h.g6 + 1) ++ (h.dstPort ++ []))))))))))) (spaces (g + 1) ++ R) hw
  simp only [List.append_assoc, List.nil_append] at this
  rw [this]

/-! ## The claims about the text behind the header -/

/-- C12, as amended: a header of seven white-space-free tokens separated by
spaces (valid direction), either without a disable marker and with an action
that does not begin with `#`, or behind the marker `#` and any number of
spaces (which covers every first token that begins with `#` except the lone
`#`).  When nothing follows the destination port `Parse` fails with the
incomplete-rule error; when spaces and then text follow whose first character
`c` is neither white space nor `(`, `Parse` fails with the "expected (" error,
which names the first byte of `c`: `c` itself when `c` is an ASCII
character. -/
theorem Parse_after_port (vd : Str → Bool) (h : Header) (m : Option Nat)
    (hv : h.ValidMarked vd m) :
    Parse vd (h.textMarked m []) = .returned (h.ruleMarked m, some .errIncompleteRule) ∧
    ∀ (g : Nat) (c : Char) (T : Str), isSpace c = false → c ≠ '(' →
      Parse vd (h.textMarked m (spaces (g + 1) ++ c :: T)) =
        .returned (h.ruleMarked m, some (.expectedParen ((utf8 c).take 1))) ∧
      (c.toNat < 0x80 → (utf8 c).take 1 = bytes [c]) := by
  obtain ⟨t1, t2, t3, t4, t5, t6, t7, hh, hd⟩ := hv
  constructor
  · rw [Parse_marked vd h m _ t1 hh]
    exact parseFields_fields_end vd _ h t1 t2 t3 t4 t5 t6 t7 hd
  · intro g c T hc hp
    have e : TrimSpace (c :: T) = c :: List.rdropWhile isSpace T := by
      have := TrimSpace_head [c] T ⟨c, rfl, hc⟩
      simp only [List.singleton_append] at this
      rw [this, rdropWhile_cons_of_neg isSpace c T hc]
    refine ⟨?_, utf8_ascii c⟩
    rw [Parse_marked vd h m _ t1 hh,
      parseFields_fields vd _ h t1 t2 t3 t4 t5 t6 t7 hd g (c :: T) (by rw [e]; simp), e]
    exact parseOptions_other _ c _ hp

theorem Parse_after_port_witness :
    Parse validateDirection "# alert tcp any any -> any any".toList =
      .returned (scenario3Header.ruleMarked (some 1), some .errIncompleteRule) ∧
    ∀ (g : Nat) (c : Char) (T : Str), isSpace c = false → c ≠ '(' →
      Parse validateDirection (scenario3Header.textMarked (some 1) (spaces (g + 1) ++ c :: T)) =
        .returned (scenario3Header.ruleMarked (some 1),
          some (.expectedParen ((utf8 c).take 1))) ∧
      (c.toNat < 0x80 → (utf8 c).take 1 = bytes [c]) :=
  Parse_after_port validateDirection scenario3Header (some 1) (by decide)

/-- The byte named by the "expected (" error: behind
`alert tcp any any -> any any` and a space, the two-byte character `é` gives
the error with its first byte `0xc3`, and `x` gives the error with `x`. -/
theorem Parse_expectedParen_byte :
    utf8 'é' = [0xc3, 0xa9] ∧
    Parse validateDirection "alert tcp any any -> any any é".toList =
      .returned (scenario3Header.rule, some (.expectedParen [0xc3])) ∧
    Parse validateDirection "alert tcp any any -> any any x".toList =
      .returned (scenario3Header.rule, some (.expectedParen (bytes ['x']))) := by
  decide

/-- C12, as stated, fails at end of string: `alert tcp any any -> any any` is
reported as an incomplete rule, not as "expected (". -/
theorem Parse_after_port_counterexample :
    ¬ ∃ r got, Parse validateDirection "alert tcp any any -> any any".toList =
      .returned (r, some (.expectedParen got)) := by
  rintro ⟨r, got, h⟩
  have e : errorOf (Parse validateDirection "alert tcp any any -> any any".toList) =
      some .errIncompleteRule := by decide
  rw [h] at e
  simp [errorOf] at e

/-- C15, as amended: the option loop stops at the first `)` that stands where
an option would begin, and the text behind that `)` is never examined.  Every
input on which `Parse` succeeds is a prefix `pre`, `(`, a sequence of written
options that are read back, in order, as the `Options` of the returned rule,
spaces, the `)` at which the loop stops and a text `post`; and `Parse` returns
the same rule on `pre`, `(`, these options, the spaces and `)` followed by any
text `T` whatever.  In particular, for a valid header and complete options,
`Parse` accepts the rule followed by any text `T` and returns the rule it
returns without `T`. -/
theorem Parse_stops_at_close (vd : Str → Bool) :
    (∀ (buf : Str) (r : Rule), Parse vd buf = .returned (r, none) →
      ∃ (pre : Str) (os : List Written) (vs : List Str) (k : Nat) (post : Str),
        buf = pre ++ '(' :: writtenAll os (spaces k ++ ')' :: post) ∧
        List.Forall₂ Written.Reads os vs ∧
        r.Options = List.zipWith (fun o v => (⟨o.name, v⟩ : RuleOption)) os vs ∧
        ∀ T : Str, Parse vd (pre ++ '(' :: writtenAll os (spaces k ++ ')' :: T)) =
          .returned (r, none)) ∧
    (∀ (h : Header) (os : List Written) (g k : Nat) (T : Str), h.Valid vd →
      (∀ o ∈ os, o.Complete) →
      ∃ r, Parse vd (h.text (spaces (g + 1) ++ '(' :: writtenAll os (spaces k ++ [')']))) =
          .returned (r, none) ∧
        Parse vd (h.text (spaces (g + 1) ++ '(' :: writtenAll os (spaces k ++ ')' :: T))) =
          .returned (r, none)) := by
  constructor
  · exact Parse_success_tail vd
  · intro h os g k T hv hos
    obtain ⟨vs, hvs⟩ := Complete_forall₂ os hos
    exact ⟨_, Parse_written_then vd h hv g k os vs hvs [], Parse_written_then vd h hv g k os vs hvs T⟩

theorem Parse_stops_at_close_witness :
    ∃ (pre : Str) (os : List Written) (vs : List Str) (k : Nat) (post : Str),
      "alert tcp any any -> any any (msg:x;) garbage".toList =
        pre ++ '(' :: writtenAll os (spaces k ++ ')' :: post) ∧
      List.Forall₂ Written.Reads os vs ∧
      garbageRule.Options = List.zipWith (fun o v => (⟨o.name, v⟩ : RuleOption)) os vs ∧
      ∀ T : Str, Parse validateDirection
          (pre ++ '(' :: writtenAll os (spaces k ++ ')' :: T)) =
        .returned (garbageRule, none) :=
  (Parse_stops_at_close validateDirection).1
    "alert tcp any any -> any any (msg:x;) garbage".toList garbageRule (by decide)

/-- C15, as stated, fails: `alert tcp any any -> any any (msg:x;) garbage` has
further characters behind the `)` at which the loop stops, and is accepted. -/
theorem Parse_stops_at_close_counterexample :
    Parse validateDirection "alert tcp any any -> any any (msg:x;) garbage".toList =
      .returned (garbageRule, none) := by
  decide

/-! ## Continued lines -/

theorem marker_head (m : Option Nat) (t rest : Str) (ht : Token t) :
    ∃ c, (marker m ++ (t ++ rest)).head? = some c ∧ isSpace c = false := by
  cases m with
  | none => simpa [marker] using ht.head rest
  | some k => exact ⟨'#', rfl, by decide⟩

theorem marker_no_newline (m : Option Nat) : '\n' ∉ marker m := by
  cases m with
  | none => simp [marker]
  | some k =>
    intro hm
    rcases List.mem_cons.mp hm with e | hm
    · revert e
      decide
    · exact spaces_no_newline k hm

/-- C17, as amended: a rule continued over two physical lines parses as the
same rule on one line.  For a single-line rule `r` made of leading spaces, an
optional disable marker (`#` and any number of spaces), a valid seven-field
header, one or more spaces and any text `R`, on which `Parse` succeeds and
whose last character other than white space is not `\`, and for each of the
six gaps between adjacent header fields, `ParseReader` of the two-line text
in which the spaces of that gap are replaced by a space, `\` and a newline
returns exactly the list of that one rule, and no error. -/
theorem ParseReader_continued (vd : Str → Bool) (h : Header) (m : Option Nat) (i g : Nat)
    (R : Str) (r : Rule) (hv : h.ValidMarked vd m) (hi : 1 ≤ i ∧ i ≤ 6) (hRn : '\n' ∉ R)
    (hRl : (R.rdropWhile isSpace).getLast? ≠ some '\\')
    (hp : Parse vd (h.textMarked m (spaces (g + 1) ++ R)) = .returned (r, none)) :
    ParseReader vd (h.textBroken m i (spaces (g + 1) ++ R)) = .returned ([r], none) := by
  obtain ⟨t1, t2, t3, t4, t5, t6, t7, hh, hd⟩ := hv
  have hR : TrimSpace R ≠ [] := by
    intro e
    rw [Parse_marked vd h m _ t1 hh,
      parseFields_fields_blank vd _ h t1 t2 t3 t4 t5 t6 t7 hd g R e] at hp
    simp at hp
  have hpo : parseOptions (h.fill { Enabled := m.isNone }) (TrimSpace R) =
      .returned (r, none) := by
    rw [← parseFields_fields vd _ h t1 t2 t3 t4 t5 t6 t7 hd g R hR,
      ← Parse_marked vd h m _ t1 hh, hp]
  have hRne := rdropWhile_ne_nil_of_TrimSpace R hR
  have hR2 : TrimSpace (List.rdropWhile isSpace R) ≠ [] := TrimSpace_rdropWhile_ne R hR
  have n1 := t1.no_newline
  have n2 := t2.no_newline
  have n3 := t3.no_newline
  have n4 := t4.no_newline
  have n5 := t5.no_newline
  have n6 := t6.no_newline
  have n7 := t7.no_newline
  have nm := marker_no_newline m
  obtain ⟨hi1, hi2⟩ := hi
  interval_cases i
  · have eT : h.textBroken m 1 (spaces (g + 1) ++ R) = spaces h.lead ++
        ((marker m ++ (h.action)) ++ (' ' :: '\\' :: '\n' ::
        (h.proto ++ (spaces (h.g2 + 1) ++ (h.srcAddr ++ (spaces (h.g3 + 1) ++ (h.srcPort ++ (spaces (h.g4 + 1) ++ (h.dir ++ (spaces (h.g5 + 1) ++ (h.dstAddr ++ (spaces (h.g6 + 1) ++ (h.dstPort ++ (spaces (g + 1) ++ R)))))))))))))) := by
      simp [Header.textBroken, Header.gap, List.append_assoc]
    have eY : h.proto ++ (spaces (h.g2 + 1) ++ (h.srcAddr ++ (spaces (h.g3 + 1) ++ (h.srcPort ++ (spaces (h.g4 + 1) ++ (h.dir ++ (spaces (h.g5 + 1) ++ (h.dstAddr ++ (spaces (h.g6 + 1) ++ (h.dstPort ++ (spaces (g + 1) ++ R))))))))))) =
        (h.proto ++ (spaces (h.g2 + 1) ++ (h.srcAddr ++ (spaces (h.g3 + 1) ++ (h.srcPort ++ (spaces (h.g4 + 1) ++ (h.dir ++ (spaces (h.g5 + 1) ++ (h.dstAddr ++ (spaces (h.g6 + 1) ++ (h.dstPort ++ spaces (g + 1)))))))))))) ++ R := by
      simp [List.append_assoc]
    have hrY : List.rdropWhile isSpace (h.proto ++ (spaces (h.g2 + 1) ++ (h.srcAddr ++ (spaces (h.g3 + 1) ++ (h.srcPort ++ (spaces (h.g4 + 1) ++ (h.dir ++ (spaces (h.g5 + 1) ++ (h.dstAddr ++ (spaces (h.g6 + 1) ++ (h.dstPort ++ (spaces (g + 1) ++ R)))))))))))) =
        (h.proto ++ (spaces (h.g2 + 1) ++ (h.srcAddr ++ (spaces (h.g3 + 1) ++ (h.srcPort ++ (spaces (h.g4 + 1) ++ (h.dir ++ (spaces (h.g5 + 1) ++ (h.dstAddr ++ (spaces (h.g6 + 1) ++ (h.dstPort ++ spaces (g + 1)))))))))))) ++ List.rdropWhile isSpace R := by
      rw [eY, rdropWhile_append_right, if_neg hRne]
    have hX : ∃ c, (marker m ++ (h.action)).head? = some c ∧ isSpace c = false := by
      simpa using marker_head m h.action [] t1
    have hXn : '\n' ∉ marker m ++ (h.action) := by
      simp [nm, n1, n2, n3, n4, n5, n6, n7, spaces_no_newline]
    have hY : ∃ c, (h.proto ++ (spaces (h.g2 + 1) ++ (h.srcAddr ++ (spaces (h.g3 + 1) ++ (h.srcPort ++ (spaces (h.g4 + 1) ++ (h.dir ++ (spaces (h.g5 + 1) ++ (h.dstAddr ++ (spaces (h.g6 + 1) ++ (h.dstPort ++ (spaces (g + 1) ++ R)))))))))))).head? = some c ∧
        isSpace c = false := t2.head _
    have hYn : '\n' ∉ (h.proto ++ (spaces (h.g2 + 1) ++ (h.srcAddr ++ (spaces (h.g3 + 1) ++ (h.srcPort ++ (spaces (h.g4 + 1) ++ (h.dir ++ (spaces (h.g5 + 1) ++ (h.dstAddr ++ (spaces (h.g6 + 1) ++ (h.dstPort ++ (spaces (g + 1) ++ R)))))))))))) := by
      simp [n1, n2, n3, n4, n5, n6, n7, spaces_no_newline, hRn]
    have hYl : (List.rdropWhile isSpace (h.proto ++ (spaces (h.g2 + 1) ++ (h.srcAddr ++ (spaces (h.g3 + 1) ++ (h.srcPort ++ (spaces (h.g4 + 1) ++ (h.dir ++ (spaces (h.g5 + 1) ++ (h.dstAddr ++ (spaces (h.g6 + 1) ++ (h.dstPort ++ (spaces (g + 1) ++ R))))))))))))).getLast? ≠
        some '\\' := by
      rw [hrY, List.getLast?_append_of_ne_nil _ hRne]
      exact hRl
    rw [eT, ParseReader_two_lines vd h.lead _ _ hX hXn hY hYn hYl, hrY]
    have eP : (marker m ++ (h.action)) ++ (' ' :: ' ' ::
        ((h.proto ++ (spaces (h.g2 + 1) ++ (h.srcAddr ++ (spaces (h.g3 + 1) ++ (h.srcPort ++ (spaces (h.g4 + 1) ++ (h.dir ++ (spaces (h.g5 + 1) ++ (h.dstAddr ++ (spaces (h.g6 + 1) ++ (h.dstPort ++ spaces (g + 1)))))))))))) ++ List.rdropWhile isSpace R)) =
        Header.textMarked { h with lead := 0, g1 := 1 } m
          (spaces (g + 1) ++ List.rdropWhile isSpace R) := by
      simp [Header.textMarked, Header.fields, spaces, List.replicate_succ, List.append_assoc]
    have eR : Header.fill { h with lead := 0, g1 := 1 } = h.fill := rfl
    rw [eP, Parse_marked vd { h with lead := 0, g1 := 1 } m _ t1 hh,
      parseFields_fields vd _ { h with lead := 0, g1 := 1 } t1 t2 t3 t4 t5 t6 t7 hd g _ hR2,
      eR, TrimSpace_rdropWhile, hpo]
  · have eT : h.textBroken m 2 (spaces (g + 1) ++ R) = spaces h.lead ++
        ((marker m ++ (h.action ++ (spaces (h.g1 + 1) ++ (h.proto)))) ++ (' ' :: '\\' :: '\n' ::
        (h.srcAddr ++ (spaces (h.g3 + 1) ++ (h.srcPort ++ (spaces (h.g4 + 1) ++ (h.dir ++ (spaces (h.g5 + 1) ++ (h.dstAddr ++ (spaces (h.g6 + 1) ++ (h.dstPort ++ (spaces (g + 1) ++ R)))))))))))) := by
      simp [Header.textBroken, Header.gap, List.append_assoc]
    have eY : h.srcAddr ++ (spaces (h.g3 + 1) ++ (h.srcPort ++ (spaces (h.g4 + 1) ++ (h.dir ++ (spaces (h.g5 + 1) ++ (h.dstAddr ++ (spaces (h.g6 + 1) ++ (h.dstPort ++ (spaces (g + 1) ++ R))))))))) =
        (h.srcAddr ++ (spaces (h.g3 + 1) ++ (h.srcPort ++ (spaces (h.g4 + 1) ++ (h.dir ++ (spaces (h.g5 + 1) ++ (h.dstAddr ++ (spaces (h.g6 + 1) ++ (h.dstPort ++ spaces (g + 1)))))))))) ++ R := by
      simp [List.append_assoc]
    have hrY : List.rdropWhile isSpace (h.srcAddr ++ (spaces (h.g3 + 1) ++ (h.srcPort ++ (spaces (h.g4 + 1) ++ (h.dir ++ (spaces (h.g5 + 1) ++ (h.dstAddr ++ (spaces (h.g6 + 1) ++ (h.dstPort ++ (spaces (g + 1) ++ R)))))))))) =
        (h.srcAddr ++ (spaces (h.g3 + 1) ++ (h.srcPort ++ (spaces (h.g4 + 1) ++ (h.dir ++ (spaces (h.g5 + 1) ++ (h.dstAddr ++ (spaces (h.g6 + 1) ++ (h.dstPort ++ spaces (g + 1)))))))))) ++ List.rdropWhile isSpace R := by
      rw [eY, rdropWhile_append_right, if_neg hRne]
    have hX : ∃ c, (marker m ++ (h.action ++ (spaces (h.g1 + 1) ++ (h.proto)))).head? = some c ∧ isSpace c = false := by
      exact marker_head m _ _ t1
    have hXn : '\n' ∉ marker m ++ (h.action ++ (spaces (h.g1 + 1) ++ (h.proto))) := by
      simp [nm, n1, n2, n3, n4, n5, n6, n7, spaces_no_newline]
    have hY : ∃ c, (h.srcAddr ++ (spaces (h.g3 + 1) ++ (h.srcPort ++ (spaces (h.g4 + 1) ++ (h.dir ++ (spaces (h.g5 + 1) ++ (h.dstAddr ++ (spaces (h.g6 + 1) ++ (h.dstPort ++ (spaces (g + 1) ++ R)))))))))).head? = some c ∧
        isSpace c = false := t3.head _
    have hYn : '\n' ∉ (h.srcAddr ++ (spaces (h.g3 + 1) ++ (h.srcPort ++ (spaces (h.g4 + 1) ++ (h.dir ++ (spaces (h.g5 + 1) ++ (h.dstAddr ++ (spaces (h.g6 + 1) ++ (h.dstPort ++ (spaces (g + 1) ++ R)))))))))) := by
      simp [n1, n2, n3, n4, n5, n6, n7, spaces_no_newline, hRn]
    have hYl : (List.rdropWhile isSpace (h.srcAddr ++ (spaces (h.g3 + 1) ++ (h.srcPort ++ (spaces (h.g4 + 1) ++ (h.dir ++ (spaces (h.g5 + 1) ++ (h.dstAddr ++ (spaces (h.g6 + 1) ++ (h.dstPort ++ (spaces (g + 1) ++ R))))))))))).getLast? ≠
        some '\\' := by
      rw [hrY, List.getLast?_append_of_ne_nil _ hRne]
      exact hRl
    rw [eT, ParseReader_two_lines vd h.lead _ _ hX hXn hY hYn hYl, hrY]
    have eP : (marker m ++ (h.action ++ (spaces (h.g1 + 1) ++ (h.proto)))) ++ (' ' :: ' ' ::
        ((h.srcAddr ++ (spaces (h.g3 + 1) ++ (h.srcPort ++ (spaces (h.g4 + 1) ++ (h.dir ++ (spaces (h.g5 + 1) ++ (h.dstAddr ++ (spaces (h.g6 + 1) ++ (h.dstPort ++ spaces (g + 1)))))))))) ++ List.rdropWhile isSpace R)) =
        Header.textMarked { h with lead := 0, g2 := 1 } m
          (spaces (g + 1) ++ List.rdropWhile isSpace R) := by
      simp [Header.textMarked, Header.fields, spaces, List.replicate_succ, List.append_assoc]
    have eR : Header.fill { h with lead := 0, g2 := 1 } = h.fill := rfl
    rw [eP, Parse_marked vd { h with lead := 0, g2 := 1 } m _ t1 hh,
      parseFields_fields vd _ { h with lead := 0, g2 := 1 } t1 t2 t3 t4 t5 t6 t7 hd g _ hR2,
      eR, TrimSpace_rdropWhile, hpo]
  · have eT : h.textBroken m 3 (spaces (g + 1) ++ R) = spaces h.lead ++
        ((marker m ++ (h.action ++ (spaces (h.g1 + 1) ++ (h.proto ++ (spaces (h.g2 + 1) ++ (h.srcAddr)))))) ++ (' ' :: '\\' :: '\n' ::
        (h.srcPort ++ (spaces (h.g4 + 1) ++ (h.dir ++ (spaces (h.g5 + 1) ++ (h.dstAddr ++ (spaces (h.g6 + 1) ++ (h.dstPort ++ (spaces (g + 1) ++ R)))))))))) := by
      simp [Header.textBroken, Header.gap, List.append_assoc]
    have eY : h.srcPort ++ (spaces (h.g4 + 1) ++ (h.dir ++ (spaces (h.g5 + 1) ++ (h.dstAddr ++ (spaces (h.g6 + 1) ++ (h.dstPort ++ (spaces (g + 1) ++ R))))))) =
        (h.srcPort ++ (spaces (h.g4 + 1) ++ (h.dir ++ (spaces (h.g5 + 1) ++ (h.dstAddr ++ (spaces (h.g6 + 1) ++ (h.dstPort ++ spaces (g + 1)))))))) ++ R := by
      simp [List.append_assoc]
    have hrY : List.rdropWhile isSpace (h.srcPort ++ (spaces (h.g4 + 1) ++ (h.dir ++ (spaces (h.g5 + 1) ++ (h.dstAddr ++ (spaces (h.g6 + 1) ++ (h.dstPort ++ (spaces (g + 1) ++ R)))))))) =
        (h.srcPort ++ (spaces (h.g4 + 1) ++ (h.dir ++ (spaces (h.g5 + 1) ++ (h.dstAddr ++ (spaces (h.g6 + 1) ++ (h.dstPort ++ spaces (g + 1)))))))) ++ List.rdropWhile isSpace R := by
      rw [eY, rdropWhile_append_right, if_neg hRne]
    have hX : ∃ c, (marker m ++ (h.action ++ (spaces (h.g1 + 1) ++ (h.proto ++ (spaces (h.g2 + 1) ++ (h.srcAddr)))))).head? = some c ∧ isSpace c = false := by
      exact marker_head m _ _ t1
    have hXn : '\n' ∉ marker m ++ (h.action ++ (spaces (h.g1 + 1) ++ (h.proto ++ (spaces (h.g2 + 1) ++ (h.srcAddr))))) := by
      simp [nm, n1, n2, n3, n4, n5, n6, n7, spaces_no_newline]
    have hY : ∃ c, (h.srcPort ++ (spaces (h.g4 + 1) ++ (h.dir ++ (spaces (h.g5 + 1) ++ (h.dstAddr ++ (spaces (h.g6 + 1) ++ (h.dstPort ++ (spaces (g + 1) ++ R)))))))).head? = some c ∧
        isSpace c = false := t4.head _
    have hYn : '\n' ∉ (h.srcPort ++ (spaces (h.g4 + 1) ++ (h.dir ++ (spaces (h.g5 + 1) ++ (h.dstAddr ++ (spaces (h.g6 + 1) ++ (h.dstPort ++ (spaces (g + 1) ++ R)))))))) := by
      simp [n1, n2, n3, n4, n5, n6, n7, spaces_no_newline, hRn]
    have hYl : (List.rdropWhile isSpace (h.srcPort ++ (spaces (h.g4 + 1) ++ (h.dir ++ (spaces (h.g5 + 1) ++ (h.dstAddr ++ (spaces (h.g6 + 1) ++ (h.dstPort ++ (spaces (g + 1) ++ R))))))))).getLast? ≠
        some '\\' := by
      rw [hrY, List.getLast?_append_of_ne_nil _ hRne]
      exact hRl
    rw [eT, ParseReader_two_lines vd h.lead _ _ hX hXn hY hYn hYl, hrY]
    have eP : (marker m ++ (h.action ++ (spaces (h.g1 + 1) ++ (h.proto ++ (spaces (h.g2 + 1) ++ (h.srcAddr)))))) ++ (' ' :: ' ' ::
        ((h.srcPort ++ (spaces (h.g4 + 1) ++ (h.dir ++ (spaces (h.g5 + 1) ++ (h.dstAddr ++ (spaces (h.g6 + 1) ++ (h.dstPort ++ spaces (g + 1)))))))) ++ List.rdropWhile isSpace R)) =
        Header.textMarked { h with lead := 0, g3 := 1 } m
          (spaces (g + 1) ++ List.rdropWhile isSpace R) := by
      simp [Header.textMarked, Header.fields, spaces, List.replicate_succ, List.append_assoc]
    have eR : Header.fill { h with lead := 0, g3 := 1 } = h.fill := rfl
    rw [eP, Parse_marked vd { h with lead := 0, g3 := 1 } m _ t1 hh,
      parseFields_fields vd _ { h with lead := 0, g3 := 1 } t1 t2 t3 t4 t5 t6 t7 hd g _ hR2,
      eR, TrimSpace_rdropWhile, hpo]
  · have eT : h.textBroken m 4 (spaces (g + 1) ++ R) = spaces h.lead ++
        ((marker m ++ (h.action ++ (spaces (h.g1 + 1) ++ (h.proto ++ (spaces (h.g2 + 1) ++ (h.srcAddr ++ (spaces (h.g3 + 1) ++ (h.srcPort)))))))) ++ (' ' :: '\\' :: '\n' ::
        (h.dir ++ (spaces (h.g5 + 1) ++ (h.dstAddr ++ (spaces (h.g6 + 1) ++ (h.dstPort ++ (spaces (g + 1) ++ R)))))))) := by
      simp [Header.textBroken, Header.gap, List.append_assoc]
    have eY : h.dir ++ (spaces (h.g5 + 1) ++ (h.dstAddr ++ (spaces (h.g6 + 1) ++ (h.dstPort ++ (spaces (g + 1) ++ R))))) =
        (h.dir ++ (spaces (h.g5 + 1) ++ (h.dstAddr ++ (spaces (h.g6 + 1) ++ (h.dstPort ++ spaces (g + 1)))))) ++ R := by
      simp [List.append_assoc]
    have hrY : List.rdropWhile isSpace (h.dir ++ (spaces (h.g5 + 1) ++ (h.dstAddr ++ (spaces (h.g6 + 1) ++ (h.dstPort ++ (spaces (g + 1) ++ R)))))) =
        (h.dir ++ (spaces (h.g5 + 1) ++ (h.dstAddr ++ (spaces (h.g6 + 1) ++ (h.dstPort ++ spaces (g + 1)))))) ++ List.rdropWhile isSpace R := by
      rw [eY, rdropWhile_append_right, if_neg hRne]
    have hX : ∃ c, (marker m ++ (h.action ++ (spaces (h.g1 + 1) ++ (h.proto ++ (spaces (h.g2 + 1) ++ (h.srcAddr ++ (spaces (h.g3 + 1) ++ (h.srcPort)))))))).head? = some c ∧ isSpace c = false := by
      exact marker_head m _ _ t1
    have hXn : '\n' ∉ marker m ++ (h.action ++ (spaces (h.g1 + 1) ++ (h.proto ++ (spaces (h.g2 + 1) ++ (h.srcAddr ++ (spaces (h.g3 + 1) ++ (h.srcPort))))))) := by
      simp [nm, n1, n2, n3, n4, n5, n6, n7, spaces_no_newline]
    have hY : ∃ c, (h.dir ++ (spaces (h.g5 + 1) ++ (h.dstAddr ++ (spaces (h.g6 + 1) ++ (h.dstPort ++ (spaces (g + 1) ++ R)))))).head? = some c ∧
        isSpace c = false := t5.head _
    have hYn : '\n' ∉ (h.dir ++ (spaces (h.g5 + 1) ++ (h.dstAddr ++ (spaces (h.g6 + 1) ++ (h.dstPort ++ (spaces (g + 1) ++ R)))))) := by
      simp [n1, n2, n3, n4, n5, n6, n7, spaces_no_newline, hRn]
    have hYl : (List.rdropWhile isSpace (h.dir ++ (spaces (h.g5 + 1) ++ (h.dstAddr ++ (spaces (h.g6 + 1) ++ (h.dstPort ++ (spaces (g + 1) ++ R))))))).getLast? ≠
        some '\\' := by
      rw [hrY, List.getLast?_append_of_ne_nil _ hRne]
      exact hRl
    rw [eT, ParseReader_two_lines vd h.lead _ _ hX hXn hY hYn hYl, hrY]
    have eP : (marker m ++ (h.action ++ (spaces (h.g1 + 1) ++ (h.proto ++ (spaces (h.g2 + 1) ++ (h.srcAddr ++ (spaces (h.g3 + 1) ++ (h.srcPort)))))))) ++ (' ' :: ' ' ::
        ((h.dir ++ (spaces (h.g5 + 1) ++ (h.dstAddr ++ (spaces (h.g6 + 1) ++ (h.dstPort ++ spaces (g + 1)))))) ++ List.rdropWhile isSpace R)) =
        Header.textMarked { h with lead := 0, g4 := 1 } m
          (spaces (g + 1) ++ List.rdropWhile isSpace R) := by
      simp [Header.textMarked, Header.fields, spaces, List.replicate_succ, List.append_assoc]
    have eR : Header.fill { h with lead := 0, g4 := 1 } = h.fill := rfl
    rw [eP, Parse_marked vd { h with lead := 0, g4 := 1 } m _ t1 hh,
      parseFields_fields vd _ { h with lead := 0, g4 := 1 } t1 t2 t3 t4 t5 t6 t7 hd g _ hR2,
      eR, TrimSpace_rdropWhile, hpo]
  · have eT : h.textBroken m 5 (spaces (g + 1) ++ R) = spaces h.lead ++
        ((marker m ++ (h.action ++ (spaces (h.g1 + 1) ++ (h.proto ++ (spaces (h.g2 + 1) ++ (h.srcAddr ++ (spaces (h.g3 + 1) ++ (h.srcPort ++ (spaces (h.g4 + 1) ++ (h.dir)))))))))) ++ (' ' :: '\\' :: '\n' ::
        (h.dstAddr ++ (spaces (h.g6 + 1) ++ (h.dstPort ++ (spaces (g + 1) ++ R)))))) := by
      simp [Header.textBroken, Header.gap, List.append_assoc]
    have eY : h.dstAddr ++ (spaces (h.g6 + 1) ++ (h.dstPort ++ (spaces (g + 1) ++ R))) =
        (h.dstAddr ++ (spaces (h.g6 + 1) ++ (h.dstPort ++ spaces (g + 1)))) ++ R := by
      simp [List.append_assoc]
    have hrY : List.rdropWhile isSpace (h.dstAddr ++ (spaces (h.g6 + 1) ++ (h.dstPort ++ (spaces (g + 1) ++ R)))) =
        (h.dstAddr ++ (spaces (h.g6 + 1) ++ (h.dstPort ++ spaces (g + 1)))) ++ List.rdropWhile isSpace R := by
      rw [eY, rdropWhile_append_right, if_neg hRne]
    have hX : ∃ c, (marker m ++ (h.action ++ (spaces (h.g1 + 1) ++ (h.proto ++ (spaces (h.g2 + 1) ++ (h.srcAddr ++ (spaces (h.g3 + 1) ++ (h.srcPort ++ (spaces (h.g4 + 1) ++ (h.dir)))))))))).head? = some c ∧ isSpace c = false := by
      exact marker_head m _ _ t1
    have hXn : '\n' ∉ marker m ++ (h.action ++ (spaces (h.g1 + 1) ++ (h.proto ++ (spaces (h.g2 + 1) ++ (h.srcAddr ++ (spaces (h.g3 + 1) ++ (h.srcPort ++ (spaces (h.g4 + 1) ++ (h.dir))))))))) := by
      simp [nm, n1, n2, n3, n4, n5, n6, n7, spaces_no_newline]
    have hY : ∃ c, (h.dstAddr ++ (spaces (h.g6 + 1) ++ (h.dstPort ++ (spaces (g + 1) ++ R)))).head? = some c ∧
        isSpace c = false := t6.head _
    have hYn : '\n' ∉ (h.dstAddr ++ (spaces (h.g6 + 1) ++ (h.dstPort ++ (spaces (g + 1) ++ R)))) := by
      simp [n1, n2, n3, n4, n5, n6, n7, spaces_no_newline, hRn]
    have hYl : (List.rdropWhile isSpace (h.dstAddr ++ (spaces (h.g6 + 1) ++ (h.dstPort ++ (spaces (g + 1) ++ R))))).getLast? ≠
        some '\\' := by
      rw [hrY, List.getLast?_append_of_ne_nil _ hRne]
      exact hRl
    rw [eT, ParseReader_two_lines vd h.lead _ _ hX hXn hY hYn hYl, hrY]
    have eP : (marker m ++ (h.action ++ (spaces (h.g1 + 1) ++ (h.proto ++ (spaces (h.g2 + 1) ++ (h.srcAddr ++ (spaces (h.g3 + 1) ++ (h.srcPort ++ (spaces (h.g4 + 1) ++ (h.dir)))))))))) ++ (' ' :: ' ' ::
        ((h.dstAddr ++ (spaces (h.g6 + 1) ++ (h.dstPort ++ spaces (g + 1)))) ++ List.rdropWhile isSpace R)) =
        Header.textMarked { h with lead := 0, g5 := 1 } m
          (spaces (g + 1) ++ List.rdropWhile isSpace R) := by
      simp [Header.textMarked, Header.fields, spaces, List.replicate_succ, List.append_assoc]
    have eR : Header.fill { h with lead := 0, g5 := 1 } = h.fill := rfl
    rw [eP, Parse_marked vd { h with lead := 0, g5 := 1 } m _ t1 hh,
      parseFields_fields vd _ { h with lead := 0, g5 := 1 } t1 t2 t3 t4 t5 t6 t7 hd g _ hR2,
      eR, TrimSpace_rdropWhile, hpo]
  · have eT : h.textBroken m 6 (spaces (g + 1) ++ R) = spaces h.lead ++
        ((marker m ++ (h.action ++ (spaces (h.g1 + 1) ++ (h.proto ++ (spaces (h.g2 + 1) ++ (h.srcAddr ++ (spaces (h.g3 + 1) ++ (h.srcPort ++ (spaces (h.g4 + 1) ++ (h.dir ++ (spaces (h.g5 + 1) ++ (h.dstAddr)))))))))))) ++ (' ' :: '\\' :: '\n' ::
        (h.dstPort ++ (spaces (g + 1) ++ R)))) := by
      simp [Header.textBroken, Header.gap, List.append_assoc]
    have eY : h.dstPort ++ (spaces (g + 1) ++ R) =
        (h.dstPort ++ spaces (g + 1)) ++ R := by
      simp [List.append_assoc]
    have hrY : List.rdropWhile isSpace (h.dstPort ++ (spaces (g + 1) ++ R)) =
        (h.dstPort ++ spaces (g + 1)) ++ List.rdropWhile isSpace R := by
      rw [eY, rdropWhile_append_right, if_neg hRne]
    have hX : ∃ c, (marker m ++ (h.action ++ (spaces (h.g1 + 1) ++ (h.proto ++ (spaces (h.g2 + 1) ++ (h.srcAddr ++ (spaces (h.g3 + 1) ++ (h.srcPort ++ (spaces (h.g4 + 1) ++ (h.dir ++ (spaces (h.g5 + 1) ++ (h.dstAddr)))))))))))).head? = some c ∧ isSpace c = false := by
      exact marker_head m _ _ t1
    have hXn : '\n' ∉ marker m ++ (h.action ++ (spaces (h.g1 + 1) ++ (h.proto ++ (spaces (h.g2 + 1) ++ (h.srcAddr ++ (spaces (h.g3 + 1) ++ (h.srcPort ++ (spaces (h.g4 + 1) ++ (h.dir ++ (spaces (h.g5 + 1) ++ (h.dstAddr))))))))))) := by
      simp [nm, n1, n2, n3, n4, n5, n6, n7, spaces_no_newline]
    have hY : ∃ c, (h.dstPort ++ (spaces (g + 1) ++ R)).head? = some c ∧
        isSpace c = false := t7.head _
    have hYn : '\n' ∉ (h.dstPort ++ (spaces (g + 1) ++ R)) := by
      simp [n1, n2, n3, n4, n5, n6, n7, spaces_no_newline, hRn]
    have hYl : (List.rdropWhile isSpace (h.dstPort ++ (spaces (g + 1) ++ R))).getLast? ≠
        some '\\' := by
      rw [hrY, List.getLast?_append_of_ne_nil _ hRne]
      exact hRl
    rw [eT, ParseReader_two_lines vd h.lead _ _ hX hXn hY hYn hYl, hrY]
    have eP : (marker m ++ (h.action ++ (spaces (h.g1 + 1) ++ (h.proto ++ (spaces (h.g2 + 1) ++ (h.srcAddr ++ (spaces (h.g3 + 1) ++ (h.srcPort ++ (spaces (h.g4 + 1) ++ (h.dir ++ (spaces (h.g5 + 1) ++ (h.dstAddr)))))))))))) ++ (' ' :: ' ' ::
        ((h.dstPort ++ spaces (g + 1)) ++ List.rdropWhile isSpace R)) =
        Header.textMarked { h with lead := 0, g6 := 1 } m
          (spaces (g + 1) ++ List.rdropWhile isSpace R) := by
      simp [Header.textMarked, Header.fields, spaces, List.replicate_succ, List.append_assoc]
    have eR : Header.fill { h with lead := 0, g6 := 1 } = h.fill := rfl
    rw [eP, Parse_marked vd { h with lead := 0, g6 := 1 } m _ t1 hh,
      parseFields_fields vd _ { h with lead := 0, g6 := 1 } t1 t2 t3 t4 t5 t6 t7 hd g _ hR2,
      eR, TrimSpace_rdropWhile, hpo]

theorem ParseReader_continued_witness :
    ParseReader validateDirection
        (scenario3Header.textBroken none 5 (spaces (0 + 1) ++ "(msg:\"joined\";)".toList)) =
      .returned ([joinedRule], none) ∧
    scenario3Header.textBroken none 5 (spaces (0 + 1) ++ "(msg:\"joined\";)".toList) =
      "alert tcp any any -> \\\nany any (msg:\"joined\";)".toList ∧
    Parse validateDirection "alert tcp any any -> any any (msg:\"joined\";)".toList =
      .returned (joinedRule, none) :=
  ⟨ParseReader_continued validateDirection scenario3Header none 5 0 "(msg:\"joined\";)".toList
    joinedRule (by decide) (by decide) (by decide) (by decide) (by decide),
    by decide, by decide⟩

/-- C17, as stated, fails for a rule with text behind its closing parenthesis
that ends with `\`: `Parse` succeeds on
`alert tcp any any -> any any (msg:"joined";)\`, but when the gap behind `->`
is replaced by a space, `\` and a newline the second physical line ends with
`\` too, is taken for a continued line, and `ParseReader` returns no rule. -/
theorem ParseReader_continued_counterexample :
    Parse validateDirection "alert tcp any any -> any any (msg:\"joined\";)\\".toList =
      .returned (joinedRule, none) ∧
    ParseReader validateDirection
        "alert tcp any any -> \\\nany any (msg:\"joined\";)\\".toList =
      .returned ([], none) := by
  decide

/-- C18 (the code at the failing input): the text `s` is the line
`alert tcp any any -> any any (msg:";)` with its newline, and it is followed by
one continued line, `alert tcp any any -> any any (sid:1;) \`.  `Parse` panics
on the line of `s`, and `ParseReader` panics on `s` and on `s` followed by the
continued line: it returns no list of rules and no nil error. -/
theorem ParseReader_dangling_lone_quote_panics :
    HasSuffix (TrimSpace "alert tcp any any -> any any (sid:1;) \\".toList) ['\\'] = true ∧
    ParseReader validateDirection "alert tcp any any -> any any (msg:\";)\n".toList =
      .panicked ∧
    ParseReader validateDirection
        ("alert tcp any any -> any any (msg:\";)\n".toList ++
          "alert tcp any any -> any any (sid:1;) \\".toList) =
      .panicked := by
  decide

end IdsRules
